import Mathlib

/-! Explicit free-list allocator (`mm.c`, `mm_list.c`)

A shallow embedding of the allocator: the heap is a byte-addressed memory
together with the break of the managed region and the three globals
`heap_blocks`, `mm_list_headp`, `mm_list_tailp`.  Every C function becomes a
function on that state which either returns a value and a new state or stops
with a fault.

* Addresses and C `int` values are integers.  A 32-bit word is stored
  little-endian in four bytes (the project is built with `-m32`).
* A word access of the allocator is legal only inside the managed region
  `[mem_start, mem_brk)`; any other access (in particular through a null
  pointer) stops the run with `Fault.segv`.  The byte copy of the C library,
  `memcpy`, has no such check: it copies wherever its two ranges lie.
* `int` arithmetic wraps to 32 bits (`wrap32`).
* Loops over the free list take a step budget; an exhausted budget stops the
  run with `Fault.fuel`.
-/

namespace Mm

/-! ## Machine model -/

/-- Ways in which a run stops without a result. -/
inductive Fault where
  | segv
  | fuel
deriving DecidableEq, Repr

/-- Result of running a piece of code. -/
abbrev Run (α : Type) := Except Fault α

/-- Allocator state: memory bytes, the managed region and the globals. -/
structure Heap where
  /-- Byte contents (a cell is read modulo 256). -/
  mem : Int → Int
  /-- First byte of the region handed out by `mem_sbrk`. -/
  mem_start : Int
  /-- Current break: one past the last managed byte. -/
  mem_brk : Int
  /-- Largest break `mem_sbrk` can grant. -/
  mem_max : Int
  /-- Global `heap_blocks`. -/
  heap_blocks : Int
  /-- Global `mm_list_headp`. -/
  mm_list_headp : Int
  /-- Global `mm_list_tailp`. -/
  mm_list_tailp : Int

/-- Two's-complement wrap of an integer to the range of a 32-bit `int`. -/
def wrap32 (x : Int) : Int := (x + 2147483648) % 4294967296 - 2147483648

/-- Conversion of an integer to an unsigned 32-bit value (`size_t`, pointers). -/
def toU32 (x : Int) : Int := x % 4294967296

/-- Byte at address `a`. -/
def byteAt (m : Int → Int) (a : Int) : Int := m a % 256

/-- Little-endian 32-bit word at address `a`, as an unsigned value. -/
def wordAt (m : Int → Int) (a : Int) : Int :=
  byteAt m a + 256 * byteAt m (a + 1) + 65536 * byteAt m (a + 2) + 16777216 * byteAt m (a + 3)

/-- Memory after writing the 32-bit word `v` (taken modulo 2^32) at address `a`. -/
def putWord (m : Int → Int) (a v : Int) : Int → Int := fun x =>
  if x = a then v % 256
  else if x = a + 1 then v / 256 % 256
  else if x = a + 2 then v / 65536 % 256
  else if x = a + 3 then v / 16777216 % 256
  else m x

/-- The four bytes at `a` lie inside the managed region. -/
def Heap.valid (s : Heap) (a : Int) : Prop := s.mem_start ≤ a ∧ a + 4 ≤ s.mem_brk

instance (s : Heap) (a : Int) : Decidable (s.valid a) := by
  unfold Heap.valid; infer_instance

/-- Read of a 32-bit word through a pointer (`*p`). -/
def load (s : Heap) (a : Int) : Run Int :=
  if s.valid a then .ok (wordAt s.mem a) else .error .segv

/-- Write of a 32-bit word through a pointer (`*p = v`). -/
def store (s : Heap) (a v : Int) : Run Heap :=
  if s.valid a then .ok { s with mem := putWord s.mem a v } else .error .segv

/-- Short-circuit `&&` of two conditions that read memory. -/
def andThen (c1 c2 : Run Bool) : Run Bool := do
  let b ← c1
  if b then c2 else pure false

/-! ## Block accessor (`mm_block.h`) and heap growth (`memlib`) -/

/-- Modelled from the spec: the Block Accessor is not part of the sources; a
header word encodes the size with the allocated flag in bit 0.  Decoding of
the size, `word & ~7` on an `int`. -/
def sizeOfWord (w : Int) : Int := wrap32 w - wrap32 w % 8

/-- Modelled from the spec: decoding of the allocated flag, `word & 1`. -/
def allocOfWord (w : Int) : Int := w % 2

/-- Modelled from the spec: encoding `size | allocated`; the callers pass sizes
that are multiples of 8 and a flag 0 or 1, for which the bitwise or is the sum. -/
def packWord (size alloc : Int) : Int := size + alloc

/-- Modelled from the spec: `block_size(b)`, read from the header of `bp`. -/
def mm_block_size (s : Heap) (bp : Int) : Run Int := do
  let w ← load s bp
  pure (sizeOfWord w)

/-- Modelled from the spec: `is_allocated(b)`, read from the header of `bp`. -/
def mm_block_allocated (s : Heap) (bp : Int) : Run Int := do
  let w ← load s bp
  pure (allocOfWord w)

/-- Modelled from the spec: `set_header(b, size, allocated)`. -/
def mm_block_set_header (s : Heap) (bp size alloc : Int) : Run Heap :=
  store s bp (packWord size alloc)

/-- Modelled from the spec: `set_footer(b, size, allocated)`; the footer is the
last word of the block, located through the size in the header of `bp`. -/
def mm_block_set_footer (s : Heap) (bp size alloc : Int) : Run Heap := do
  let sz ← mm_block_size s bp
  store s (bp + sz - 4) (packWord size alloc)

/-- Modelled from the spec: `address_next(b)`, the header right after the block. -/
def mm_block_next (s : Heap) (bp : Int) : Run Int := do
  let sz ← mm_block_size s bp
  pure (bp + sz)

/-- Modelled from the spec: `address_prev(b)`, located through the footer that
precedes the header of `bp`. -/
def mm_block_prev (s : Heap) (bp : Int) : Run Int := do
  let w ← load s (bp - 4)
  pure (bp - sizeOfWord w)

/-- Modelled from the spec: Heap Growth `grow(n_bytes)`; it fails, changing
nothing, for a negative request or one that passes the limit, and otherwise
moves the break and returns the old one. -/
def mem_sbrk (s : Heap) (incr : Int) : Option (Int × Heap) :=
  if incr < 0 ∨ s.mem_brk + incr > s.mem_max then none
  else some (s.mem_brk, { s with mem_brk := s.mem_brk + incr })

/-- The C library's `memcpy` of `n` bytes, as `mm_realloc` calls it.  It has no
access check of its own: the bytes are read and written wherever the two
ranges lie, inside the managed region or not.  Each byte written is the byte
the source range held before the call (for ranges that overlap C leaves the
result open). -/
def memcpy (s : Heap) (dst src n : Int) : Run Heap :=
  .ok { s with mem := fun x => if dst ≤ x ∧ x < dst + n then s.mem (src + (x - dst)) else s.mem x }

/-! ## Free list (`mm_list.c`) -/

def mm_list_init (s : Heap) : Heap :=
  { s with mm_list_headp := 0, mm_list_tailp := 0 }

def mm_list_prev (s : Heap) (bp : Int) : Run Int := load s (bp + 4)

def mm_list_next (s : Heap) (bp : Int) : Run Int := load s (bp + 8)

def mm_list_prev_set (s : Heap) (bp prev : Int) : Run Heap := store s (bp + 4) prev

def mm_list_next_set (s : Heap) (bp next : Int) : Run Heap := store s (bp + 8) next

def mm_list_prepend (s : Heap) (bp : Int) : Run Heap :=
  if s.mm_list_headp = 0 then do
    let s ← mm_list_prev_set s bp 0
    let s ← mm_list_next_set s bp 0
    pure { s with mm_list_tailp := bp, mm_list_headp := bp }
  else do
    let s ← mm_list_prev_set s bp 0
    let s ← mm_list_next_set s bp s.mm_list_headp
    let s ← mm_list_prev_set s s.mm_list_headp bp
    pure { s with mm_list_headp := bp }

def mm_list_append (s : Heap) (bp : Int) : Run Heap :=
  if s.mm_list_tailp = 0 then do
    let s ← mm_list_prev_set s bp 0
    let s ← mm_list_next_set s bp 0
    pure { s with mm_list_tailp := bp, mm_list_headp := bp }
  else do
    let s ← mm_list_prev_set s bp s.mm_list_tailp
    let s ← mm_list_next_set s bp 0
    let s ← mm_list_next_set s s.mm_list_tailp bp
    pure { s with mm_list_tailp := bp }

/-- The test `*p == 0`: reads the word `p` points to. -/
def derefIsZero (s : Heap) (p : Int) : Run Bool := do
  let w ← load s p
  pure (decide (w = 0))

/-- The test `*p != 0`: reads the word `p` points to. -/
def derefNonZero (s : Heap) (p : Int) : Run Bool := do
  let w ← load s p
  pure (decide (w ≠ 0))

def mm_list_remove (s : Heap) (bp : Int) : Run Heap := do
  let prev ← mm_list_prev s bp
  let next ← mm_list_next s bp
  if (← andThen (derefIsZero s prev) (derefIsZero s next)) then
    pure { s with mm_list_headp := 0, mm_list_tailp := 0 }
  else if (← andThen (derefIsZero s prev) (derefNonZero s next)) then
    let s ← mm_list_prev_set s next 0
    pure { s with mm_list_headp := next }
  else if (← andThen (derefNonZero s prev) (derefIsZero s next)) then
    let s ← mm_list_next_set s prev 0
    pure { s with mm_list_tailp := prev }
  else if (← andThen (derefNonZero s prev) (derefNonZero s next)) then
    let s ← mm_list_prev_set s next prev
    mm_list_next_set s prev next
  else
    pure s

/-! ## Allocator (`mm.c`) -/

def free_coalesce (s : Heap) (bp : Int) : Run (Int × Heap) := do
  let size ← mm_block_size s bp
  let s ← mm_block_set_header s bp size 0
  let s ← mm_block_set_footer s bp size 0
  let prev_alloc ← mm_block_allocated s (← mm_block_prev s bp)
  let next_alloc ← mm_block_allocated s (← mm_block_next s bp)
  if prev_alloc ≠ 0 ∧ next_alloc ≠ 0 then
    let s ← mm_list_append s bp
    pure (bp, s)
  else if prev_alloc ≠ 0 ∧ ¬ next_alloc ≠ 0 then
    let s ← mm_list_remove s (← mm_block_next s bp)
    let size := wrap32 (size + (← mm_block_size s (← mm_block_next s bp)))
    let s ← mm_block_set_header s bp size 0
    let s ← mm_block_set_footer s bp size 0
    let s ← mm_list_append s bp
    pure (bp, s)
  else if ¬ prev_alloc ≠ 0 ∧ next_alloc ≠ 0 then
    let size := wrap32 (size + (← mm_block_size s (← mm_block_prev s bp)))
    let s ← mm_block_set_header s (← mm_block_prev s bp) size 0
    let s ← mm_block_set_footer s (← mm_block_prev s bp) size 0
    pure (← mm_block_prev s bp, s)
  else
    let prev_free ← mm_block_prev s bp
    let next_free ← mm_block_next s bp
    let s ← mm_list_remove s next_free
    let size := wrap32 (size + (← mm_block_size s prev_free))
    let size := wrap32 (size + (← mm_block_size s next_free))
    let s ← mm_block_set_header s prev_free size 0
    let s ← mm_block_set_footer s prev_free size 0
    pure (← mm_block_prev s bp, s)

/-- Heap extension; the result pointer is 0 (`NULL`) when `mem_sbrk` fails. -/
def extend_heap (s : Heap) (size : Int) : Run (Int × Heap) :=
  match mem_sbrk s size with
  | none => pure (0, s)
  | some (bp, s) => do
    let old_epilogue := bp - 4
    let s ← mm_block_set_header s old_epilogue size 0
    let s ← mm_block_set_footer s old_epilogue size 0
    let s ← mm_block_set_header s (← mm_block_next s old_epilogue) 0 1
    free_coalesce s old_epilogue

/-- Heap bootstrap; the returned status is 0 on success and -1 on failure. -/
def mm_init (s : Heap) : Run (Int × Heap) :=
  let s := mm_list_init s
  match mem_sbrk s 16 with
  | none => pure (-1, s)
  | some (new_region, s) => do
    let s := { s with heap_blocks := new_region }
    let s ← mm_block_set_header s s.heap_blocks 0 0
    let s ← mm_block_set_header s (s.heap_blocks + 4) 8 1
    let s ← mm_block_set_footer s (s.heap_blocks + 4) 8 1
    let s ← mm_block_set_header s (s.heap_blocks + 12) 0 1
    let s := { s with heap_blocks := s.heap_blocks + 4 }
    let (r, s) ← extend_heap s 5000
    if r = 0 then pure (-1, s) else pure (0, s)

def mm_free (s : Heap) (bp : Int) : Run Heap :=
  if bp = 0 then pure s
  else do
    let bp := bp - 4
    let (_, s) ← free_coalesce s bp
    pure s

/-- Scan of `find_fit` from a list entry towards the tail (`size > 1024`). -/
def find_fit_head (s : Heap) (size : Int) : Nat → Int → Run Int
  | 0, _ => .error .fuel
  | k + 1, tmp =>
    if tmp ≠ 0 then do
      if (← mm_block_size s tmp) ≥ size then
        pure tmp
      else
        find_fit_head s size k (← mm_list_next s tmp)
    else pure 0

/-- Scan of `find_fit` from a list entry towards the head (`size ≤ 1024`). -/
def find_fit_tail (s : Heap) (size : Int) : Nat → Int → Run Int
  | 0, _ => .error .fuel
  | k + 1, tmp =>
    if tmp ≠ 0 then do
      if (← mm_block_size s tmp) ≥ size then
        pure tmp
      else
        find_fit_tail s size k (← mm_list_prev s tmp)
    else pure 0

/-- The function `find_fit`; `fuel` bounds the number of loop tests. -/
def find_fit (s : Heap) (fuel : Nat) (size : Int) : Run Int :=
  if size > 1024 then find_fit_head s size fuel s.mm_list_headp
  else find_fit_tail s size fuel s.mm_list_tailp

def place (s : Heap) (bp size : Int) : Run (Int × Heap) := do
  let bp_size ← mm_block_size s bp
  let rest := wrap32 (bp_size - size)
  let s ← mm_list_remove s bp
  if rest > 512 then
    if rest > 1024 then
      let s ← mm_block_set_header s bp rest 0
      let s ← mm_block_set_footer s bp rest 0
      let s ← mm_list_append s bp
      let s ← mm_block_set_header s (← mm_block_next s bp) size 1
      let s ← mm_block_set_footer s (← mm_block_next s bp) size 1
      pure (← mm_block_next s bp, s)
    else
      let s ← mm_block_set_header s bp size 1
      let s ← mm_block_set_footer s bp size 1
      let s ← mm_block_set_header s (← mm_block_next s bp) rest 0
      let s ← mm_block_set_footer s (← mm_block_next s bp) rest 0
      let (_, s) ← free_coalesce s (← mm_block_next s bp)
      pure (bp, s)
  else
    let s ← mm_block_set_header s bp bp_size 1
    let s ← mm_block_set_footer s bp bp_size 1
    pure (bp, s)

/-- C integer division by 8 (truncation towards zero). -/
def cdiv8 (x : Int) : Int := if 0 ≤ x then x / 8 else -((-x) / 8)

def required_block_size (payload_size : Int) : Int :=
  let payload_size := wrap32 (payload_size + 8)
  wrap32 (cdiv8 (wrap32 (payload_size + 7)) * 8)

/-- The function `mm_malloc`; `size` is a `size_t`, converted to `int` for
`required_block_size`. -/
def mm_malloc (s : Heap) (fuel : Nat) (size : Int) : Run (Int × Heap) :=
  if size = 0 then pure (0, s)
  else do
    let required_size := required_block_size (wrap32 size)
    let block_extension := max 4096 required_size
    let tmp ← find_fit s fuel required_size
    if tmp ≠ 0 then
      let (r, s) ← place s tmp required_size
      pure (r + 4, s)
    else
      let (tmp, s) ← extend_heap s block_extension
      let (r, s) ← place s tmp required_size
      pure (r + 4, s)

/-- Number of bytes `mm_realloc` copies on its fallback path. -/
def num_bytes (required_size : Int) : Int := wrap32 (required_size - 8)

def mm_realloc (s : Heap) (fuel : Nat) (ptr size : Int) : Run (Int × Heap) :=
  if ptr = 0 then mm_malloc s fuel size
  else if size = 0 then do
    let s ← mm_free s ptr
    pure (0, s)
  else do
    let ptr_block := ptr - 4
    let next_block ← mm_block_next s ptr_block
    let ptr_block_size ← mm_block_size s ptr_block
    let next_size ← mm_block_size s next_block
    let required_size := required_block_size (wrap32 size)
    let new_size := wrap32 (ptr_block_size + next_size)
    if ptr_block_size ≥ required_size then
      pure (ptr, s)
    else if (← andThen (pure (decide (next_block ≠ 0 ∧ new_size ≥ required_size)))
        (do pure (decide ((← mm_block_allocated s next_block) = 0)))) then
      let s ← mm_list_remove s next_block
      let s ← mm_block_set_header s ptr_block new_size 1
      let s ← mm_block_set_footer s ptr_block new_size 1
      pure (ptr, s)
    else
      let (ptr_block, s) ← mm_malloc s fuel (toU32 required_size)
      let s ← memcpy s ptr_block ptr (toU32 (num_bytes required_size))
      let s ← mm_free s ptr
      pure (ptr_block, s)

/-! ## Specification vocabulary -/

/-- Size recorded in the header at `b` (no access check). -/
def blockSize (s : Heap) (b : Int) : Int := sizeOfWord (wordAt s.mem b)

/-- Allocated flag recorded in the header at `b` (no access check). -/
def blockAlloc (s : Heap) (b : Int) : Int := allocOfWord (wordAt s.mem b)

/-- Last element of a list, or `d` for the empty list. -/
def lastD : List Int → Int → Int
  | [], d => d
  | x :: xs, _ => lastD xs x

/-- A stretch of the doubly linked free list: the entries `xs` in list order,
each a non-null pointer to a readable header and pair of links, the first one
linked back to `p` and the last one linked on to `n`. -/
def Seg (s : Heap) : Int → List Int → Int → Prop
  | _, [], _ => True
  | p, x :: xs, n =>
    x ≠ 0 ∧ s.valid x ∧ s.valid (x + 4) ∧ s.valid (x + 8) ∧
    wordAt s.mem (x + 4) = p ∧ wordAt s.mem (x + 8) = xs.headD n ∧ Seg s x xs n

/-- The free list is well formed and holds exactly the entries `fl`, in order
from `mm_list_headp` to `mm_list_tailp`; both are null when it is empty. -/
def FreeList (s : Heap) (fl : List Int) : Prop :=
  s.mm_list_headp = fl.headD 0 ∧ s.mm_list_tailp = lastD fl 0 ∧ Seg s 0 fl 0

/-- Order in which `find_fit` visits the free list for a request of `size`. -/
def scanOrder (fl : List Int) (size : Int) : List Int :=
  if size > 1024 then fl else fl.reverse

/-- First entry in scan order that is large enough, or 0 when there is none. -/
def firstFit (s : Heap) (fl : List Int) (size : Int) : Int :=
  ((scanOrder fl size).find? (fun b => decide (blockSize s b ≥ size))).getD 0


/-! ## Concrete heaps -/

/-- Untouched region at address 4096 that can grow to 5016 bytes: exactly
what `mm_init` asks for. -/
def rawHeap : Heap :=
  { mem := fun _ => 0, mem_start := 4096, mem_brk := 4096, mem_max := 9112,
    heap_blocks := 0, mm_list_headp := 0, mm_list_tailp := 0 }

/-- State left by `mm_init` (the start state itself when `mm_init` faults). -/
def afterInit (s : Heap) : Heap :=
  match mm_init s with
  | .ok (_, t) => t
  | .error _ => s

/-- The run stopped on an illegal memory access. -/
def isSegv {α : Type} (r : Run α) : Bool :=
  match r with
  | .error .segv => true
  | _ => false

/-- Memory holding the given words over a zeroed background. -/
def memOf : List (Int × Int) → Int → Int
  | [] => fun _ => 0
  | (a, v) :: ws => putWord (memOf ws) a v

/-- A heap with three free blocks `A = 4108` (32 bytes), `B = 4156` (1600
bytes), `C = 5772` (32 bytes), on the free list in that order, separated by the
allocated 16-byte blocks `4140` and `5756`. -/
def demoHeap : Heap :=
  { mem := memOf [(4100, 9), (4104, 9),
      (4108, 32), (4112, 0), (4116, 4156), (4136, 32),
      (4140, 17), (4152, 17),
      (4156, 1600), (4160, 4108), (4164, 5772), (5752, 1600),
      (5756, 17), (5768, 17),
      (5772, 32), (5776, 4156), (5780, 0), (5800, 32),
      (5804, 1)],
    mem_start := 4096, mem_brk := 5808, mem_max := 24096,
    heap_blocks := 4100, mm_list_headp := 4108, mm_list_tailp := 5772 }


/-- Pointer returned by a run, when it returns. -/
def okPtr (r : Run (Int × Heap)) : Option Int :=
  match r with
  | .ok (p, _) => some p
  | .error _ => none

/-- Word at address `a` in the state a run ends in, when it returns. -/
def okWord (r : Run (Int × Heap)) (a : Int) : Option Int :=
  match r with
  | .ok (_, t) => some (wordAt t.mem a)
  | .error _ => none

/-! ## Heap invariants -/

/-- A block of the heap as seen by the address-order scan: header address,
size in bytes (header and footer included) and allocated flag. -/
structure Block where
  addr : Int
  size : Int
  alloc : Int
deriving DecidableEq, Repr

/-- Address one past the blocks `bs` laid out from address `a`. -/
def endOf (a : Int) : List Block → Int
  | [] => a
  | b :: bs => endOf (a + b.size) bs

/-- The blocks `bs` tile the bytes from `a` on without gap or overlap: each
block starts where the previous one ends, its size is a multiple of 8 and at
least the minimum block size 16, and its header and footer both hold its size
and flag (I1, I4). -/
def TSeg (s : Heap) : Int → List Block → Prop
  | _, [] => True
  | a, b :: bs =>
    b.addr = a ∧ 16 ≤ b.size ∧ b.size % 8 = 0 ∧ (b.alloc = 0 ∨ b.alloc = 1) ∧
    wordAt s.mem a = b.size + b.alloc ∧ wordAt s.mem (a + b.size - 4) = b.size + b.alloc ∧
    TSeg s (a + b.size) bs

/-- The managed region is a non-null part of the 32-bit address space whose
extent fits an `int`. -/
def Region (s : Heap) : Prop :=
  0 < s.mem_start ∧ s.mem_brk ≤ s.mem_max ∧ s.mem_max ≤ 4294967296 ∧
  s.mem_max - s.mem_start < 2147483648

/-- P1 (tiling): the prologue (8 bytes, allocated) sits at `heap_blocks`, the
blocks `bs` follow it one after the other, and they end exactly at the
epilogue header (size 0, allocated), the last word of the managed region. -/
def Tiling (s : Heap) (bs : List Block) : Prop :=
  s.mem_start + 4 ≤ s.heap_blocks ∧
  wordAt s.mem s.heap_blocks = 9 ∧ wordAt s.mem (s.heap_blocks + 4) = 9 ∧
  TSeg s (s.heap_blocks + 8) bs ∧
  endOf (s.heap_blocks + 8) bs + 4 = s.mem_brk ∧
  wordAt s.mem (endOf (s.heap_blocks + 8) bs) = 1

/-- P2 (no-adjacent-free): no two consecutive blocks are both free. -/
def NoAdjFree : List Block → Prop
  | [] => True
  | [_] => True
  | b :: c :: bs => ¬ (b.alloc = 0 ∧ c.alloc = 0) ∧ NoAdjFree (c :: bs)

/-- P3 (free-list fidelity): the free list holds the entries `fl`, each once,
and they are exactly the addresses of the free blocks of `bs`. -/
def Fidelity (s : Heap) (bs : List Block) (fl : List Int) : Prop :=
  FreeList s fl ∧ fl.Nodup ∧ ∀ a, a ∈ fl ↔ ∃ b ∈ bs, b.addr = a ∧ b.alloc = 0

/-- Well-formed heap: the region is sane and P1, P2, P3 hold for the blocks
`bs` and the free-list entries `fl`. -/
def WF (s : Heap) (bs : List Block) (fl : List Int) : Prop :=
  Region s ∧ Tiling s bs ∧ NoAdjFree bs ∧ Fidelity s bs fl

/-- Runs of the allocator from the state `s0` with the live payload pointers
`live0`: calls of `mm_malloc`, `mm_free` and `mm_realloc` that return, together
with the payload pointers that are allocated after them.  `mm_free` and
`mm_realloc` are only called on null or on a live pointer; sizes are `size_t`
values. -/
inductive ReachFrom (s0 : Heap) (live0 : List Int) : Heap → List Int → Prop
  | start : ReachFrom s0 live0 s0 live0
  | malloc (s t : Heap) (live : List Int) (fuel : Nat) (n p : Int) :
      ReachFrom s0 live0 s live → 0 ≤ n → n < 4294967296 →
      mm_malloc s fuel n = .ok (p, t) →
      ReachFrom s0 live0 t (if p = 0 then live else p :: live)
  | free (s t : Heap) (live : List Int) (p : Int) :
      ReachFrom s0 live0 s live → p = 0 ∨ p ∈ live →
      mm_free s p = .ok t →
      ReachFrom s0 live0 t (live.erase p)
  | realloc (s t : Heap) (live : List Int) (fuel : Nat) (p n q : Int) :
      ReachFrom s0 live0 s live → p = 0 ∨ p ∈ live → 0 ≤ n → n < 4294967296 →
      mm_realloc s fuel p n = .ok (q, t) →
      ReachFrom s0 live0 t (if q = 0 then live.erase p else q :: live.erase p)

/-- States reachable from a successful `mm_init` (status 0) on an untouched
region, with the payload pointers that are live in them. -/
def Reach (s : Heap) (live : List Int) : Prop :=
  ∃ raw s0, Region raw ∧ mm_init raw = .ok (0, s0) ∧ ReachFrom s0 [] s live

/-- State after writing the word `v` at `a` (no access check). -/
def Heap.put (s : Heap) (a v : Int) : Heap := { s with mem := putWord s.mem a v }

/-- Distinct list entries are at least a minimum block (16 bytes) apart. -/
def Apart (fl : List Int) : Prop :=
  ∀ x ∈ fl, ∀ y ∈ fl, x = y ∨ x + 16 ≤ y ∨ y + 16 ≤ x

/-- The states `s` and `t` hold the same bytes at every address in `P`. -/
def Agree (s t : Heap) (P : Int → Prop) : Prop := ∀ x, P x → t.mem x = s.mem x

/-- The states `s` and `t` have the same region and the same `heap_blocks`. -/
def SameShape (s t : Heap) : Prop :=
  t.mem_start = s.mem_start ∧ t.mem_brk = s.mem_brk ∧ t.mem_max = s.mem_max ∧
  t.heap_blocks = s.heap_blocks

/-- Byte addresses an operation working on the range `[lo, hi)` leaves alone:
everything outside the range except the two link words of the free-list
entries `fl`. -/
def Untouched (lo hi : Int) (fl : List Int) (x : Int) : Prop :=
  (x < lo ∨ hi ≤ x) ∧ ∀ a ∈ fl, x < a + 4 ∨ a + 12 ≤ x

/-- Allocated flag of the block before the work range: the last block of
`pre`, or the prologue (allocated) when there is none. -/
def lastBlockAlloc : List Block → Int
  | [] => 1
  | [c] => c.alloc
  | _ :: c :: cs => lastBlockAlloc (c :: cs)

/-- Size of the block before the work range: the last block of `pre`, or the
prologue (8 bytes) when there is none. -/
def lastBlockSize : List Block → Int
  | [] => 8
  | [c] => c.size
  | _ :: c :: cs => lastBlockSize (c :: cs)

/-- Allocated flag of the block after the work range: the first block of
`post`, or the epilogue (allocated) when there is none. -/
def headBlockAlloc : List Block → Int
  | [] => 1
  | c :: _ => c.alloc

/-- Size of the block after the work range (0 for the epilogue). -/
def headBlockSize : List Block → Int
  | [] => 0
  | c :: _ => c.size

/-- A heap that is well formed except that the block `b` is not accounted as
free yet: whatever its flag in memory, the free list and the neighbour
condition treat it as allocated.  This is the state `free_coalesce` starts in. -/
def WFx (s : Heap) (pre : List Block) (b : Block) (post : List Block) (fl : List Int) : Prop :=
  Region s ∧ Tiling s (pre ++ b :: post) ∧
  NoAdjFree (pre ++ { b with alloc := 1 } :: post) ∧
  FreeList s fl ∧ fl.Nodup ∧ ∀ a, a ∈ fl ↔ ∃ c ∈ pre ++ post, c.addr = a ∧ c.alloc = 0

/-- Outcome of `free_coalesce` on the block `b` lying between the blocks `pre`
and `post`, case by case: the returned header address `r`, the blocks and the
free list of the final state `t`, and the bytes left alone. -/
def CoalesceResult (s t : Heap) (pre : List Block) (b : Block) (post : List Block)
    (fl : List Int) (r : Int) : Prop :=
  (lastBlockAlloc pre ≠ 0 ∧ headBlockAlloc post ≠ 0 ∧ r = b.addr ∧
    WF t (pre ++ { b with alloc := 0 } :: post) (fl ++ [b.addr]) ∧
    Agree s t (Untouched b.addr (b.addr + b.size) fl)) ∨
  (∃ n post1 l1 l2, lastBlockAlloc pre ≠ 0 ∧ post = n :: post1 ∧ n.alloc = 0 ∧
    fl = l1 ++ n.addr :: l2 ∧ r = b.addr ∧
    WF t (pre ++ { b with size := b.size + n.size, alloc := 0 } :: post1)
      (l1 ++ l2 ++ [b.addr]) ∧
    Agree s t (Untouched b.addr (n.addr + n.size) fl)) ∨
  (∃ pre1 c, pre = pre1 ++ [c] ∧ c.alloc = 0 ∧ headBlockAlloc post ≠ 0 ∧ r = c.addr ∧
    WF t (pre1 ++ { c with size := c.size + b.size } :: post) fl ∧
    Agree s t (Untouched c.addr (b.addr + b.size) fl)) ∨
  (∃ pre1 c n post1 l1 l2, pre = pre1 ++ [c] ∧ c.alloc = 0 ∧ post = n :: post1 ∧
    n.alloc = 0 ∧ fl = l1 ++ n.addr :: l2 ∧ r = c.addr ∧
    WF t (pre1 ++ { c with size := c.size + b.size + n.size } :: post1) (l1 ++ l2) ∧
    Agree s t (Untouched c.addr (n.addr + n.size) fl))

/-- The payload bytes of the block `c` (everything between its header and its
footer) are the same in `s` and `t`. -/
def Kept (s t : Heap) (c : Block) : Prop :=
  ∀ x, c.addr + 4 ≤ x → x < c.addr + c.size - 4 → t.mem x = s.mem x

/-- Every allocated block of `bs` other than the one at `ex` is still a block
of `bs2`, with the payload it had. -/
def KeepsAllocated (s t : Heap) (bs bs2 : List Block) (ex : Int) : Prop :=
  ∀ c ∈ bs, c.alloc = 1 → c.addr ≠ ex → c ∈ bs2 ∧ Kept s t c

/-- Outcome of `place` on the free block `b` for a block size `size`, by the
size of the remainder: the returned header address `r`, the blocks and the
free list of the final state `t`, and the bytes left alone. -/
def PlaceResult (s t : Heap) (pre : List Block) (b : Block) (post : List Block)
    (fl : List Int) (size r : Int) : Prop :=
  ∃ l1 l2, fl = l1 ++ b.addr :: l2 ∧
    ((b.size - size > 1024 ∧ r = b.addr + (b.size - size) ∧
      WF t (pre ++ { addr := b.addr, size := b.size - size, alloc := 0 } ::
        { addr := b.addr + (b.size - size), size := size, alloc := 1 } :: post)
        (l1 ++ l2 ++ [b.addr])) ∨
     (512 < b.size - size ∧ b.size - size ≤ 1024 ∧ r = b.addr ∧
      WF t (pre ++ { addr := b.addr, size := size, alloc := 1 } ::
        { addr := b.addr + size, size := b.size - size, alloc := 0 } :: post)
        (l1 ++ l2 ++ [b.addr + size])) ∨
     (b.size - size ≤ 512 ∧ r = b.addr ∧
      WF t (pre ++ { b with alloc := 1 } :: post) (l1 ++ l2))) ∧
    Agree s t (Untouched b.addr (b.addr + b.size) fl)

/-- Blocks of `demoHeap` in address order. -/
def demoBlocks : List Block :=
  [{ addr := 4108, size := 32, alloc := 0 }, { addr := 4140, size := 16, alloc := 1 },
   { addr := 4156, size := 1600, alloc := 0 }, { addr := 5756, size := 16, alloc := 1 },
   { addr := 5772, size := 32, alloc := 0 }]

/-- Free-list entries of `demoHeap` from head to tail. -/
def demoFree : List Int := [4108, 4156, 5772]

/-- Smallest multiple of 8 that is at least `x`. -/
def roundUp8 (x : Int) : Int := (x + 7) / 8 * 8

/-- The heap is well formed for some blocks and free-list entries, and the
pointers in `live` are the payloads of distinct allocated blocks. -/
def Consistent (s : Heap) (live : List Int) : Prop :=
  ∃ bs fl, WF s bs fl ∧ live.Nodup ∧ ∀ p ∈ live, ∃ b ∈ bs, b.addr = p - 4 ∧ b.alloc = 1

/-- Address-order scan of the heap from the header at `a`: each step reads the
header and moves on by the size found there, until a header of size 0 (the
epilogue); the result is the blocks visited and the address of that header. -/
def heapWalk (s : Heap) : Nat → Int → Option (List Block × Int)
  | 0, _ => none
  | fuel + 1, a =>
    if blockSize s a = 0 then some ([], a)
    else match heapWalk s fuel (a + blockSize s a) with
      | none => none
      | some (bs, e) => some ({ addr := a, size := blockSize s a, alloc := blockAlloc s a } :: bs, e)

/-- Traversal of the free list from the entry `p` through the `next_free`
links, until the null link. -/
def listWalk (s : Heap) : Nat → Int → Option (List Int)
  | 0, _ => none
  | fuel + 1, p =>
    if p = 0 then some []
    else match listWalk s fuel (wordAt s.mem (p + 8)) with
      | none => none
      | some xs => some (p :: xs)

/-- Heap after the caller has written the bytes `pat 0`, ..., `pat (n - 1)` to
the addresses `p`, ..., `p + n - 1`. -/
def writeBytes (s : Heap) (p n : Int) (pat : Int → Int) : Heap :=
  { s with mem := fun x => if p ≤ x ∧ x < p + n then pat (x - p) % 256 else s.mem x }

/-- The fallback of `mm_realloc` as the specification words it: allocate a
fresh block for `size`, copy `required - overhead` bytes out of the old block,
free the old block and return the new payload pointer. -/
def spec_realloc_fallback (s : Heap) (fuel : Nat) (ptr size : Int) : Run (Int × Heap) := do
  let (q, t) ← mm_malloc s fuel size
  let t ← memcpy t q ptr (toU32 (num_bytes (required_block_size (wrap32 size))))
  let t ← mm_free t ptr
  pure (q, t)

/-! ## A run on the demonstration heap -/

/-- State a run ends in; the state `d` when the run stops with a fault. -/
def stateAfter (d : Heap) (r : Run (Int × Heap)) : Heap :=
  match r with
  | .ok (_, t) => t
  | .error _ => d

/-- State a call of `mm_free` leaves; the state `d` when it stops with a
fault. -/
def freedState (d : Heap) (r : Run Heap) : Heap :=
  match r with
  | .ok t => t
  | .error _ => d

/-- Whether a run returns. -/
def returns {α : Type} (r : Run α) : Bool :=
  match r with
  | .ok _ => true
  | .error _ => false

/-- Step 1 of the run on `demoHeap`: `mm_realloc(5760, 100)`; the block at 5756
has 16 bytes and its free neighbour 32, so the call takes the fallback path. -/
def demoStep1 : Heap := stateAfter demoHeap (mm_realloc demoHeap 10 5760 100)

/-- Step 2 of the run: `mm_malloc(100)`, served by splitting a free block. -/
def demoStep2 : Heap := stateAfter demoStep1 (mm_malloc demoStep1 10 100)

/-- Step 3 of the run: `mm_malloc(2000)`; no free block fits and the heap is
extended. -/
def demoStep3 : Heap := stateAfter demoStep2 (mm_malloc demoStep2 10 2000)

/-- Step 4 of the run: `mm_free` of the pointer step 2 returned; the block is
merged with its free predecessor. -/
def demoStep4 : Heap := freedState demoStep3 (mm_free demoStep3 5528)

/-- Step 5 of the run: `mm_realloc(4144, 100)`; the block at 4140 has 16 bytes
and merges with the free block after it. -/
def demoStep5 : Heap := stateAfter demoStep4 (mm_realloc demoStep4 10 4144 100)

/-- The heap `mm_malloc(100)` leaves on `demoHeap`. -/
def demoFresh : Heap := stateAfter demoHeap (mm_malloc demoHeap 10 100)

/-- Byte pattern `1, 2, 3, ...` written to a payload. -/
def demoPattern (i : Int) : Int := i + 1

/-! ## Basic facts -/

@[simp] theorem run_bind_ok {α β : Type} (a : α) (f : α → Run β) :
    (bind (Except.ok a : Run α) f) = f a := rfl

@[simp] theorem run_bind_error {α β : Type} (e : Fault) (f : α → Run β) :
    (bind (Except.error e : Run α) f) = Except.error e := rfl

@[simp] theorem run_pure {α : Type} (a : α) : (pure a : Run α) = Except.ok a := rfl

theorem wordAt_putWord_same (m : Int → Int) (a v : Int) :
    wordAt (putWord m a v) a = v % 4294967296 := by
  simp only [wordAt, byteAt, putWord]
  have h1 : a + 1 ≠ a := by omega
  have h2 : a + 2 ≠ a := by omega
  have h3 : a + 3 ≠ a := by omega
  have h4 : a + 2 ≠ a + 1 := by omega
  have h5 : a + 3 ≠ a + 1 := by omega
  have h6 : a + 3 ≠ a + 2 := by omega
  simp only [if_true, h1, h2, h3, h4, h5, h6, if_false]
  omega

theorem wordAt_putWord_other (m : Int → Int) (a b v : Int) (h : a + 4 ≤ b ∨ b + 4 ≤ a) :
    wordAt (putWord m a v) b = wordAt m b := by
  simp only [wordAt, byteAt, putWord]
  have e0 : ∀ k : Int, 0 ≤ k → k < 4 → ∀ j : Int, 0 ≤ j → j < 4 → b + k ≠ a + j := by
    intro k hk1 hk2 j hj1 hj2; omega
  have h00 := e0 0 (by omega) (by omega) 0 (by omega) (by omega)
  have h01 := e0 0 (by omega) (by omega) 1 (by omega) (by omega)
  have h02 := e0 0 (by omega) (by omega) 2 (by omega) (by omega)
  have h03 := e0 0 (by omega) (by omega) 3 (by omega) (by omega)
  have h10 := e0 1 (by omega) (by omega) 0 (by omega) (by omega)
  have h11 := e0 1 (by omega) (by omega) 1 (by omega) (by omega)
  have h12 := e0 1 (by omega) (by omega) 2 (by omega) (by omega)
  have h13 := e0 1 (by omega) (by omega) 3 (by omega) (by omega)
  have h20 := e0 2 (by omega) (by omega) 0 (by omega) (by omega)
  have h21 := e0 2 (by omega) (by omega) 1 (by omega) (by omega)
  have h22 := e0 2 (by omega) (by omega) 2 (by omega) (by omega)
  have h23 := e0 2 (by omega) (by omega) 3 (by omega) (by omega)
  have h30 := e0 3 (by omega) (by omega) 0 (by omega) (by omega)
  have h31 := e0 3 (by omega) (by omega) 1 (by omega) (by omega)
  have h32 := e0 3 (by omega) (by omega) 2 (by omega) (by omega)
  have h33 := e0 3 (by omega) (by omega) 3 (by omega) (by omega)
  simp only [add_zero] at h00 h01 h02 h03 h10 h20 h30
  simp only [h00, h01, h02, h03, h10, h11, h12, h13, h20, h21, h22, h23, h30, h31, h32, h33, if_false]

theorem wordAt_range (m : Int → Int) (a : Int) : 0 ≤ wordAt m a ∧ wordAt m a < 4294967296 := by
  simp only [wordAt, byteAt]
  omega

theorem load_of_valid {s : Heap} {a : Int} (h : s.valid a) : load s a = .ok (wordAt s.mem a) := by
  simp [load, h]

theorem mm_block_size_of_valid {s : Heap} {a : Int} (h : s.valid a) :
    mm_block_size s a = .ok (blockSize s a) := by
  simp [mm_block_size, load_of_valid h, blockSize]

theorem lastD_concat (xs : List Int) (x d : Int) : lastD (xs ++ [x]) d = x := by
  induction xs generalizing d with
  | nil => rfl
  | cons y ys ih => exact ih y

theorem Seg_append (s : Heap) (xs ys : List Int) (p n : Int) :
    Seg s p (xs ++ ys) n ↔ Seg s p xs (ys.headD n) ∧ Seg s (lastD xs p) ys n := by
  induction xs generalizing p with
  | nil => simp [Seg, lastD]
  | cons x xs ih =>
    have e1 : (xs ++ ys).headD n = xs.headD (ys.headD n) := by cases xs <;> simp
    show (_ ∧ _ ∧ _ ∧ _ ∧ _ ∧ _ = (xs ++ ys).headD n ∧ Seg s x (xs ++ ys) n) ↔
      (_ ∧ _ ∧ _ ∧ _ ∧ _ ∧ _ ∧ Seg s x xs (ys.headD n)) ∧ Seg s (lastD xs x) ys n
    rw [e1, ih x]
    tauto

theorem find_fit_head_spec (s : Heap) (size : Int) (xs : List Int) :
    ∀ (fuel : Nat) (p : Int), Seg s p xs 0 → xs.length < fuel →
      find_fit_head s size fuel (xs.headD 0) =
        .ok ((xs.find? (fun b => decide (blockSize s b ≥ size))).getD 0) := by
  induction xs with
  | nil =>
    intro fuel p _ hf
    cases fuel with
    | zero => simp at hf
    | succ k => simp [find_fit_head]
  | cons x xs ih =>
    intro fuel p h hf
    obtain ⟨hx0, hv, _, hv8, _, hn, hrest⟩ := h
    cases fuel with
    | zero => simp at hf
    | succ k =>
      have hk : xs.length < k := by simpa using hf
      simp only [List.headD_cons, find_fit_head, ne_eq, hx0, not_false_eq_true, if_true,
        mm_block_size_of_valid hv, run_bind_ok, List.find?_cons]
      by_cases hsz : blockSize s x ≥ size
      · simp [hsz]
      · simp only [hsz, if_false, decide_False, mm_list_next, load_of_valid hv8, run_bind_ok, hn]
        exact ih k x hrest hk

theorem find_fit_tail_spec (s : Heap) (size : Int) (xs : List Int) :
    ∀ (fuel : Nat) (n : Int), Seg s 0 xs n → xs.length < fuel →
      find_fit_tail s size fuel (lastD xs 0) =
        .ok ((xs.reverse.find? (fun b => decide (blockSize s b ≥ size))).getD 0) := by
  induction xs using List.reverseRecOn with
  | nil =>
    intro fuel n _ hf
    cases fuel with
    | zero => simp at hf
    | succ k => simp [find_fit_tail, lastD]
  | append_singleton xs x ih =>
    intro fuel n h hf
    rw [Seg_append] at h
    obtain ⟨hpre, hx0, hv, hv4, _, hp, _, _⟩ := h
    cases fuel with
    | zero => simp at hf
    | succ k =>
      have hk : xs.length < k := by simpa using hf
      simp only [lastD_concat, find_fit_tail, ne_eq, hx0, not_false_eq_true, if_true,
        mm_block_size_of_valid hv, run_bind_ok, List.reverse_append, List.reverse_cons,
        List.reverse_nil, List.nil_append, List.singleton_append, List.find?_cons]
      by_cases hsz : blockSize s x ≥ size
      · simp [hsz]
      · simp only [hsz, if_false, decide_False, mm_list_prev, load_of_valid hv4, run_bind_ok, hp]
        exact ih k _ hpre hk

theorem Seg_ne_zero {s : Heap} {xs : List Int} {p n : Int} (h : Seg s p xs n) :
    ∀ b ∈ xs, b ≠ 0 := by
  induction xs generalizing p with
  | nil => simp
  | cons x xs ih =>
    intro b hb
    rcases List.mem_cons.mp hb with rfl | hb
    · exact h.1
    · exact ih h.2.2.2.2.2.2 b hb

/-- On a well-linked free list and with a step budget above its length,
`find_fit` returns the first entry in scan order that is large enough. -/
theorem find_fit_spec (s : Heap) (fl : List Int) (size : Int) (fuel : Nat)
    (hwf : FreeList s fl) (hfuel : fl.length < fuel) :
    find_fit s fuel size = .ok (firstFit s fl size) ∧
    (firstFit s fl size ≠ 0 → firstFit s fl size ∈ fl ∧ blockSize s (firstFit s fl size) ≥ size) ∧
    (firstFit s fl size = 0 ↔ ∀ b ∈ fl, blockSize s b < size) := by
  obtain ⟨hh, ht, hseg⟩ := hwf
  have hmem : ∀ b ∈ scanOrder fl size, b ∈ fl := by
    intro b hb; unfold scanOrder at hb; split at hb <;> simpa using hb
  have hmem2 : ∀ b ∈ fl, b ∈ scanOrder fl size := by
    intro b hb; unfold scanOrder; split <;> simpa using hb
  refine ⟨?_, ?_, ?_⟩
  · unfold find_fit firstFit scanOrder
    by_cases hs : size > 1024
    · simp only [hs, if_true, hh]
      exact find_fit_head_spec s size fl fuel 0 hseg hfuel
    · simp only [hs, if_false, ht]
      exact find_fit_tail_spec s size fl fuel 0 hseg hfuel
  · intro hne
    unfold firstFit at hne ⊢
    cases hfind : (scanOrder fl size).find? (fun b => decide (blockSize s b ≥ size)) with
    | none => simp [hfind] at hne
    | some r =>
      simp only [Option.getD_some]
      have h1 := List.find?_some hfind
      have h2 := List.mem_of_find?_eq_some hfind
      exact ⟨hmem r h2, by simpa using h1⟩
  · unfold firstFit
    cases hfind : (scanOrder fl size).find? (fun b => decide (blockSize s b ≥ size)) with
    | none =>
      simp only [Option.getD_none, true_iff]
      intro b hb
      have := List.find?_eq_none.mp hfind b (hmem2 b hb)
      simpa using this
    | some r =>
      simp only [Option.getD_some]
      have h1 := List.find?_some hfind
      have h2 := List.mem_of_find?_eq_some hfind
      constructor
      · intro h0
        exact absurd h0 (Seg_ne_zero hseg r (hmem r h2))
      · intro hall
        have := hall r (hmem r h2)
        simp at h1
        omega


theorem store_of_valid {s : Heap} {a : Int} (v : Int) (h : s.valid a) :
    store s a v = .ok { s with mem := putWord s.mem a v } := by
  simp [store, h]

theorem load_of_not_valid {s : Heap} {a : Int} (h : ¬ s.valid a) : load s a = .error .segv := by
  simp [load, h]

theorem demoHeap_freeList : FreeList demoHeap [4108, 4156, 5772] := by
  refine ⟨rfl, rfl, ?_⟩
  simp only [Seg, Heap.valid, demoHeap]
  decide

/-- Fits path of `mm_realloc`: the state is returned as it was. -/
theorem mm_realloc_fits_eq (s : Heap) (fuel : Nat) (ptr size : Int)
    (hptr : ptr ≠ 0) (hsize : size ≠ 0)
    (hhdr : s.valid (ptr - 4))
    (hnext : s.valid (ptr - 4 + blockSize s (ptr - 4)))
    (hfit : required_block_size (wrap32 size) ≤ blockSize s (ptr - 4)) :
    mm_realloc s fuel ptr size = .ok (ptr, s) := by
  simp only [mm_realloc, hptr, hsize, if_false, mm_block_next, mm_block_size_of_valid hhdr,
    run_bind_ok, run_pure, mm_block_size_of_valid hnext, ge_iff_le, hfit, if_true]

/-- On the fallback path of `mm_realloc` the current block is smaller than the
required size, so the copy length exceeds the payload capacity of the block. -/
theorem num_bytes_exceeds_capacity (s : Heap) (ptr size : Int)
    (h : ¬ blockSize s (ptr - 4) ≥ required_block_size (wrap32 size)) :
    blockSize s (ptr - 4) - 8 < num_bytes (required_block_size (wrap32 size)) := by
  simp only [num_bytes, required_block_size, blockSize, sizeOfWord, wrap32, cdiv8] at *
  split at h <;> split <;> omega


/-- The fallback path of `mm_realloc`: when the current block is too small and
the merge with the next block is not taken, the call allocates for
`required_size`, copies `num_bytes required_size` bytes and frees `ptr`. -/
theorem mm_realloc_fallback_eq (s : Heap) (fuel : Nat) (ptr size : Int)
    (hptr : ptr ≠ 0) (hsize : size ≠ 0)
    (hhdr : s.valid (ptr - 4))
    (hnext : s.valid (ptr - 4 + blockSize s (ptr - 4)))
    (hsmall : ¬ blockSize s (ptr - 4) ≥ required_block_size (wrap32 size))
    (hnomerge : ¬ (wrap32 (blockSize s (ptr - 4) + blockSize s (ptr - 4 + blockSize s (ptr - 4)))
        ≥ required_block_size (wrap32 size)
      ∧ blockAlloc s (ptr - 4 + blockSize s (ptr - 4)) = 0)) :
    mm_realloc s fuel ptr size =
      (do
        let (q, t) ← mm_malloc s fuel (toU32 (required_block_size (wrap32 size)))
        let t ← memcpy t q ptr (toU32 (num_bytes (required_block_size (wrap32 size))))
        let t ← mm_free t ptr
        pure (q, t)) := by
  have hal : mm_block_allocated s (ptr - 4 + blockSize s (ptr - 4)) =
      .ok (blockAlloc s (ptr - 4 + blockSize s (ptr - 4))) := by
    simp [mm_block_allocated, load_of_valid hnext, blockAlloc]
  simp only [mm_realloc, hptr, hsize, if_false, mm_block_next, mm_block_size_of_valid hhdr,
    run_bind_ok, run_pure, mm_block_size_of_valid hnext, hsmall, andThen, hal]
  by_cases h1 : ptr - 4 + blockSize s (ptr - 4) ≠ 0 ∧
      wrap32 (blockSize s (ptr - 4) + blockSize s (ptr - 4 + blockSize s (ptr - 4)))
        ≥ required_block_size (wrap32 size)
  · have h2 : ¬ blockAlloc s (ptr - 4 + blockSize s (ptr - 4)) = 0 := fun h => hnomerge ⟨h1.2, h⟩
    simp [h1, h2]
  · simp [h1]

/-! ## Symbolic execution of the primitives -/

@[simp] theorem put_mem (s : Heap) (a v : Int) : (s.put a v).mem = putWord s.mem a v := rfl
@[simp] theorem put_mem_start (s : Heap) (a v : Int) : (s.put a v).mem_start = s.mem_start := rfl
@[simp] theorem put_mem_brk (s : Heap) (a v : Int) : (s.put a v).mem_brk = s.mem_brk := rfl
@[simp] theorem put_mem_max (s : Heap) (a v : Int) : (s.put a v).mem_max = s.mem_max := rfl
@[simp] theorem put_heap_blocks (s : Heap) (a v : Int) :
    (s.put a v).heap_blocks = s.heap_blocks := rfl
@[simp] theorem put_headp (s : Heap) (a v : Int) :
    (s.put a v).mm_list_headp = s.mm_list_headp := rfl
@[simp] theorem put_tailp (s : Heap) (a v : Int) :
    (s.put a v).mm_list_tailp = s.mm_list_tailp := rfl
@[simp] theorem put_valid (s : Heap) (a v x : Int) : (s.put a v).valid x ↔ s.valid x := Iff.rfl

theorem bind_eq_ok {α β : Type} {x : Run α} {f : α → Run β} {r : β} :
    (x >>= f) = .ok r ↔ ∃ a, x = .ok a ∧ f a = .ok r := by
  cases x with
  | error e => simp [bind, Except.bind]
  | ok a => simp [bind, Except.bind]

theorem load_eq_ok {s : Heap} {a w : Int} :
    load s a = .ok w ↔ s.valid a ∧ w = wordAt s.mem a := by
  unfold load
  split <;> simp_all [eq_comm]

theorem store_eq_ok {s t : Heap} {a v : Int} :
    store s a v = .ok t ↔ s.valid a ∧ t = s.put a v := by
  unfold store Heap.put
  split <;> simp_all [eq_comm]

theorem mm_block_size_eq_ok {s : Heap} {a z : Int} :
    mm_block_size s a = .ok z ↔ s.valid a ∧ z = blockSize s a := by
  simp only [mm_block_size, bind_eq_ok, load_eq_ok, run_pure, Except.ok.injEq, blockSize]
  constructor
  · rintro ⟨w, ⟨hv, rfl⟩, rfl⟩; exact ⟨hv, rfl⟩
  · rintro ⟨hv, rfl⟩; exact ⟨_, ⟨hv, rfl⟩, rfl⟩

theorem mm_block_allocated_eq_ok {s : Heap} {a z : Int} :
    mm_block_allocated s a = .ok z ↔ s.valid a ∧ z = blockAlloc s a := by
  simp only [mm_block_allocated, bind_eq_ok, load_eq_ok, run_pure, Except.ok.injEq, blockAlloc]
  constructor
  · rintro ⟨w, ⟨hv, rfl⟩, rfl⟩; exact ⟨hv, rfl⟩
  · rintro ⟨hv, rfl⟩; exact ⟨_, ⟨hv, rfl⟩, rfl⟩

theorem mm_block_next_eq_ok {s : Heap} {a z : Int} :
    mm_block_next s a = .ok z ↔ s.valid a ∧ z = a + blockSize s a := by
  simp only [mm_block_next, bind_eq_ok, mm_block_size_eq_ok, run_pure, Except.ok.injEq]
  constructor
  · rintro ⟨w, ⟨hv, rfl⟩, rfl⟩; exact ⟨hv, rfl⟩
  · rintro ⟨hv, rfl⟩; exact ⟨_, ⟨hv, rfl⟩, rfl⟩

theorem mm_block_prev_eq_ok {s : Heap} {a z : Int} :
    mm_block_prev s a = .ok z ↔ s.valid (a - 4) ∧ z = a - blockSize s (a - 4) := by
  simp only [mm_block_prev, bind_eq_ok, load_eq_ok, run_pure, Except.ok.injEq, blockSize]
  constructor
  · rintro ⟨w, ⟨hv, rfl⟩, rfl⟩; exact ⟨hv, rfl⟩
  · rintro ⟨hv, rfl⟩; exact ⟨_, ⟨hv, rfl⟩, rfl⟩

theorem mm_block_set_header_eq_ok {s t : Heap} {a sz al : Int} :
    mm_block_set_header s a sz al = .ok t ↔ s.valid a ∧ t = s.put a (sz + al) := by
  simp only [mm_block_set_header, store_eq_ok, packWord]

theorem mm_block_set_footer_eq_ok {s t : Heap} {a sz al : Int} :
    mm_block_set_footer s a sz al = .ok t ↔
      s.valid a ∧ s.valid (a + blockSize s a - 4) ∧ t = s.put (a + blockSize s a - 4) (sz + al) := by
  simp only [mm_block_set_footer, bind_eq_ok, mm_block_size_eq_ok, store_eq_ok, packWord]
  constructor
  · rintro ⟨w, ⟨hv, rfl⟩, h⟩; exact ⟨hv, h⟩
  · rintro ⟨hv, h⟩; exact ⟨_, ⟨hv, rfl⟩, h⟩

theorem wordAt_put_same (s : Heap) (a v : Int) (h0 : 0 ≤ v) (h1 : v < 4294967296) :
    wordAt (s.put a v).mem a = v := by
  rw [put_mem, wordAt_putWord_same]; omega

theorem wordAt_put_other (s : Heap) (a b v : Int) (h : a + 4 ≤ b ∨ b + 4 ≤ a) :
    wordAt (s.put a v).mem b = wordAt s.mem b := by
  rw [put_mem, wordAt_putWord_other _ _ _ _ h]

theorem sizeOfWord_pack (sz al : Int) (h0 : 0 ≤ sz) (h1 : sz < 2147483648) (h8 : sz % 8 = 0)
    (hal : al = 0 ∨ al = 1) : sizeOfWord (sz + al) = sz := by
  simp only [sizeOfWord, wrap32]; omega

theorem allocOfWord_pack (sz al : Int) (h8 : sz % 8 = 0) (hal : al = 0 ∨ al = 1) :
    allocOfWord (sz + al) = al := by
  simp only [allocOfWord]; omega

theorem sizeOfWord_mod8 (w : Int) : sizeOfWord w % 8 = 0 := by
  simp only [sizeOfWord, wrap32]; omega

theorem sizeOfWord_range (w : Int) : -2147483648 ≤ sizeOfWord w ∧ sizeOfWord w < 2147483648 := by
  simp only [sizeOfWord, wrap32]; omega

theorem required_block_size_mod8 (n : Int) : required_block_size n % 8 = 0 := by
  simp only [required_block_size, wrap32, cdiv8]; split <;> omega

theorem required_block_size_range (n : Int) :
    -2147483648 ≤ required_block_size n ∧ required_block_size n < 2147483648 := by
  simp only [required_block_size, wrap32]; omega

/-- Without overflow `required_block_size` is the smallest multiple of 8 that
holds the payload and the 8 bytes of header and footer. -/
theorem required_block_size_exact (n : Int) (h0 : 0 ≤ n) (h1 : n + 15 < 2147483648) :
    required_block_size (wrap32 n) = (n + 15) / 8 * 8 := by
  simp only [required_block_size, wrap32, cdiv8]; split <;> omega

/-- A `size_t` request whose `int` arithmetic overflows gets a required size of
at most 8. -/
theorem required_block_size_overflow (n : Int) (h0 : 0 ≤ n) (h1 : n < 4294967296)
    (h2 : 2147483648 ≤ n + 15) : required_block_size (wrap32 n) ≤ 8 := by
  simp only [required_block_size, wrap32, cdiv8]; split <;> omega

/-! ## Geometry of the tiling -/

theorem endOf_append (a : Int) (xs ys : List Block) :
    endOf a (xs ++ ys) = endOf (endOf a xs) ys := by
  induction xs generalizing a with
  | nil => rfl
  | cons x xs ih => exact ih (a + x.size)

theorem TSeg_append (s : Heap) (a : Int) (xs ys : List Block) :
    TSeg s a (xs ++ ys) ↔ TSeg s a xs ∧ TSeg s (endOf a xs) ys := by
  induction xs generalizing a with
  | nil => simp [TSeg, endOf]
  | cons x xs ih =>
    show (_ ∧ _ ∧ _ ∧ _ ∧ _ ∧ _ ∧ TSeg s (a + x.size) (xs ++ ys)) ↔
      (_ ∧ _ ∧ _ ∧ _ ∧ _ ∧ _ ∧ TSeg s (a + x.size) xs) ∧ TSeg s (endOf (a + x.size) xs) ys
    rw [ih]; tauto

theorem TSeg_le_endOf {s : Heap} {a : Int} {bs : List Block} (h : TSeg s a bs) :
    a ≤ endOf a bs := by
  induction bs generalizing a with
  | nil => exact le_refl _
  | cons x xs ih =>
    obtain ⟨_, h16, _, _, _, _, hr⟩ := h
    have := ih hr
    show a ≤ endOf (a + x.size) xs
    omega

/-- Every block of a tiling lies inside the tiled range and carries its size
and flag in header and footer. -/
theorem TSeg_mem {s : Heap} {a : Int} {bs : List Block} (h : TSeg s a bs) {b : Block}
    (hb : b ∈ bs) :
    a ≤ b.addr ∧ b.addr + b.size ≤ endOf a bs ∧ 16 ≤ b.size ∧ b.size % 8 = 0 ∧
    (b.alloc = 0 ∨ b.alloc = 1) ∧ wordAt s.mem b.addr = b.size + b.alloc ∧
    wordAt s.mem (b.addr + b.size - 4) = b.size + b.alloc := by
  induction bs generalizing a with
  | nil => cases hb
  | cons x xs ih =>
    obtain ⟨ha, h16, h8, hal, hh, hf, hr⟩ := h
    rcases List.mem_cons.mp hb with rfl | hb
    · have := TSeg_le_endOf hr
      refine ⟨by omega, ?_, h16, h8, hal, by rw [ha]; exact hh, by rw [ha]; exact hf⟩
      show b.addr + b.size ≤ endOf (a + b.size) xs
      omega
    · have := ih hr hb
      refine ⟨by omega, this.2.1, this.2.2⟩

theorem TSeg_split {s : Heap} {a : Int} {bs : List Block} (h : TSeg s a bs) {b : Block}
    (hb : b ∈ bs) : ∃ pre post, bs = pre ++ b :: post ∧ endOf a pre = b.addr := by
  obtain ⟨pre, post, rfl⟩ := List.append_of_mem hb
  refine ⟨pre, post, rfl, ?_⟩
  rw [TSeg_append] at h
  exact h.2.1.symm

/-- Two blocks of a tiling are the same block or occupy disjoint byte ranges. -/
theorem TSeg_disjoint {s : Heap} {a : Int} {bs : List Block} (h : TSeg s a bs) {b c : Block}
    (hb : b ∈ bs) (hc : c ∈ bs) :
    b = c ∨ b.addr + b.size ≤ c.addr ∨ c.addr + c.size ≤ b.addr := by
  induction bs generalizing a with
  | nil => cases hb
  | cons x xs ih =>
    have hr := h.2.2.2.2.2.2
    have hx := h.1
    rcases List.mem_cons.mp hb with eb | hb <;> rcases List.mem_cons.mp hc with ec | hc
    · exact Or.inl (eb.trans ec.symm)
    · have := TSeg_mem hr hc; subst eb; right; left; omega
    · have := TSeg_mem hr hb; subst ec; right; right; omega
    · exact ih hr hb hc

theorem TSeg_addr_inj {s : Heap} {a : Int} {bs : List Block} (h : TSeg s a bs) {b c : Block}
    (hb : b ∈ bs) (hc : c ∈ bs) (e : b.addr = c.addr) : b = c := by
  rcases TSeg_disjoint h hb hc with h1 | h1 | h1
  · exact h1
  · have := TSeg_mem h hb; omega
  · have := TSeg_mem h hc; omega

/-- A tiling only depends on the header and footer words of its blocks. -/
theorem TSeg_of_words {s t : Heap} {a : Int} {bs : List Block} (h : TSeg s a bs)
    (hw : ∀ b ∈ bs, wordAt t.mem b.addr = wordAt s.mem b.addr ∧
      wordAt t.mem (b.addr + b.size - 4) = wordAt s.mem (b.addr + b.size - 4)) :
    TSeg t a bs := by
  induction bs generalizing a with
  | nil => trivial
  | cons x xs ih =>
    obtain ⟨ha, h16, h8, hal, hh, hf, hr⟩ := h
    have hx := hw x (List.mem_cons_self _ _)
    rw [ha] at hx
    exact ⟨ha, h16, h8, hal, by rw [hx.1]; exact hh, by rw [hx.2]; exact hf,
      ih hr (fun b hb => hw b (List.mem_cons_of_mem _ hb))⟩

/-- A word write that misses every header and footer keeps a tiling. -/
theorem TSeg_put {s : Heap} {a : Int} {bs : List Block} (h : TSeg s a bs) (x v : Int)
    (hx : ∀ b ∈ bs, (x + 4 ≤ b.addr ∨ b.addr + 4 ≤ x) ∧
      (x + 4 ≤ b.addr + b.size - 4 ∨ b.addr + b.size ≤ x)) :
    TSeg (s.put x v) a bs := by
  apply TSeg_of_words h
  intro b hb
  have := hx b hb
  exact ⟨wordAt_put_other s x _ v this.1, wordAt_put_other s x _ v (by omega)⟩

/-- A word write outside the tiled range keeps the tiling. -/
theorem TSeg_put_outside {s : Heap} {a : Int} {bs : List Block} (h : TSeg s a bs) (x v : Int)
    (hx : x + 4 ≤ a ∨ endOf a bs ≤ x) : TSeg (s.put x v) a bs := by
  apply TSeg_put h
  intro b hb
  have := TSeg_mem h hb
  omega

/-- A word write strictly inside one block (between its header and footer)
keeps the tiling. -/
theorem TSeg_put_inside {s : Heap} {a : Int} {bs : List Block} (h : TSeg s a bs) (x v : Int)
    {c : Block} (hc : c ∈ bs) (hx : c.addr + 4 ≤ x ∧ x + 4 ≤ c.addr + c.size - 4) :
    TSeg (s.put x v) a bs := by
  apply TSeg_put h
  intro b hb
  have h1 := TSeg_mem h hb
  have h2 := TSeg_mem h hc
  rcases TSeg_disjoint h hb hc with rfl | h3 | h3 <;> omega

/-- The free-list links only depend on the link words of the entries. -/
theorem Seg_of_words {s t : Heap} {p n : Int} {xs : List Int} (h : Seg s p xs n)
    (hv : ∀ a, s.valid a → t.valid a)
    (hw : ∀ x ∈ xs, wordAt t.mem (x + 4) = wordAt s.mem (x + 4) ∧
      wordAt t.mem (x + 8) = wordAt s.mem (x + 8)) :
    Seg t p xs n := by
  induction xs generalizing p with
  | nil => trivial
  | cons x xs ih =>
    obtain ⟨h0, v0, v4, v8, hp, hn, hr⟩ := h
    have hx := hw x (List.mem_cons_self _ _)
    exact ⟨h0, hv _ v0, hv _ v4, hv _ v8, by rw [hx.1]; exact hp, by rw [hx.2]; exact hn,
      ih hr (fun y hy => hw y (List.mem_cons_of_mem _ hy))⟩

/-- A word write that misses the link words of every entry keeps the links. -/
theorem Seg_put {s : Heap} {p n : Int} {xs : List Int} (h : Seg s p xs n) (x v : Int)
    (hx : ∀ y ∈ xs, x + 4 ≤ y + 4 ∨ y + 12 ≤ x) : Seg (s.put x v) p xs n := by
  refine Seg_of_words (t := s.put x v) h (fun a ha => ha) ?_
  intro y hy
  have := hx y hy
  exact ⟨wordAt_put_other s x _ v (by omega), wordAt_put_other s x _ v (by omega)⟩

theorem Seg_mem {s : Heap} {p n : Int} {xs : List Int} (h : Seg s p xs n) {x : Int}
    (hx : x ∈ xs) : x ≠ 0 ∧ s.valid x ∧ s.valid (x + 4) ∧ s.valid (x + 8) := by
  induction xs generalizing p with
  | nil => cases hx
  | cons y ys ih =>
    obtain ⟨h0, v0, v4, v8, _, _, hr⟩ := h
    rcases List.mem_cons.mp hx with rfl | hx
    · exact ⟨h0, v0, v4, v8⟩
    · exact ih hr hx

/-! ## Free-list operations on a well-formed list -/

theorem lastD_append_cons (xs ys : List Int) (y d : Int) :
    lastD (xs ++ y :: ys) d = lastD ys y := by
  induction xs generalizing d with
  | nil => rfl
  | cons x xs ih => exact ih x

theorem headD_append_cons (xs ys : List Int) (y d : Int) :
    (xs ++ y :: ys).headD d = xs.headD y := by
  cases xs <;> rfl

theorem lastD_eq_or_mem (xs : List Int) (d : Int) : lastD xs d = d ∨ lastD xs d ∈ xs := by
  induction xs generalizing d with
  | nil => exact Or.inl rfl
  | cons x xs ih =>
    rcases ih x with h | h
    · right; show lastD xs x ∈ x :: xs; rw [h]; exact List.mem_cons_self _ _
    · right; exact List.mem_cons_of_mem _ h

theorem headD_eq_or_mem (xs : List Int) (d : Int) : xs.headD d = d ∨ xs.headD d ∈ xs := by
  cases xs with
  | nil => exact Or.inl rfl
  | cons x xs => right; exact List.mem_cons_self _ _

theorem exists_concat_of_lastD_ne (xs : List Int) (d : Int) (h : lastD xs d ≠ d) :
    ∃ ys, xs = ys ++ [lastD xs d] := by
  induction xs generalizing d with
  | nil => exact absurd rfl h
  | cons x xs ih =>
    by_cases hx : lastD xs x = x
    · have hnil : xs = [] ∨ ∃ ys, xs = ys ++ [lastD xs x] := by
        cases xs with
        | nil => exact Or.inl rfl
        | cons y ys =>
          right
          have : ∀ (zs : List Int) (e : Int), zs ≠ [] → ∃ ws, zs = ws ++ [lastD zs e] := by
            intro zs
            induction zs with
            | nil => intro e h; exact absurd rfl h
            | cons z zs ih2 =>
              intro e _
              cases zs with
              | nil => exact ⟨[], rfl⟩
              | cons w ws =>
                obtain ⟨us, hus⟩ := ih2 z (by simp)
                exact ⟨z :: us, by
                  show z :: w :: ws = z :: us ++ [lastD (w :: ws) z]
                  rw [List.cons_append, ← hus]⟩
          exact this (y :: ys) x (by simp)
      rcases hnil with rfl | ⟨ys, hys⟩
      · exact ⟨[], rfl⟩
      · exact ⟨x :: ys, by
          show x :: xs = x :: ys ++ [lastD xs x]
          rw [List.cons_append, ← hys]⟩
    · obtain ⟨ys, hys⟩ := ih x hx
      exact ⟨x :: ys, by
        show x :: xs = x :: ys ++ [lastD xs x]
        rw [List.cons_append, ← hys]⟩

/-- What a successful `mm_list_remove` has read, and what it has written when
both neighbour headers are non-zero. -/
theorem mm_list_remove_ok {s t : Heap} {bp : Int} (h : mm_list_remove s bp = .ok t) :
    s.valid (bp + 4) ∧ s.valid (bp + 8) ∧
    s.valid (wordAt s.mem (bp + 4)) ∧ s.valid (wordAt s.mem (bp + 8)) ∧
    (wordAt s.mem (wordAt s.mem (bp + 4)) ≠ 0 → wordAt s.mem (wordAt s.mem (bp + 8)) ≠ 0 →
      s.valid (wordAt s.mem (bp + 8) + 4) ∧ s.valid (wordAt s.mem (bp + 4) + 8) ∧
      t = (s.put (wordAt s.mem (bp + 8) + 4) (wordAt s.mem (bp + 4))).put
        (wordAt s.mem (bp + 4) + 8) (wordAt s.mem (bp + 8))) := by
  unfold mm_list_remove at h
  rw [bind_eq_ok] at h
  obtain ⟨p, h4, h⟩ := h
  rw [bind_eq_ok] at h
  obtain ⟨n, h8, h⟩ := h
  simp only [mm_list_prev, mm_list_next, load_eq_ok] at h4 h8
  obtain ⟨v4, rfl⟩ := h4
  obtain ⟨v8, rfl⟩ := h8
  by_cases vp : s.valid (wordAt s.mem (bp + 4))
  · by_cases vn : s.valid (wordAt s.mem (bp + 8))
    · refine ⟨v4, v8, vp, vn, ?_⟩
      intro hp hn
      simp only [andThen, derefIsZero, derefNonZero, load_of_valid vp, load_of_valid vn,
        run_bind_ok, run_pure, hp, hn, decide_False, decide_True, ne_eq, not_false_eq_true,
        if_false, if_true, Bool.false_eq_true, mm_list_prev_set, mm_list_next_set] at h
      simp only [bind_eq_ok, store_eq_ok] at h
      obtain ⟨u, ⟨hv1, rfl⟩, hv2, rfl⟩ := h
      exact ⟨hv1, hv2, rfl⟩
    · exfalso
      simp only [andThen, derefIsZero, derefNonZero, load_of_valid vp, load_of_not_valid vn,
        run_bind_ok, run_bind_error, run_pure] at h
      by_cases hp : wordAt s.mem (wordAt s.mem (bp + 4)) = 0 <;>
        simp [hp, bind, Except.bind] at h
  · exfalso
    simp only [andThen, derefIsZero, derefNonZero, load_of_not_valid vp, run_bind_error] at h
    simp [bind, Except.bind] at h

theorem Region.not_valid_zero {s : Heap} (h : Region s) : ¬ s.valid 0 := by
  intro hv; have := h.1; have := hv.1; omega

theorem Region.ptr_range {s : Heap} (h : Region s) {a : Int} (hv : s.valid a) :
    0 ≤ a ∧ a < 4294967296 := by
  obtain ⟨h1, h2, h3, _⟩ := h
  obtain ⟨h4, h5⟩ := hv
  omega

/-- Removal of an entry from a well-formed list, when it returns: the entry
had a predecessor and a successor, which are now linked to each other. -/
theorem list_remove_spec {s t : Heap} {fl : List Int} {bp : Int}
    (hreg : Region s) (hfl : FreeList s fl) (hnd : fl.Nodup) (hap : Apart fl)
    (hnz : ∀ x ∈ fl, wordAt s.mem x ≠ 0) (hb : bp ∈ fl)
    (h : mm_list_remove s bp = .ok t) :
    ∃ l1 p n l2, fl = l1 ++ p :: bp :: n :: l2 ∧
      t = (s.put (n + 4) p).put (p + 8) n ∧ FreeList t (l1 ++ p :: n :: l2) := by
  obtain ⟨hh, ht, hseg⟩ := hfl
  obtain ⟨l1', l2', rfl⟩ := List.append_of_mem hb
  have hseg0 := hseg
  rw [Seg_append] at hseg
  obtain ⟨hs1, hbp0, vb0, vb4, vb8, hprev, hnext, hs2⟩ := hseg
  obtain ⟨-, -, vp, vn, hmid⟩ := mm_list_remove_ok h
  rw [hprev] at vp hmid
  rw [hnext] at vn hmid
  have hp0 : lastD l1' 0 ≠ 0 := fun e => hreg.not_valid_zero (e ▸ vp)
  have hn0 : l2'.headD 0 ≠ 0 := fun e => hreg.not_valid_zero (e ▸ vn)
  obtain ⟨l1, hl1⟩ := exists_concat_of_lastD_ne l1' 0 hp0
  generalize lastD l1' 0 = p at *
  subst hl1
  cases l2' with
  | nil => exact absurd rfl hn0
  | cons n l2 =>
    simp only [List.headD_cons] at vn hmid hnext hn0
    have hfl_eq : l1 ++ [p] ++ bp :: n :: l2 = l1 ++ p :: bp :: n :: l2 := by simp
    rw [hfl_eq] at hnd hap hnz hh ht hseg0 hb
    have hpm : p ∈ l1 ++ p :: bp :: n :: l2 := by simp
    have hnm : n ∈ l1 ++ p :: bp :: n :: l2 := by simp
    obtain ⟨v1, v2, rfl⟩ := hmid (hnz p hpm) (hnz n hnm)
    refine ⟨l1, p, n, l2, hfl_eq, rfl, ?_⟩
    have hpr := hreg.ptr_range vp
    have hnr := hreg.ptr_range vn
    -- distinctness
    simp only [List.nodup_append, List.nodup_cons, List.mem_cons, List.mem_append, not_or] at hnd
    obtain ⟨hnd1, ⟨⟨hpb, hpn, hpl2⟩, ⟨⟨hbn, hbl2⟩, ⟨hnl2, hnd2⟩⟩⟩, hdis⟩ := hnd
    have hpn16 : p + 16 ≤ n ∨ n + 16 ≤ p := by
      rcases hap p hpm n hnm with e | e
      · exact absurd e hpn
      · exact e
    have hl1 : ∀ y ∈ l1, (y + 16 ≤ p ∨ p + 16 ≤ y) ∧ (y + 16 ≤ n ∨ n + 16 ≤ y) := by
      intro y hy
      have hym : y ∈ l1 ++ p :: bp :: n :: l2 := by simp [hy]
      have d1 := hdis hy
      constructor
      · rcases hap y hym p hpm with e | e
        · exact absurd (by simp [e]) (d1)
        · exact e
      · rcases hap y hym n hnm with e | e
        · exact absurd (by simp [e]) (d1)
        · exact e
    have hl2 : ∀ y ∈ l2, (y + 16 ≤ p ∨ p + 16 ≤ y) ∧ (y + 16 ≤ n ∨ n + 16 ≤ y) := by
      intro y hy
      have hym : y ∈ l1 ++ p :: bp :: n :: l2 := by simp [hy]
      constructor
      · rcases hap y hym p hpm with e | e
        · exact absurd (e ▸ hy) hpl2
        · exact e
      · rcases hap y hym n hnm with e | e
        · exact absurd (e ▸ hy) hnl2
        · exact e
    rw [Seg_append] at hseg0
    obtain ⟨hsa, hp0', vp0, vp4, vp8, hpprev, -, -, -, -, -, -, -, hn0', vn0, vn4, vn8, -, hnnext, hsb⟩ :=
      hseg0
    refine ⟨?_, ?_, ?_⟩
    · simp only [put_headp, hh, headD_append_cons]
    · simp only [put_tailp, ht, lastD_append_cons]; rfl
    · rw [Seg_append]
      refine ⟨?_, hp0', vp0, vp4, vp8, ?_, ?_, hn0', vn0, vn4, vn8, ?_, ?_, ?_⟩
      · apply Seg_put
        · apply Seg_put
          · simpa using hsa
          · intro y hy; have := hl1 y hy; omega
        · intro y hy; have := hl1 y hy; omega
      · rw [wordAt_put_other _ _ _ _ (by omega), wordAt_put_other _ _ _ _ (by omega)]
        exact hpprev
      · rw [wordAt_put_same _ _ _ hnr.1 hnr.2]; rfl
      · rw [wordAt_put_other _ _ _ _ (by omega), wordAt_put_same _ _ _ hpr.1 hpr.2]
      · rw [wordAt_put_other _ _ _ _ (by omega), wordAt_put_other _ _ _ _ (by omega)]
        exact hnnext
      · apply Seg_put
        · apply Seg_put
          · exact hsb
          · intro y hy; have := hl2 y hy; omega
        · intro y hy; have := hl2 y hy; omega

theorem FreeList.eq_nil_of_tail {s : Heap} {fl : List Int} (h : FreeList s fl)
    (ht : s.mm_list_tailp = 0) : fl = [] := by
  obtain ⟨-, h2, h3⟩ := h
  rcases lastD_eq_or_mem fl 0 with e | e
  · cases fl with
    | nil => rfl
    | cons x xs =>
      exfalso
      rcases lastD_eq_or_mem xs x with e2 | e2
      · have : lastD (x :: xs) 0 = x := e2
        rw [this] at e
        exact (Seg_mem h3 (List.mem_cons_self _ _)).1 e
      · have : lastD (x :: xs) 0 = lastD xs x := rfl
        rw [this] at e
        exact (Seg_mem h3 (List.mem_cons_of_mem _ e2)).1 e
  · exact absurd (h2 ▸ ht) (Seg_mem h3 e).1

theorem FreeList.tail_mem {s : Heap} {fl : List Int} (h : FreeList s fl)
    (ht : s.mm_list_tailp ≠ 0) : s.mm_list_tailp ∈ fl := by
  obtain ⟨-, h2, -⟩ := h
  rcases lastD_eq_or_mem fl 0 with e | e
  · exact absurd (h2.trans e) ht
  · rw [h2]; exact e

/-- Appending to the empty list. -/
theorem list_append_empty {s t : Heap} {b : Int} (hb0 : b ≠ 0) (hvb : s.valid b)
    (ht : s.mm_list_tailp = 0) (h : mm_list_append s b = .ok t) :
    t = { (s.put (b + 4) 0).put (b + 8) 0 with mm_list_tailp := b, mm_list_headp := b } ∧
    FreeList t [b] := by
  unfold mm_list_append at h
  simp only [ht, if_true, mm_list_prev_set, mm_list_next_set] at h
  simp only [bind_eq_ok, store_eq_ok, run_pure, Except.ok.injEq] at h
  obtain ⟨u, ⟨v4, rfl⟩, w, ⟨v8, rfl⟩, rfl⟩ := h
  refine ⟨rfl, rfl, rfl, hb0, hvb, v4, v8, ?_, ?_, trivial⟩
  · show wordAt ((s.put (b + 4) 0).put (b + 8) 0).mem (b + 4) = 0
    rw [wordAt_put_other _ _ _ _ (by omega), wordAt_put_same _ _ _ (by omega) (by omega)]
  · show wordAt ((s.put (b + 4) 0).put (b + 8) 0).mem (b + 8) = 0
    rw [wordAt_put_same _ _ _ (by omega) (by omega)]

/-- Appending to a non-empty list. -/
theorem list_append_nonempty {s t : Heap} {fl : List Int} {b : Int}
    (hreg : Region s) (hfl : FreeList s fl) (hnd : fl.Nodup) (hapf : Apart fl)
    (hb0 : b ≠ 0) (hvb : s.valid b)
    (hap : ∀ y ∈ fl, y + 16 ≤ b ∨ b + 16 ≤ y)
    (ht : s.mm_list_tailp ≠ 0) (h : mm_list_append s b = .ok t) :
    t = { ((s.put (b + 4) s.mm_list_tailp).put (b + 8) 0).put (s.mm_list_tailp + 8) b with
          mm_list_tailp := b } ∧
    FreeList t (fl ++ [b]) := by
  have htm := hfl.tail_mem ht
  unfold mm_list_append at h
  simp only [ht, if_false, mm_list_prev_set, mm_list_next_set] at h
  simp only [bind_eq_ok, store_eq_ok, run_pure, Except.ok.injEq, put_tailp] at h
  obtain ⟨u, ⟨v4, rfl⟩, w, ⟨v8, rfl⟩, x, ⟨vt, rfl⟩, rfl⟩ := h
  refine ⟨rfl, ?_⟩
  show FreeList { ((s.put (b + 4) s.mm_list_tailp).put (b + 8) 0).put (s.mm_list_tailp + 8) b with
    mm_list_tailp := b } (fl ++ [b])
  obtain ⟨hh, htl, hseg⟩ := hfl
  obtain ⟨ys, hys⟩ : ∃ ys, fl = ys ++ [s.mm_list_tailp] := by
    rw [htl]; exact exists_concat_of_lastD_ne fl 0 (htl ▸ ht)
  generalize s.mm_list_tailp = T at *
  subst hys
  have hbr := hreg.ptr_range hvb
  have hTb := hap T (by simp)
  have hTr := hreg.ptr_range (Seg_mem hseg htm).2.1
  rw [Seg_append] at hseg
  obtain ⟨hs1, hT0, vT0, vT4, vT8, hTprev, -, -⟩ := hseg
  have hys : ∀ y ∈ ys, (y + 16 ≤ b ∨ b + 16 ≤ y) := fun y hy => hap y (by simp [hy])
  refine ⟨?_, ?_, ?_⟩
  · show s.mm_list_headp = _
    rw [hh]; simp only [List.append_assoc, List.singleton_append, headD_append_cons]
  · show b = _
    rw [lastD_concat]
  · rw [List.append_assoc, Seg_append]
    have key : ∀ {p n : Int} {xs : List Int}, Seg s p xs n → (∀ y ∈ xs, y + 16 ≤ b ∨ b + 16 ≤ y) →
        (∀ y ∈ xs, y + 16 ≤ T ∨ T + 16 ≤ y) →
        Seg { ((s.put (b + 4) T).put (b + 8) 0).put (T + 8) b with mm_list_tailp := b } p xs n := by
      intro p n xs hs h1 h2
      refine Seg_of_words hs (fun a ha => ha) ?_
      intro y hy
      have := h1 y hy
      have := h2 y hy
      constructor
      · show wordAt (((s.put (b + 4) T).put (b + 8) 0).put (T + 8) b).mem (y + 4) = _
        rw [wordAt_put_other _ _ _ _ (by omega), wordAt_put_other _ _ _ _ (by omega),
          wordAt_put_other _ _ _ _ (by omega)]
      · show wordAt (((s.put (b + 4) T).put (b + 8) 0).put (T + 8) b).mem (y + 8) = _
        rw [wordAt_put_other _ _ _ _ (by omega), wordAt_put_other _ _ _ _ (by omega),
          wordAt_put_other _ _ _ _ (by omega)]
    have hysT : ∀ y ∈ ys, y + 16 ≤ T ∨ T + 16 ≤ y := by
      intro y hy
      rcases hapf y (by simp [hy]) T (by simp) with e | e
      · exfalso
        rw [List.nodup_append] at hnd
        exact hnd.2.2 hy (by simp [e])
      · exact e
    refine ⟨key hs1 hys hysT, hT0, vT0, vT4, vT8, ?_, ?_, hb0, hvb, v4, v8, ?_, ?_, trivial⟩
    · show wordAt (((s.put (b + 4) T).put (b + 8) 0).put (T + 8) b).mem (T + 4) = _
      rw [wordAt_put_other _ _ _ _ (by omega), wordAt_put_other _ _ _ _ (by omega),
        wordAt_put_other _ _ _ _ (by omega)]
      exact hTprev
    · show wordAt (((s.put (b + 4) T).put (b + 8) 0).put (T + 8) b).mem (T + 8) = _
      rw [wordAt_put_same _ _ _ hbr.1 hbr.2]; rfl
    · show wordAt (((s.put (b + 4) T).put (b + 8) 0).put (T + 8) b).mem (b + 4) = _
      rw [wordAt_put_other _ _ _ _ (by omega), wordAt_put_other _ _ _ _ (by omega),
        wordAt_put_same _ _ _ hTr.1 hTr.2]
    · show wordAt (((s.put (b + 4) T).put (b + 8) 0).put (T + 8) b).mem (b + 8) = _
      rw [wordAt_put_other _ _ _ _ (by omega), wordAt_put_same _ _ _ (by omega) (by omega)]
      rfl

/-! ## Frames -/

theorem Agree.refl (s : Heap) (P : Int → Prop) : Agree s s P := fun _ _ => rfl

theorem Agree.trans {s t u : Heap} {P : Int → Prop} (h1 : Agree s t P) (h2 : Agree t u P) :
    Agree s u P := fun x hx => (h2 x hx).trans (h1 x hx)

theorem Agree.mono {s t : Heap} {P Q : Int → Prop} (h : Agree s t P) (hq : ∀ x, Q x → P x) :
    Agree s t Q := fun x hx => h x (hq x hx)

theorem Agree_put (s : Heap) (w v : Int) (P : Int → Prop) (h : ∀ x, P x → x < w ∨ w + 4 ≤ x) :
    Agree s (s.put w v) P := by
  intro x hx
  have := h x hx
  simp only [put_mem, putWord]
  have h0 : x ≠ w := by omega
  have h1 : x ≠ w + 1 := by omega
  have h2 : x ≠ w + 2 := by omega
  have h3 : x ≠ w + 3 := by omega
  simp only [h0, h1, h2, h3, if_false]

theorem Agree.put {s t : Heap} {P : Int → Prop} (h : Agree s t P) (w v : Int)
    (hw : ∀ x, P x → x < w ∨ w + 4 ≤ x) : Agree s (t.put w v) P :=
  h.trans (Agree_put t w v P hw)

theorem Agree.word {s t : Heap} {P : Int → Prop} (h : Agree s t P) {a : Int}
    (h0 : P a) (h1 : P (a + 1)) (h2 : P (a + 2)) (h3 : P (a + 3)) :
    wordAt t.mem a = wordAt s.mem a := by
  simp only [wordAt, byteAt, h a h0, h _ h1, h _ h2, h _ h3]

/-- A word that lies outside the work range and is no link word is untouched. -/
theorem Untouched.word4 {lo hi : Int} {fl : List Int} {a : Int}
    (h1 : a + 4 ≤ lo ∨ hi ≤ a) (h2 : ∀ y ∈ fl, a + 4 ≤ y + 4 ∨ y + 12 ≤ a) :
    Untouched lo hi fl a ∧ Untouched lo hi fl (a + 1) ∧ Untouched lo hi fl (a + 2) ∧
    Untouched lo hi fl (a + 3) := by
  refine ⟨⟨by omega, ?_⟩, ⟨by omega, ?_⟩, ⟨by omega, ?_⟩, ⟨by omega, ?_⟩⟩ <;>
  · intro y hy; have := h2 y hy; omega

theorem Agree.word_untouched {s t : Heap} {lo hi : Int} {fl : List Int}
    (h : Agree s t (Untouched lo hi fl)) {a : Int}
    (h1 : a + 4 ≤ lo ∨ hi ≤ a) (h2 : ∀ y ∈ fl, a + 4 ≤ y + 4 ∨ y + 12 ≤ a) :
    wordAt t.mem a = wordAt s.mem a := by
  obtain ⟨u0, u1, u2, u3⟩ := @Untouched.word4 lo hi fl _ h1 h2
  exact h.word u0 u1 u2 u3

/-- Blocks of a tiling in front of the work range keep their header and
footer: they end before the range and hold no link word of another block. -/
theorem TSeg_agree {s t : Heap} {a lo hi : Int} {bs all : List Block} {fl : List Int} {a0 : Int}
    (h : TSeg s a bs) (hall : TSeg s a0 all) (hsub : ∀ b ∈ bs, b ∈ all)
    (hfl : ∀ y ∈ fl, ∃ c ∈ all, c.addr = y)
    (hag : Agree s t (Untouched lo hi fl))
    (hout : ∀ b ∈ bs, b.addr + b.size ≤ lo ∨ hi ≤ b.addr) : TSeg t a bs := by
  apply TSeg_of_words h
  intro b hb
  have hb1 := TSeg_mem hall (hsub b hb)
  have ho := hout b hb
  constructor
  · apply hag.word_untouched (by omega)
    intro y hy
    obtain ⟨c, hc, rfl⟩ := hfl y hy
    have hc1 := TSeg_mem hall hc
    rcases TSeg_disjoint hall (hsub b hb) hc with rfl | h3 | h3 <;> omega
  · apply hag.word_untouched (by omega)
    intro y hy
    obtain ⟨c, hc, rfl⟩ := hfl y hy
    have hc1 := TSeg_mem hall hc
    rcases TSeg_disjoint hall (hsub b hb) hc with rfl | h3 | h3 <;> omega

theorem endOf_le_of_mem {s : Heap} {a : Int} {bs : List Block} (h : TSeg s a bs) {b : Block}
    (hb : b ∈ bs) : b.addr + b.size ≤ endOf a bs := (TSeg_mem h hb).2.1

/-- Replacing the blocks of the work range by blocks that cover the same
bytes keeps the tiling, when nothing else but link words has been written. -/
theorem Tiling_rebuild {s t : Heap} {pre old new post : List Block} {fl : List Int}
    (htl : Tiling s (pre ++ old ++ post)) (hsh : SameShape s t)
    (hfl : ∀ y ∈ fl, ∃ c ∈ pre ++ old ++ post, c.addr = y)
    (hag : Agree s t (Untouched (endOf (s.heap_blocks + 8) pre)
      (endOf (endOf (s.heap_blocks + 8) pre) old) fl))
    (hnew : TSeg t (endOf (s.heap_blocks + 8) pre) new)
    (hend : endOf (endOf (s.heap_blocks + 8) pre) new = endOf (endOf (s.heap_blocks + 8) pre) old) :
    Tiling t (pre ++ new ++ post) := by
  obtain ⟨e1, e2, e3, e4⟩ := hsh
  obtain ⟨h1, h2, h3, h4, h5, h6⟩ := htl
  have hall := h4
  rw [TSeg_append, TSeg_append] at h4
  obtain ⟨⟨hpre, hold⟩, hpost⟩ := h4
  have hle1 := TSeg_le_endOf hpre
  have hle2 := TSeg_le_endOf hold
  have hle3 := TSeg_le_endOf hpost
  rw [endOf_append] at hpost hle3
  have hend2 : endOf (s.heap_blocks + 8) (pre ++ new ++ post) =
      endOf (s.heap_blocks + 8) (pre ++ old ++ post) := by
    simp only [endOf_append, hend]
  have hlink : ∀ y ∈ fl, s.heap_blocks + 8 ≤ y ∧
      y + 16 ≤ endOf (s.heap_blocks + 8) (pre ++ old ++ post) := by
    intro y hy
    obtain ⟨c, hc, rfl⟩ := hfl y hy
    have := TSeg_mem hall hc
    omega
  rw [endOf_append, endOf_append] at hlink h5 h6
  refine ⟨by rw [e1, e4]; exact h1, ?_, ?_, ?_, ?_, ?_⟩
  · rw [e4, hag.word_untouched (by omega) (fun y hy => by have := hlink y hy; omega)]
    exact h2
  · rw [e4, hag.word_untouched (by omega) (fun y hy => by have := hlink y hy; omega)]
    exact h3
  · rw [e4, TSeg_append, TSeg_append]
    refine ⟨⟨?_, hnew⟩, ?_⟩
    · exact TSeg_agree hpre hall (fun b hb => by simp [hb]) hfl hag
        (fun b hb => Or.inl (endOf_le_of_mem hpre hb))
    · rw [endOf_append, hend]
      exact TSeg_agree hpost hall (fun b hb => by simp [hb]) hfl hag
        (fun b hb => Or.inr (TSeg_mem hpost hb).1)
  · rw [e4, e2, endOf_append, endOf_append, hend]; exact h5
  · rw [e4, endOf_append, endOf_append, hend,
      hag.word_untouched (by omega) (fun y hy => by have := hlink y hy; omega)]
    exact h6

/-! ## Neighbours of a block -/

theorem lastBlock_concat (pre : List Block) (c : Block) :
    lastBlockAlloc (pre ++ [c]) = c.alloc ∧ lastBlockSize (pre ++ [c]) = c.size := by
  induction pre with
  | nil => exact ⟨rfl, rfl⟩
  | cons x xs ih =>
    cases xs with
    | nil => exact ⟨rfl, rfl⟩
    | cons y ys => exact ih

theorem endOf_concat (a : Int) (pre : List Block) (c : Block) :
    endOf a (pre ++ [c]) = endOf a pre + c.size := by
  rw [endOf_append]; rfl

theorem list_nil_or_concat {α : Type} (xs : List α) : xs = [] ∨ ∃ ys c, xs = ys ++ [c] := by
  induction xs using List.reverseRecOn with
  | nil => exact Or.inl rfl
  | append_singleton ys c _ => exact Or.inr ⟨ys, c, rfl⟩

/-- The word in front of the first block after `pre` is the footer of the
block before it: it holds that block's size and flag, and the block's header,
one size below, holds the same word. -/
theorem Tiling_prev {s : Heap} {pre rest : List Block} (h : Tiling s (pre ++ rest)) :
    wordAt s.mem (endOf (s.heap_blocks + 8) pre - 4) = lastBlockSize pre + lastBlockAlloc pre ∧
    wordAt s.mem (endOf (s.heap_blocks + 8) pre - lastBlockSize pre) =
      lastBlockSize pre + lastBlockAlloc pre ∧
    8 ≤ lastBlockSize pre ∧ lastBlockSize pre % 8 = 0 ∧
    (lastBlockAlloc pre = 0 ∨ lastBlockAlloc pre = 1) ∧
    s.heap_blocks + lastBlockSize pre ≤ endOf (s.heap_blocks + 8) pre := by
  obtain ⟨h1, h2, h3, h4, h5, h6⟩ := h
  rcases list_nil_or_concat pre with rfl | ⟨ys, c, rfl⟩
  · simp only [endOf, lastBlockSize, lastBlockAlloc]
    refine ⟨?_, ?_, by omega, by omega, by simp, by omega⟩
    · rw [show s.heap_blocks + 8 - 4 = s.heap_blocks + 4 by omega]; exact h3
    · rw [show s.heap_blocks + 8 - 8 = s.heap_blocks by omega]; exact h2
  · rw [TSeg_append] at h4
    have hc := TSeg_mem h4.1 (show c ∈ ys ++ [c] by simp)
    have h7 := h4.1
    rw [TSeg_append] at h7
    have hca : c.addr = endOf (s.heap_blocks + 8) ys := h7.2.1
    rw [endOf_concat, (lastBlock_concat ys c).1, (lastBlock_concat ys c).2]
    obtain ⟨hc1, hc2, hc3, hc4, hc5, hc6, hc7⟩ := hc
    refine ⟨?_, ?_, by omega, hc4, hc5, by omega⟩
    · rw [← hca]; exact hc7
    · rw [← hca, show c.addr + c.size - c.size = c.addr by omega]; exact hc6

/-- The word after the last block before `post` is the header of the next
block, or of the epilogue. -/
theorem Tiling_next {s : Heap} {pre post : List Block} (h : Tiling s (pre ++ post)) :
    wordAt s.mem (endOf (s.heap_blocks + 8) pre) = headBlockSize post + headBlockAlloc post ∧
    0 ≤ headBlockSize post ∧ headBlockSize post % 8 = 0 ∧
    (headBlockAlloc post = 0 ∨ headBlockAlloc post = 1) ∧
    endOf (s.heap_blocks + 8) pre + headBlockSize post + 4 ≤ s.mem_brk := by
  obtain ⟨h1, h2, h3, h4, h5, h6⟩ := h
  rw [TSeg_append] at h4
  rw [endOf_append] at h5 h6
  cases post with
  | nil =>
    simp only [headBlockSize, headBlockAlloc]
    simp only [endOf] at h5 h6
    exact ⟨by rw [h6]; rfl, by omega, by omega, by simp, by omega⟩
  | cons c cs =>
    simp only [headBlockSize, headBlockAlloc]
    obtain ⟨hc1, hc2, hc3, hc4, hc5, hc6, hc7⟩ := h4.2
    have := TSeg_le_endOf hc7
    simp only [endOf] at h5
    exact ⟨hc5, by omega, hc3, hc4, by omega⟩

theorem Tiling_bounds {s : Heap} {bs : List Block} (h : Tiling s bs) {b : Block} (hb : b ∈ bs) :
    s.mem_start + 12 ≤ b.addr ∧ b.addr + b.size + 4 ≤ s.mem_brk := by
  obtain ⟨h1, h2, h3, h4, h5, h6⟩ := h
  have := TSeg_mem h4 hb
  omega

theorem Tiling_valid {s : Heap} {bs : List Block} (h : Tiling s bs) {b : Block} (hb : b ∈ bs)
    {x : Int} (hx : b.addr - 12 ≤ x ∧ x ≤ b.addr + b.size) : s.valid x := by
  have := Tiling_bounds h hb
  have := (TSeg_mem h.2.2.2.1 hb).2.2.1
  constructor <;> omega

theorem Apart_of_tiling {s : Heap} {a0 : Int} {bs : List Block} {fl : List Int}
    (h : TSeg s a0 bs) (hfl : ∀ y ∈ fl, ∃ c ∈ bs, c.addr = y) : Apart fl := by
  intro x hx y hy
  obtain ⟨c, hc, rfl⟩ := hfl x hx
  obtain ⟨d, hd, rfl⟩ := hfl y hy
  have h1 := TSeg_mem h hc
  have h2 := TSeg_mem h hd
  rcases TSeg_disjoint h hc hd with rfl | h3 | h3
  · exact Or.inl rfl
  · right; left; omega
  · right; right; omega

theorem header_ne_zero {s : Heap} {a0 : Int} {bs : List Block} {fl : List Int}
    (h : TSeg s a0 bs) (hfl : ∀ y ∈ fl, ∃ c ∈ bs, c.addr = y) :
    ∀ x ∈ fl, wordAt s.mem x ≠ 0 := by
  intro x hx
  obtain ⟨c, hc, rfl⟩ := hfl x hx
  have h1 := TSeg_mem h hc
  omega

theorem FreeList_of_agree {s t : Heap} {fl : List Int} {P : Int → Prop} (h : FreeList s fl)
    (hv : ∀ a, s.valid a → t.valid a) (hh : t.mm_list_headp = s.mm_list_headp)
    (ht : t.mm_list_tailp = s.mm_list_tailp) (hag : Agree s t P)
    (hP : ∀ y ∈ fl, ∀ x, y + 4 ≤ x → x < y + 12 → P x) : FreeList t fl := by
  obtain ⟨h1, h2, h3⟩ := h
  refine ⟨hh.trans h1, ht.trans h2, Seg_of_words h3 hv ?_⟩
  intro y hy
  have := hP y hy
  exact ⟨hag.word (this _ (by omega) (by omega)) (this _ (by omega) (by omega))
      (this _ (by omega) (by omega)) (this _ (by omega) (by omega)),
    hag.word (this _ (by omega) (by omega)) (this _ (by omega) (by omega))
      (this _ (by omega) (by omega)) (this _ (by omega) (by omega))⟩

/-- A word write that misses the link words of every entry keeps the list. -/
theorem FreeList_put {s : Heap} {fl : List Int} (h : FreeList s fl) (x v : Int)
    (hx : ∀ y ∈ fl, x + 4 ≤ y + 4 ∨ y + 12 ≤ x) : FreeList (s.put x v) fl :=
  ⟨h.1, h.2.1, Seg_put h.2.2 x v hx⟩

/-! ## `free_coalesce` -/

theorem blockSize_of_word {s : Heap} {a sz al : Int} (h : wordAt s.mem a = sz + al)
    (h0 : 0 ≤ sz) (h1 : sz < 2147483648) (h8 : sz % 8 = 0) (hal : al = 0 ∨ al = 1) :
    blockSize s a = sz := by
  rw [blockSize, h, sizeOfWord_pack sz al h0 h1 h8 hal]

theorem sizeOfWord_self (sz : Int) (h0 : 0 ≤ sz) (h1 : sz < 2147483648) (h8 : sz % 8 = 0) :
    sizeOfWord sz = sz := by
  simp only [sizeOfWord, wrap32]; omega

theorem blockAlloc_of_word {s : Heap} {a sz al : Int} (h : wordAt s.mem a = sz + al)
    (h8 : sz % 8 = 0) (hal : al = 0 ∨ al = 1) : blockAlloc s a = al := by
  rw [blockAlloc, h, allocOfWord_pack sz al h8 hal]

/-- Sizes inside a sane region fit an `int`. -/
theorem Tiling_size_lt {s : Heap} {bs : List Block} (hr : Region s) (h : Tiling s bs) :
    endOf (s.heap_blocks + 8) bs - s.heap_blocks < 2147483648 := by
  obtain ⟨h1, h2, h3, h4, h5, h6⟩ := h
  obtain ⟨r1, r2, r3, r4⟩ := hr
  omega

/-- The part of `free_coalesce` up to the case distinction: it stamps the
block free and reads the flags of the two neighbours. -/
theorem free_coalesce_start {s t : Heap} {pre post : List Block} {b : Block} {r : Int}
    (hr : Region s) (htl : Tiling s (pre ++ b :: post))
    (h : free_coalesce s b.addr = .ok (r, t)) :
    ∃ s2, s2 = (s.put b.addr b.size).put (b.addr + b.size - 4) b.size ∧
      Tiling s2 (pre ++ { b with alloc := 0 } :: post) ∧
      Agree s s2 (Untouched b.addr (b.addr + b.size) []) ∧
      (if lastBlockAlloc pre ≠ 0 ∧ headBlockAlloc post ≠ 0 then do
          let s ← mm_list_append s2 b.addr
          pure (b.addr, s)
        else if lastBlockAlloc pre ≠ 0 ∧ ¬ headBlockAlloc post ≠ 0 then do
          let s ← mm_list_remove s2 (b.addr + b.size)
          let nx ← mm_block_next s b.addr
          let z ← mm_block_size s nx
          let s ← mm_block_set_header s b.addr (wrap32 (b.size + z)) 0
          let s ← mm_block_set_footer s b.addr (wrap32 (b.size + z)) 0
          let s ← mm_list_append s b.addr
          pure (b.addr, s)
        else if ¬ lastBlockAlloc pre ≠ 0 ∧ headBlockAlloc post ≠ 0 then do
          let z ← mm_block_size s2 (b.addr - lastBlockSize pre)
          let s ← mm_block_set_header s2 (b.addr - lastBlockSize pre) (wrap32 (b.size + z)) 0
          let p ← mm_block_prev s b.addr
          let s ← mm_block_set_footer s p (wrap32 (b.size + z)) 0
          let q ← mm_block_prev s b.addr
          pure (q, s)
        else do
          let s ← mm_list_remove s2 (b.addr + b.size)
          let z1 ← mm_block_size s (b.addr - lastBlockSize pre)
          let z2 ← mm_block_size s (b.addr + b.size)
          let s ← mm_block_set_header s (b.addr - lastBlockSize pre)
            (wrap32 (wrap32 (b.size + z1) + z2)) 0
          let s ← mm_block_set_footer s (b.addr - lastBlockSize pre)
            (wrap32 (wrap32 (b.size + z1) + z2)) 0
          let q ← mm_block_prev s b.addr
          pure (q, s)) = .ok (r, t) := by
  have hb : b ∈ pre ++ b :: post := by simp
  have hbm := TSeg_mem htl.2.2.2.1 hb
  have hbb := Tiling_bounds htl hb
  have hlt := Tiling_size_lt hr htl
  obtain ⟨hb1, hb2, hb3, hb4, hb5, hb6, hb7⟩ := hbm
  have hsz : blockSize s b.addr = b.size :=
    blockSize_of_word hb6 (by omega) (by have := htl.1; omega) hb4 hb5
  have hpv := Tiling_prev htl
  have hnx := @Tiling_next _ (pre ++ [b]) post (by simpa using htl)
  have hlo : endOf (s.heap_blocks + 8) pre = b.addr := by
    have := htl.2.2.2.1
    rw [TSeg_append] at this
    exact this.2.1.symm
  rw [hlo] at hpv
  rw [endOf_concat, hlo] at hnx
  obtain ⟨p1, p2, p3, p4, p5, p6⟩ := hpv
  obtain ⟨n1, n2, n3, n4, n5⟩ := hnx
  have hst := htl.1
  have vb : s.valid b.addr := ⟨by omega, by omega⟩
  have vf : s.valid (b.addr + b.size - 4) := ⟨by omega, by omega⟩
  have vpf : s.valid (b.addr - 4) := ⟨by omega, by omega⟩
  have vph : s.valid (b.addr - lastBlockSize pre) := ⟨by omega, by omega⟩
  have vn : s.valid (b.addr + b.size) := ⟨by omega, by omega⟩
  have ev1 : mm_block_size s b.addr = .ok b.size := by
    rw [mm_block_size_eq_ok]; exact ⟨vb, hsz.symm⟩
  have ev2 : mm_block_set_header s b.addr b.size 0 = .ok (s.put b.addr b.size) := by
    rw [mm_block_set_header_eq_ok]; exact ⟨vb, by rw [add_zero]⟩
  have hsz1 : blockSize (s.put b.addr b.size) b.addr = b.size := by
    rw [blockSize, wordAt_put_same _ _ _ (by omega) (by omega)]
    exact sizeOfWord_self b.size (by omega) (by omega) hb4
  have ev3 : mm_block_set_footer (s.put b.addr b.size) b.addr b.size 0 =
      .ok ((s.put b.addr b.size).put (b.addr + b.size - 4) b.size) := by
    rw [mm_block_set_footer_eq_ok, hsz1]; exact ⟨vb, vf, by rw [add_zero]⟩
  have w2 : ∀ x, (x + 4 ≤ b.addr ∨ b.addr + b.size ≤ x) →
      wordAt ((s.put b.addr b.size).put (b.addr + b.size - 4) b.size).mem x = wordAt s.mem x := by
    intro x hx
    rw [wordAt_put_other _ _ _ _ (by omega), wordAt_put_other _ _ _ _ (by omega)]
  have ev4 : mm_block_prev ((s.put b.addr b.size).put (b.addr + b.size - 4) b.size) b.addr =
      .ok (b.addr - lastBlockSize pre) := by
    rw [mm_block_prev_eq_ok]
    refine ⟨vpf, ?_⟩
    rw [blockSize_of_word ((w2 _ (by omega)).trans p1) (by omega) (by omega) p4 p5]
  have ev5 : mm_block_allocated ((s.put b.addr b.size).put (b.addr + b.size - 4) b.size)
      (b.addr - lastBlockSize pre) = .ok (lastBlockAlloc pre) := by
    rw [mm_block_allocated_eq_ok]
    refine ⟨vph, ?_⟩
    rw [blockAlloc_of_word ((w2 _ (by omega)).trans p2) p4 p5]
  have hsz2 : blockSize ((s.put b.addr b.size).put (b.addr + b.size - 4) b.size) b.addr
      = b.size := by
    rw [blockSize, wordAt_put_other _ _ _ _ (by omega), wordAt_put_same _ _ _ (by omega) (by omega)]
    exact sizeOfWord_self b.size (by omega) (by omega) hb4
  have ev6 : mm_block_next ((s.put b.addr b.size).put (b.addr + b.size - 4) b.size) b.addr =
      .ok (b.addr + b.size) := by
    rw [mm_block_next_eq_ok, hsz2]; exact ⟨vb, rfl⟩
  have ev7 : mm_block_allocated ((s.put b.addr b.size).put (b.addr + b.size - 4) b.size)
      (b.addr + b.size) = .ok (headBlockAlloc post) := by
    rw [mm_block_allocated_eq_ok]
    refine ⟨vn, ?_⟩
    rw [blockAlloc_of_word ((w2 _ (by omega)).trans n1) n3 n4]
  have hag : Agree s ((s.put b.addr b.size).put (b.addr + b.size - 4) b.size)
      (Untouched b.addr (b.addr + b.size) []) := by
    apply Agree.put (Agree_put _ _ _ _ _)
    · intro x hx; have := hx.1; omega
    · intro x hx; have := hx.1; omega
  refine ⟨_, rfl, ?_, hag, ?_⟩
  · have h1 : Tiling s (pre ++ [b] ++ post) := by simpa using htl
    have h2 := @Tiling_rebuild _ ((s.put b.addr b.size).put (b.addr + b.size - 4) b.size) _ _
      [{ b with alloc := 0 }] _ [] h1 ⟨rfl, rfl, rfl, rfl⟩
      (by simp) (by rw [hlo]; exact hag)
      (by
        rw [hlo]
        refine ⟨rfl, hb3, hb4, Or.inl rfl, ?_, ?_, trivial⟩
        · show wordAt ((s.put b.addr b.size).put (b.addr + b.size - 4) b.size).mem b.addr
            = b.size + 0
          rw [wordAt_put_other _ _ _ _ (by omega), wordAt_put_same _ _ _ (by omega) (by omega),
            add_zero]
        · show wordAt ((s.put b.addr b.size).put (b.addr + b.size - 4) b.size).mem
            (b.addr + b.size - 4) = b.size + 0
          rw [wordAt_put_same _ _ _ (by omega) (by omega), add_zero])
      rfl
    simpa using h2
  · unfold free_coalesce at h
    simp only [ev1, run_bind_ok, ev2, ev3, ev4, ev5, ev6, ev7] at h
    exact h

theorem NoAdjFree_cons (b : Block) (bs : List Block) :
    NoAdjFree (b :: bs) ↔ ¬ (b.alloc = 0 ∧ headBlockAlloc bs = 0) ∧ NoAdjFree bs := by
  cases bs with
  | nil => simp [NoAdjFree, headBlockAlloc]
  | cons c cs => simp [NoAdjFree, headBlockAlloc]

theorem headBlockAlloc_append_cons (pre post : List Block) (b : Block) :
    headBlockAlloc (pre ++ b :: post) = headBlockAlloc (pre ++ [b]) := by
  cases pre <;> rfl

/-- The neighbour condition around one block of the scan. -/
theorem NoAdjFree_mid (pre post : List Block) (b : Block) :
    NoAdjFree (pre ++ b :: post) ↔
      NoAdjFree pre ∧ ¬ (lastBlockAlloc pre = 0 ∧ b.alloc = 0) ∧
      ¬ (b.alloc = 0 ∧ headBlockAlloc post = 0) ∧ NoAdjFree post := by
  induction pre with
  | nil =>
    simp only [List.nil_append, NoAdjFree_cons, NoAdjFree, lastBlockAlloc]
    constructor
    · rintro ⟨h1, h2⟩; exact ⟨trivial, by simp, h1, h2⟩
    · rintro ⟨-, -, h1, h2⟩; exact ⟨h1, h2⟩
  | cons x xs ih =>
    rw [List.cons_append, NoAdjFree_cons, ih, NoAdjFree_cons]
    cases xs with
    | nil =>
      simp only [List.nil_append, headBlockAlloc, lastBlockAlloc, NoAdjFree]
      tauto
    | cons y ys =>
      simp only [List.cons_append, headBlockAlloc, lastBlockAlloc]
      tauto

/-- Blocks before a block of the scan end below it, blocks after it start
above it. -/
theorem TSeg_parts {s : Heap} {a : Int} {pre post : List Block} {b : Block}
    (h : TSeg s a (pre ++ b :: post)) :
    endOf a pre = b.addr ∧ (∀ c ∈ pre, a ≤ c.addr ∧ c.addr + c.size ≤ b.addr ∧ 16 ≤ c.size) ∧
    (∀ c ∈ post, b.addr + b.size ≤ c.addr ∧ 16 ≤ c.size) := by
  rw [TSeg_append] at h
  obtain ⟨h1, h2, -, -, -, -, -, h3⟩ := h
  refine ⟨h2.symm, ?_, ?_⟩
  · intro c hc
    have := TSeg_mem h1 hc
    omega
  · intro c hc
    have := TSeg_mem h3 hc
    omega

theorem WFx.node {s : Heap} {pre post : List Block} {b : Block} {fl : List Int}
    (h : WFx s pre b post fl) {y : Int} (hy : y ∈ fl) :
    (y + 16 ≤ b.addr ∨ b.addr + b.size ≤ y) ∧ ∃ c ∈ pre ++ b :: post, c.addr = y := by
  obtain ⟨-, htl, -, -, -, hiff⟩ := h
  obtain ⟨c, hc, rfl, -⟩ := (hiff y).mp hy
  have hp := TSeg_parts htl.2.2.2.1
  rcases List.mem_append.mp hc with hc | hc
  · have := hp.2.1 c hc
    exact ⟨by omega, c, by simp [hc], rfl⟩
  · have := hp.2.2 c hc
    exact ⟨by omega, c, by simp [hc], rfl⟩

/-- Case "both neighbours allocated" of `free_coalesce`: the block is appended
to the free list. -/
theorem free_coalesce_aa {s t : Heap} {pre post : List Block} {b : Block} {fl : List Int}
    (hwf : WFx s pre b post fl) (hb0 : b.alloc = 0)
    (hp : lastBlockAlloc pre ≠ 0) (hn : headBlockAlloc post ≠ 0)
    (h : mm_list_append s b.addr = .ok t) :
    WF t (pre ++ b :: post) (fl ++ [b.addr]) ∧ SameShape s t ∧
    Agree s t (Untouched b.addr (b.addr + b.size) fl) := by
  have hnode := fun y hy => hwf.node (y := y) hy
  obtain ⟨hreg, htl, hnaf, hfl, hnd, hiff⟩ := hwf
  have hbm : b ∈ pre ++ b :: post := by simp
  have hbb := Tiling_bounds htl hbm
  have hbs := (TSeg_mem htl.2.2.2.1 hbm).2.2.1
  have hlo := (TSeg_parts htl.2.2.2.1).1
  have hvb : s.valid b.addr := ⟨by omega, by omega⟩
  have hbne : b.addr ≠ 0 := by have := hreg.1; omega
  have hbfl : b.addr ∉ fl := fun hy => by have := (hnode _ hy).1; omega
  have hapf : Apart fl := Apart_of_tiling htl.2.2.2.1 (fun y hy => (hnode y hy).2)
  -- the state after the append, with its frame and its list
  have key : SameShape s t ∧ Agree s t (Untouched b.addr (b.addr + b.size) fl) ∧
      FreeList t (fl ++ [b.addr]) ∧ wordAt t.mem b.addr = wordAt s.mem b.addr ∧
      wordAt t.mem (b.addr + b.size - 4) = wordAt s.mem (b.addr + b.size - 4) := by
    by_cases ht : s.mm_list_tailp = 0
    · obtain ⟨rfl, hfl2⟩ := list_append_empty hbne hvb ht h
      have : fl = [] := hfl.eq_nil_of_tail ht
      subst this
      refine ⟨⟨rfl, rfl, rfl, rfl⟩, ?_, hfl2, ?_, ?_⟩
      · show Agree s ((s.put (b.addr + 4) 0).put (b.addr + 8) 0) _
        apply Agree.put (Agree_put _ _ _ _ _)
        · intro x hx; have := hx.1; omega
        · intro x hx; have := hx.1; omega
      · show wordAt ((s.put (b.addr + 4) 0).put (b.addr + 8) 0).mem _ = _
        rw [wordAt_put_other _ _ _ _ (by omega), wordAt_put_other _ _ _ _ (by omega)]
      · show wordAt ((s.put (b.addr + 4) 0).put (b.addr + 8) 0).mem _ = _
        rw [wordAt_put_other _ _ _ _ (by omega), wordAt_put_other _ _ _ _ (by omega)]
    · obtain ⟨rfl, hfl2⟩ := list_append_nonempty hreg hfl hnd hapf hbne hvb
        (fun y hy => by have := (hnode y hy).1; omega) ht h
      have hT := (hnode _ (hfl.tail_mem ht)).1
      refine ⟨⟨rfl, rfl, rfl, rfl⟩, ?_, hfl2, ?_, ?_⟩
      · show Agree s (((s.put (b.addr + 4) s.mm_list_tailp).put (b.addr + 8) 0).put
          (s.mm_list_tailp + 8) b.addr) _
        apply Agree.put (Agree.put (Agree_put _ _ _ _ _) _ _ _)
        · intro x hx; have := hx.2 _ (hfl.tail_mem ht); omega
        · intro x hx; have := hx.1; omega
        · intro x hx; have := hx.1; omega
      · show wordAt (((s.put (b.addr + 4) s.mm_list_tailp).put (b.addr + 8) 0).put
          (s.mm_list_tailp + 8) b.addr).mem _ = _
        rw [wordAt_put_other _ _ _ _ (by omega), wordAt_put_other _ _ _ _ (by omega),
          wordAt_put_other _ _ _ _ (by omega)]
      · show wordAt (((s.put (b.addr + 4) s.mm_list_tailp).put (b.addr + 8) 0).put
          (s.mm_list_tailp + 8) b.addr).mem _ = _
        rw [wordAt_put_other _ _ _ _ (by omega), wordAt_put_other _ _ _ _ (by omega),
          wordAt_put_other _ _ _ _ (by omega)]
  obtain ⟨hsh, hag, hfl2, hwh, hwf⟩ := key
  refine ⟨⟨?_, ?_, ?_, hfl2, ?_, ?_⟩, hsh, hag⟩
  · obtain ⟨e1, e2, e3, e4⟩ := hsh
    unfold Region; rw [e1, e2, e3]; exact hreg
  · have h1 : Tiling s (pre ++ [b] ++ post) := by simpa using htl
    have h2 := @Tiling_rebuild _ _ _ _ [b] _ fl h1 hsh
      (fun y hy => by simpa using (hnode y hy).2)
      (by rw [hlo]; exact hag)
      (by
        rw [hlo]
        have hbt := TSeg_mem htl.2.2.2.1 hbm
        obtain ⟨-, -, q3, q4, q5, q6, q7⟩ := hbt
        refine ⟨rfl, q3, q4, q5, ?_, ?_, trivial⟩
        · rw [hwh]; exact q6
        · rw [hwf]; exact q7)
      rfl
    simpa using h2
  · rw [NoAdjFree_mid] at hnaf ⊢
    obtain ⟨g1, -, -, g4⟩ := hnaf
    exact ⟨g1, fun h => hp h.1, fun h => hn h.2, g4⟩
  · rw [List.nodup_append]
    refine ⟨hnd, by simp, ?_⟩
    intro y hy1 hy2
    simp only [List.mem_singleton] at hy2
    exact hbfl (hy2 ▸ hy1)
  · intro a
    simp only [List.mem_append, List.mem_cons, List.not_mem_nil, or_false, hiff]
    constructor
    · rintro (⟨c, hc, h1, h2⟩ | rfl)
      · exact ⟨c, by tauto, h1, h2⟩
      · exact ⟨b, by simp, rfl, hb0⟩
    · rintro ⟨c, hc, h1, h2⟩
      rcases hc with hc | rfl | hc
      · exact Or.inl ⟨c, Or.inl hc, h1, h2⟩
      · exact Or.inr h1.symm
      · exact Or.inl ⟨c, Or.inr hc, h1, h2⟩

theorem Region_of_sameShape {s t : Heap} (h : SameShape s t) (hr : Region s) : Region t := by
  obtain ⟨e1, e2, e3, e4⟩ := h
  unfold Region; rw [e1, e2, e3]; exact hr

theorem SameShape.valid {s t : Heap} (h : SameShape s t) {a : Int} (hv : s.valid a) :
    t.valid a := by
  obtain ⟨e1, e2, e3, e4⟩ := h
  unfold Heap.valid; rw [e1, e2]; exact hv

/-- Stamping the block free keeps the heap well formed up to that block. -/
theorem WFx_stamp {s : Heap} {pre post : List Block} {b : Block} {fl : List Int}
    (hwf : WFx s pre b post fl) :
    WFx ((s.put b.addr b.size).put (b.addr + b.size - 4) b.size) pre { b with alloc := 0 } post
      fl := by
  have hnode := fun y hy => hwf.node (y := y) hy
  obtain ⟨hreg, htl, hnaf, hfl, hnd, hiff⟩ := hwf
  obtain ⟨s2, rfl, h2, h3, -⟩ : ∃ s2, s2 = (s.put b.addr b.size).put (b.addr + b.size - 4) b.size ∧
      Tiling s2 (pre ++ { b with alloc := 0 } :: post) ∧
      Agree s s2 (Untouched b.addr (b.addr + b.size) []) ∧ True := by
    have hb : b ∈ pre ++ b :: post := by simp
    obtain ⟨hb1, hb2, hb3, hb4, hb5, hb6, hb7⟩ := TSeg_mem htl.2.2.2.1 hb
    have hbb := Tiling_bounds htl hb
    have hlt := Tiling_size_lt hreg htl
    have hst := htl.1
    have hlo := (TSeg_parts htl.2.2.2.1).1
    have hag : Agree s ((s.put b.addr b.size).put (b.addr + b.size - 4) b.size)
        (Untouched b.addr (b.addr + b.size) []) := by
      apply Agree.put (Agree_put _ _ _ _ _)
      · intro x hx; have := hx.1; omega
      · intro x hx; have := hx.1; omega
    refine ⟨_, rfl, ?_, hag, trivial⟩
    have h1 : Tiling s (pre ++ [b] ++ post) := by simpa using htl
    have h2 := @Tiling_rebuild _ ((s.put b.addr b.size).put (b.addr + b.size - 4) b.size) _ _
      [{ b with alloc := 0 }] _ [] h1 ⟨rfl, rfl, rfl, rfl⟩
      (by simp) (by rw [hlo]; exact hag)
      (by
        rw [hlo]
        refine ⟨rfl, hb3, hb4, Or.inl rfl, ?_, ?_, trivial⟩
        · show wordAt ((s.put b.addr b.size).put (b.addr + b.size - 4) b.size).mem b.addr
            = b.size + 0
          rw [wordAt_put_other _ _ _ _ (by omega), wordAt_put_same _ _ _ (by omega) (by omega),
            add_zero]
        · show wordAt ((s.put b.addr b.size).put (b.addr + b.size - 4) b.size).mem
            (b.addr + b.size - 4) = b.size + 0
          rw [wordAt_put_same _ _ _ (by omega) (by omega), add_zero])
      rfl
    simpa using h2
  refine ⟨hreg, h2, hnaf, ?_, hnd, hiff⟩
  refine FreeList_of_agree hfl (fun a ha => ha) rfl rfl h3 ?_
  intro y hy x hx1 hx2
  have := (hnode y hy).1
  exact ⟨by omega, by simp⟩

/-- Case "previous block free, next block allocated" of `free_coalesce`: the
previous block absorbs the block in place; the free list is not touched. -/
theorem free_coalesce_fa {s t : Heap} {pre post : List Block} {b c : Block} {fl : List Int}
    {r : Int} (hwf : WFx s (pre ++ [c]) b post fl) (_ : b.alloc = 0) (hc0 : c.alloc = 0)
    (hn : headBlockAlloc post ≠ 0)
    (h : (do
        let z ← mm_block_size s c.addr
        let s1 ← mm_block_set_header s c.addr (wrap32 (b.size + z)) 0
        let p ← mm_block_prev s1 b.addr
        let s2 ← mm_block_set_footer s1 p (wrap32 (b.size + z)) 0
        let q ← mm_block_prev s2 b.addr
        pure (q, s2)) = .ok (r, t)) :
    r = c.addr ∧
    t = (s.put c.addr (b.size + c.size)).put (b.addr + b.size - 4) (b.size + c.size) ∧
    WF t (pre ++ { c with size := c.size + b.size } :: post) fl ∧ SameShape s t ∧
    Agree s t (Untouched c.addr (b.addr + b.size) fl) := by
  have hnode := fun y hy => hwf.node (y := y) hy
  obtain ⟨hreg, htl, hnaf, hfl, hnd, hiff⟩ := hwf
  have hts := htl.2.2.2.1
  have hbm : b ∈ (pre ++ [c]) ++ b :: post := by simp
  have hcm : c ∈ (pre ++ [c]) ++ b :: post := by simp
  obtain ⟨hb1, hb2, hb3, hb4, hb5, hb6, hb7⟩ := TSeg_mem hts hbm
  obtain ⟨hc1, hc2, hc3, hc4, hc5, hc6, hc7⟩ := TSeg_mem hts hcm
  have hbb := Tiling_bounds htl hbm
  have hcb := Tiling_bounds htl hcm
  have hlt := Tiling_size_lt hreg htl
  have hst := htl.1
  have hadj : c.addr + c.size = b.addr := by
    have h1 := (TSeg_parts hts).1
    have h2 : TSeg s (s.heap_blocks + 8) (pre ++ c :: (b :: post)) := by simpa using hts
    have h3 := (TSeg_parts h2).1
    rw [endOf_concat] at h1
    omega
  rw [hc0] at hc6 hc7
  simp only [add_zero] at hc6 hc7
  -- run the code
  have vc : s.valid c.addr := ⟨by omega, by omega⟩
  have vbf : s.valid (b.addr - 4) := ⟨by omega, by omega⟩
  have vf : s.valid (b.addr + b.size - 4) := ⟨by omega, by omega⟩
  have ev1 : mm_block_size s c.addr = .ok c.size := by
    rw [mm_block_size_eq_ok, blockSize, hc6, sizeOfWord_self _ (by omega) (by omega) hc4]
    exact ⟨vc, rfl⟩
  have hw : wrap32 (b.size + c.size) = b.size + c.size := by
    simp only [wrap32]; omega
  have ev2 : mm_block_set_header s c.addr (b.size + c.size) 0 =
      .ok (s.put c.addr (b.size + c.size)) := by
    rw [mm_block_set_header_eq_ok, add_zero]; exact ⟨vc, rfl⟩
  have ev3 : mm_block_prev (s.put c.addr (b.size + c.size)) b.addr = .ok c.addr := by
    rw [mm_block_prev_eq_ok, blockSize, wordAt_put_other _ _ _ _ (by omega),
      show b.addr - 4 = c.addr + c.size - 4 by omega, hc7,
      sizeOfWord_self _ (by omega) (by omega) hc4]
    exact ⟨by simpa using (show s.valid (c.addr + c.size - 4) by rw [hadj]; exact vbf),
      by omega⟩
  have ev4 : mm_block_set_footer (s.put c.addr (b.size + c.size)) c.addr (b.size + c.size) 0
      = .ok ((s.put c.addr (b.size + c.size)).put (b.addr + b.size - 4) (b.size + c.size)) := by
    rw [mm_block_set_footer_eq_ok, blockSize, wordAt_put_same _ _ _ (by omega) (by omega),
      sizeOfWord_self _ (by omega) (by omega) (by omega), add_zero,
      show c.addr + (b.size + c.size) - 4 = b.addr + b.size - 4 by omega]
    exact ⟨vc, vf, rfl⟩
  have ev5 : mm_block_prev ((s.put c.addr (b.size + c.size)).put (b.addr + b.size - 4)
      (b.size + c.size)) b.addr = .ok c.addr := by
    rw [mm_block_prev_eq_ok, blockSize, wordAt_put_other _ _ _ _ (by omega),
      wordAt_put_other _ _ _ _ (by omega),
      show b.addr - 4 = c.addr + c.size - 4 by omega, hc7,
      sizeOfWord_self _ (by omega) (by omega) hc4]
    exact ⟨by simpa using (show s.valid (c.addr + c.size - 4) by rw [hadj]; exact vbf),
      by omega⟩
  simp only [ev1, run_bind_ok, hw, ev2, ev3, ev4, ev5, run_pure, Except.ok.injEq,
    Prod.mk.injEq] at h
  obtain ⟨rfl, rfl⟩ := h
  have hag : Agree s ((s.put c.addr (b.size + c.size)).put (b.addr + b.size - 4)
      (b.size + c.size)) (Untouched c.addr (b.addr + b.size) fl) := by
    apply Agree.put (Agree_put _ _ _ _ _)
    · intro x hx; have := hx.1; omega
    · intro x hx; have := hx.1; omega
  have hsh : SameShape s ((s.put c.addr (b.size + c.size)).put (b.addr + b.size - 4)
      (b.size + c.size)) := ⟨rfl, rfl, rfl, rfl⟩
  have hlo : endOf (s.heap_blocks + 8) pre = c.addr := by
    have h2 : TSeg s (s.heap_blocks + 8) (pre ++ c :: (b :: post)) := by simpa using hts
    exact (TSeg_parts h2).1
  refine ⟨rfl, rfl, ⟨hreg, ?_, ?_, ?_, hnd, ?_⟩, hsh, hag⟩
  · have h1 : Tiling s (pre ++ [c, b] ++ post) := by simpa using htl
    have h2 := @Tiling_rebuild _ _ _ _ [{ c with size := c.size + b.size }] _ fl h1 hsh
      (fun y hy => by simpa using (hnode y hy).2)
      (by
        rw [hlo]
        show Agree s _ (Untouched c.addr (c.addr + c.size + b.size) fl)
        rw [show c.addr + c.size + b.size = b.addr + b.size by omega]
        exact hag)
      (by
        rw [hlo]
        refine ⟨rfl, by show 16 ≤ c.size + b.size; omega, by show (c.size + b.size) % 8 = 0; omega,
          Or.inl hc0, ?_, ?_, trivial⟩
        · show wordAt ((s.put c.addr (b.size + c.size)).put (b.addr + b.size - 4)
            (b.size + c.size)).mem c.addr = c.size + b.size + c.alloc
          rw [wordAt_put_other _ _ _ _ (by omega), wordAt_put_same _ _ _ (by omega) (by omega)]
          omega
        · show wordAt ((s.put c.addr (b.size + c.size)).put (b.addr + b.size - 4)
            (b.size + c.size)).mem (c.addr + (c.size + b.size) - 4) = c.size + b.size + c.alloc
          rw [show c.addr + (c.size + b.size) - 4 = b.addr + b.size - 4 by omega,
            wordAt_put_same _ _ _ (by omega) (by omega)]
          omega)
      (by rw [hlo]; show c.addr + (c.size + b.size) = c.addr + c.size + b.size; omega)
    simpa using h2
  · have h1 : NoAdjFree (pre ++ c :: ({ b with alloc := 1 } :: post)) := by simpa using hnaf
    rw [NoAdjFree_mid] at h1 ⊢
    obtain ⟨g1, g2, -, g4⟩ := h1
    rw [NoAdjFree_cons] at g4
    exact ⟨g1, g2, fun h => hn h.2, g4.2⟩
  · apply FreeList_put (FreeList_put hfl _ _ _)
    · intro y hy
      have := (hnode y hy).1
      omega
    · intro y hy
      obtain ⟨d, hd, rfl, -⟩ := (hiff y).mp hy
      have h2 : TSeg s (s.heap_blocks + 8) (pre ++ c :: (b :: post)) := by simpa using hts
      have hp := TSeg_parts h2
      simp only [List.mem_append, List.mem_singleton] at hd
      rcases hd with (hd | rfl) | hd
      · have := hp.2.1 d hd; omega
      · omega
      · have := (hp.2.2 d (List.mem_cons_of_mem _ hd)).1; omega
  · intro a
    rw [hiff]
    simp only [List.mem_append, List.mem_cons, List.not_mem_nil, or_false]
    constructor
    · rintro ⟨d, hd, h1, h2⟩
      rcases hd with (hd | rfl) | hd
      · exact ⟨d, Or.inl hd, h1, h2⟩
      · exact ⟨_, Or.inr (Or.inl rfl), h1, h2⟩
      · exact ⟨d, Or.inr (Or.inr hd), h1, h2⟩
    · rintro ⟨d, hd, h1, h2⟩
      rcases hd with hd | rfl | hd
      · exact ⟨d, Or.inl (Or.inl hd), h1, h2⟩
      · exact ⟨c, Or.inl (Or.inr rfl), h1, hc0⟩
      · exact ⟨d, Or.inr hd, h1, h2⟩

theorem TSeg_size_sum {s : Heap} {a : Int} {bs : List Block} (h : TSeg s a bs) (hne : bs ≠ []) :
    a + 16 ≤ endOf a bs := by
  cases bs with
  | nil => exact absurd rfl hne
  | cons b bs =>
    obtain ⟨-, h16, -, -, -, -, hr⟩ := h
    have := TSeg_le_endOf hr
    show a + 16 ≤ endOf (a + b.size) bs
    omega

/-- Stamping one header and one footer over a run of adjacent blocks turns
them into a single block. -/
theorem Tiling_merge {s : Heap} {pre old post : List Block} (hr : Region s)
    (htl : Tiling s (pre ++ old ++ post)) (hne : old ≠ []) (al : Int) (hal : al = 0 ∨ al = 1)
    {lo hi : Int} (hlo : lo = endOf (s.heap_blocks + 8) pre) (hhi : hi = endOf lo old) :
    Tiling ((s.put lo (hi - lo + al)).put (hi - 4) (hi - lo + al))
      (pre ++ [{ addr := lo, size := hi - lo, alloc := al }] ++ post) ∧
    Agree s ((s.put lo (hi - lo + al)).put (hi - 4) (hi - lo + al)) (Untouched lo hi []) := by
  have hts := htl.2.2.2.1
  rw [TSeg_append, TSeg_append] at hts
  obtain ⟨⟨hpre, hold⟩, hpost⟩ := hts
  rw [← hlo] at hold
  have h16 := TSeg_size_sum hold hne
  rw [← hhi] at h16
  have hlt := Tiling_size_lt hr htl
  have hst := htl.1
  have h1 := TSeg_le_endOf hpre
  have h3 := TSeg_le_endOf hpost
  rw [endOf_append, endOf_append, ← hlo, ← hhi] at hlt
  rw [endOf_append, ← hlo, ← hhi] at h3
  rw [← hlo] at h1
  have h8 : (hi - lo) % 8 = 0 := by
    have : ∀ (a : Int) (bs : List Block), TSeg s a bs → (endOf a bs - a) % 8 = 0 := by
      intro a bs
      induction bs generalizing a with
      | nil => intro _; simp [endOf]
      | cons x xs ih =>
        intro h
        have := ih _ h.2.2.2.2.2.2
        have := h.2.2.1
        show (endOf (a + x.size) xs - a) % 8 = 0
        omega
    rw [hhi]; exact this lo old hold
  have hag : Agree s ((s.put lo (hi - lo + al)).put (hi - 4) (hi - lo + al))
      (Untouched lo hi []) := by
    apply Agree.put (Agree_put _ _ _ _ _)
    · intro x hx; have := hx.1; omega
    · intro x hx; have := hx.1; omega
  refine ⟨?_, hag⟩
  refine @Tiling_rebuild _ _ _ _ _ _ [] htl ⟨rfl, rfl, rfl, rfl⟩ (by simp)
    (by rw [← hlo, ← hhi]; exact hag) ?_ ?_
  · rw [← hlo]
    refine ⟨rfl, by show 16 ≤ hi - lo; omega, h8, hal, ?_, ?_, trivial⟩
    · show wordAt ((s.put lo (hi - lo + al)).put (hi - 4) (hi - lo + al)).mem lo = hi - lo + al
      rw [wordAt_put_other _ _ _ _ (by omega), wordAt_put_same _ _ _ (by omega) (by omega)]
    · show wordAt ((s.put lo (hi - lo + al)).put (hi - 4) (hi - lo + al)).mem
        (lo + (hi - lo) - 4) = hi - lo + al
      rw [show lo + (hi - lo) - 4 = hi - 4 by omega,
        wordAt_put_same _ _ _ (by omega) (by omega)]
  · rw [← hlo, ← hhi]
    show lo + (hi - lo) = hi
    omega

/-- Removal of a free neighbour from the free list inside `free_coalesce`. -/
theorem WFx_remove {s t : Heap} {pre post : List Block} {b n : Block} {fl : List Int}
    (hwf : WFx s pre b post fl) (hn : n ∈ pre ++ post) (hn0 : n.alloc = 0)
    (h : mm_list_remove s n.addr = .ok t) :
    ∃ l1 l2, fl = l1 ++ n.addr :: l2 ∧ FreeList t (l1 ++ l2) ∧
      Tiling t (pre ++ b :: post) ∧ SameShape s t ∧
      Agree s t (Untouched 0 0 fl) := by
  have hnode := fun y hy => hwf.node (y := y) hy
  obtain ⟨hreg, htl, hnaf, hfl, hnd, hiff⟩ := hwf
  have hts := htl.2.2.2.1
  have hnfl : n.addr ∈ fl := (hiff _).mpr ⟨n, hn, rfl, hn0⟩
  have hapf : Apart fl := Apart_of_tiling hts (fun y hy => (hnode y hy).2)
  have hnz := header_ne_zero hts (fun y hy => (hnode y hy).2)
  obtain ⟨l1, p, q, l2, rfl, rfl, hfl2⟩ := list_remove_spec hreg hfl hnd hapf hnz hnfl h
  have hag : Agree s ((s.put (q + 4) p).put (p + 8) q)
      (Untouched 0 0 (l1 ++ p :: n.addr :: q :: l2)) := by
    apply Agree.put (Agree_put _ _ _ _ _)
    · intro x hx; have := hx.2 p (by simp); omega
    · intro x hx; have := hx.2 q (by simp); omega
  refine ⟨l1 ++ [p], q :: l2, by simp, by simpa using hfl2, ?_, ⟨rfl, rfl, rfl, rfl⟩, hag⟩
  have h1 : Tiling s ((pre ++ b :: post) ++ [] ++ []) := by simpa using htl
  have h2 := @Tiling_rebuild _ ((s.put (q + 4) p).put (p + 8) q) _ _ [] _
    (l1 ++ p :: n.addr :: q :: l2) h1 ⟨rfl, rfl, rfl, rfl⟩
    (fun y hy => by simpa using (hnode y hy).2)
    (by
      refine hag.mono ?_
      intro x hx
      exact ⟨by omega, hx.2⟩)
    trivial rfl
  simpa using h2

theorem SameShape.chain {s t u : Heap} (h1 : SameShape s t) (h2 : SameShape t u) :
    SameShape s u := by
  obtain ⟨a1, a2, a3, a4⟩ := h1
  obtain ⟨b1, b2, b3, b4⟩ := h2
  exact ⟨b1.trans a1, b2.trans a2, b3.trans a3, b4.trans a4⟩

/-- Case "previous block allocated, next block free" of `free_coalesce`: the
next block leaves the free list, the block absorbs it and is appended. -/
theorem free_coalesce_af {s t : Heap} {pre post : List Block} {b n : Block} {fl : List Int}
    {r : Int} (hwf : WFx s pre b (n :: post) fl) (hb0 : b.alloc = 0) (hn0 : n.alloc = 0)
    (hp : lastBlockAlloc pre ≠ 0)
    (h : (do
        let s1 ← mm_list_remove s (b.addr + b.size)
        let nx ← mm_block_next s1 b.addr
        let z ← mm_block_size s1 nx
        let s2 ← mm_block_set_header s1 b.addr (wrap32 (b.size + z)) 0
        let s3 ← mm_block_set_footer s2 b.addr (wrap32 (b.size + z)) 0
        let s4 ← mm_list_append s3 b.addr
        pure (b.addr, s4)) = .ok (r, t)) :
    r = b.addr ∧ ∃ l1 l2, fl = l1 ++ n.addr :: l2 ∧
      WF t (pre ++ { b with size := b.size + n.size } :: post) (l1 ++ l2 ++ [b.addr]) ∧
      SameShape s t ∧ Agree s t (Untouched b.addr (n.addr + n.size) fl) := by
  have hnode := fun y hy => hwf.node (y := y) hy
  have hwf0 := hwf
  obtain ⟨hreg, htl, hnaf, hfl, hnd, hiff⟩ := hwf
  have hts := htl.2.2.2.1
  have hparts := TSeg_parts hts
  have hadj : n.addr = b.addr + b.size := by
    have h2 : TSeg s (s.heap_blocks + 8) ((pre ++ [b]) ++ n :: post) := by simpa using hts
    have := (TSeg_parts h2).1
    rw [endOf_concat, hparts.1] at this
    exact this.symm
  rw [← hadj] at h
  rw [bind_eq_ok] at h
  obtain ⟨s1, hrem, h⟩ := h
  obtain ⟨l1, l2, hfl_eq, hfl1, htl1, hsh1, hag1⟩ :=
    WFx_remove hwf0 (n := n) (by simp) hn0 hrem
  have hreg1 := Region_of_sameShape hsh1 hreg
  have hts1 := htl1.2.2.2.1
  have hbm : b ∈ pre ++ b :: n :: post := by simp
  have hnm : n ∈ pre ++ b :: n :: post := by simp
  obtain ⟨hb1, hb2, hb3, hb4, hb5, hb6, hb7⟩ := TSeg_mem hts1 hbm
  obtain ⟨hn1, hn2, hn3, hn4, hn5, hn6, hn7⟩ := TSeg_mem hts1 hnm
  have hbb := Tiling_bounds htl1 hbm
  have hnb := Tiling_bounds htl1 hnm
  have hlt := Tiling_size_lt hreg1 htl1
  have hst := htl1.1
  have vb : s1.valid b.addr := ⟨by omega, by omega⟩
  have vn : s1.valid n.addr := ⟨by omega, by omega⟩
  have ev1 : mm_block_next s1 b.addr = .ok n.addr := by
    rw [mm_block_next_eq_ok, blockSize_of_word hb6 (by omega) (by omega) hb4 hb5]
    exact ⟨vb, hadj⟩
  have ev2 : mm_block_size s1 n.addr = .ok n.size := by
    rw [mm_block_size_eq_ok, blockSize_of_word hn6 (by omega) (by omega) hn4 hn5]
    exact ⟨vn, rfl⟩
  have hw : wrap32 (b.size + n.size) = b.size + n.size := by
    simp only [wrap32]; omega
  have ev3 : mm_block_set_header s1 b.addr (b.size + n.size) 0 =
      .ok (s1.put b.addr (b.size + n.size + 0)) := by
    rw [mm_block_set_header_eq_ok]; exact ⟨vb, rfl⟩
  have ev4 : mm_block_set_footer (s1.put b.addr (b.size + n.size + 0)) b.addr
      (b.size + n.size) 0 = .ok ((s1.put b.addr (b.size + n.size + 0)).put
        (n.addr + n.size - 4) (b.size + n.size + 0)) := by
    rw [mm_block_set_footer_eq_ok, blockSize, wordAt_put_same _ _ _ (by omega) (by omega),
      sizeOfWord_pack _ 0 (by omega) (by omega) (by omega) (Or.inl rfl),
      show b.addr + (b.size + n.size) - 4 = n.addr + n.size - 4 by omega]
    exact ⟨vb, (show s1.valid _ from ⟨by omega, by omega⟩), rfl⟩
  simp only [ev1, ev2, run_bind_ok, hw, ev3, ev4] at h
  rw [bind_eq_ok] at h
  obtain ⟨s4, happ, h⟩ := h
  simp only [run_pure, Except.ok.injEq, Prod.mk.injEq] at h
  obtain ⟨rfl, rfl⟩ := h
  -- the merged block
  have hlo := hparts.1
  have hm := @Tiling_merge _ pre [b, n] post hreg1
    (by simpa using htl1) (by simp) 0 (Or.inl rfl) (b.addr) (n.addr + n.size)
    (by rw [hsh1.2.2.2, hlo]) (by show _ = b.addr + b.size + n.size; omega)
  rw [show n.addr + n.size - b.addr = b.size + n.size by omega] at hm
  obtain ⟨htl3, hag3⟩ := hm
  -- the state before the append is well formed up to the merged block
  have hndl : (l1 ++ l2).Nodup := by
    rw [hfl_eq] at hnd
    exact (List.nodup_append.mp hnd).1.append (List.nodup_cons.mp (List.nodup_append.mp hnd).2.1).2
      (fun x h1 h2 => (List.nodup_append.mp hnd).2.2 h1 (List.mem_cons_of_mem _ h2))
  have hnl : n.addr ∉ l1 ++ l2 := by
    rw [hfl_eq] at hnd
    intro hmem
    rcases List.mem_append.mp hmem with h1 | h2
    · exact (List.nodup_append.mp hnd).2.2 h1 (List.mem_cons_self _ _)
    · exact (List.nodup_cons.mp (List.nodup_append.mp hnd).2.1).1 h2
  have hiff3 : ∀ a, a ∈ l1 ++ l2 ↔ ∃ c ∈ pre ++ post, c.addr = a ∧ c.alloc = 0 := by
    intro a
    constructor
    · intro ha
      have hafl : a ∈ fl := by
        rw [hfl_eq]; simp only [List.mem_append, List.mem_cons] at ha ⊢; tauto
      obtain ⟨c, hc, h1, h2⟩ := (hiff a).mp hafl
      simp only [List.mem_append, List.mem_cons] at hc
      rcases hc with hc | rfl | hc
      · exact ⟨c, by simp [hc], h1, h2⟩
      · exact absurd (h1 ▸ ha) hnl
      · exact ⟨c, by simp [hc], h1, h2⟩
    · rintro ⟨c, hc, h1, h2⟩
      have hafl : a ∈ fl := (hiff a).mpr ⟨c, by
        simp only [List.mem_append, List.mem_cons] at hc ⊢; tauto, h1, h2⟩
      rw [hfl_eq] at hafl
      simp only [List.mem_append, List.mem_cons] at hafl ⊢
      rcases hafl with h | h | h
      · exact Or.inl h
      · exfalso
        have hcn : c.addr = n.addr := h1.trans h
        rcases List.mem_append.mp hc with hc | hc
        · have := hparts.2.1 c hc; omega
        · have := hparts.2.2 c (List.mem_cons_of_mem _ hc)
          have h2 : TSeg s (s.heap_blocks + 8) ((pre ++ [b]) ++ n :: post) := by simpa using hts
          have := (TSeg_parts h2).2.2 c hc
          omega
      · exact Or.inr h
  have hwf3 : WFx ((s1.put b.addr (b.size + n.size + 0)).put (n.addr + n.size - 4)
      (b.size + n.size + 0)) pre { addr := b.addr, size := b.size + n.size, alloc := 0 } post
      (l1 ++ l2) := by
    refine ⟨hreg1, by simpa using htl3, ?_, ?_, hndl, hiff3⟩
    · have h1 : NoAdjFree (pre ++ { b with alloc := 1 } :: (n :: post)) := hnaf
      rw [NoAdjFree_mid] at h1 ⊢
      obtain ⟨g1, g2, -, g4⟩ := h1
      rw [NoAdjFree_cons] at g4
      exact ⟨g1, by simp, by simp, g4.2⟩
    · refine FreeList_of_agree hfl1 (fun a ha => ha) rfl rfl hag3 ?_
      intro y hy x hx1 hx2
      obtain ⟨c, hc, rfl, -⟩ := (hiff3 y).mp hy
      refine ⟨?_, by simp⟩
      rcases List.mem_append.mp hc with hc | hc
      · have := hparts.2.1 c hc; omega
      · have h2 : TSeg s (s.heap_blocks + 8) ((pre ++ [b]) ++ n :: post) := by simpa using hts
        have := (TSeg_parts h2).2.2 c hc
        omega
  have hnxt : headBlockAlloc post ≠ 0 := by
    have h1 : NoAdjFree (pre ++ { b with alloc := 1 } :: (n :: post)) := hnaf
    rw [NoAdjFree_mid, NoAdjFree_cons] at h1
    intro h0
    exact h1.2.2.2.1 ⟨hn0, h0⟩
  obtain ⟨hwf4, hsh4, hag4⟩ := free_coalesce_aa hwf3 rfl hp hnxt happ
  refine ⟨rfl, l1, l2, hfl_eq, by rw [hb0]; exact hwf4, hsh1.chain hsh4, ?_⟩
  refine (hag1.mono ?_).trans ((hag3.mono ?_).trans (hag4.mono ?_))
  · intro x hx
    exact ⟨by omega, hx.2⟩
  · intro x hx
    exact ⟨hx.1, by simp⟩
  · intro x hx
    refine ⟨by have := hx.1; show x < b.addr ∨ b.addr + (b.size + n.size) ≤ x; omega, ?_⟩
    intro a ha
    exact hx.2 a (by rw [hfl_eq]; simp only [List.mem_append, List.mem_cons] at ha ⊢; tauto)

/-- Case "both neighbours free" of `free_coalesce`: the next block leaves the
free list and the previous block absorbs both in place. -/
theorem free_coalesce_ff {s t : Heap} {pre post : List Block} {b c n : Block} {fl : List Int}
    {r : Int} (hwf : WFx s (pre ++ [c]) b (n :: post) fl) (hc0 : c.alloc = 0)
    (hn0 : n.alloc = 0)
    (h : (do
        let s1 ← mm_list_remove s (b.addr + b.size)
        let z1 ← mm_block_size s1 c.addr
        let z2 ← mm_block_size s1 (b.addr + b.size)
        let s2 ← mm_block_set_header s1 c.addr (wrap32 (wrap32 (b.size + z1) + z2)) 0
        let s3 ← mm_block_set_footer s2 c.addr (wrap32 (wrap32 (b.size + z1) + z2)) 0
        let q ← mm_block_prev s3 b.addr
        pure (q, s3)) = .ok (r, t)) :
    r = c.addr ∧ ∃ l1 l2, fl = l1 ++ n.addr :: l2 ∧
      WF t (pre ++ { c with size := c.size + b.size + n.size } :: post) (l1 ++ l2) ∧
      SameShape s t ∧ Agree s t (Untouched c.addr (n.addr + n.size) fl) := by
  have hnode := fun y hy => hwf.node (y := y) hy
  have hwf0 := hwf
  obtain ⟨hreg, htl, hnaf, hfl, hnd, hiff⟩ := hwf
  have hts := htl.2.2.2.1
  have hts2 : TSeg s (s.heap_blocks + 8) (pre ++ c :: b :: n :: post) := by simpa using hts
  have hts3 : TSeg s (s.heap_blocks + 8) ((pre ++ [c, b]) ++ n :: post) := by simpa using hts
  have hpc := TSeg_parts hts2
  have hpb := TSeg_parts hts
  have hpn := TSeg_parts hts3
  have hcb : c.addr + c.size = b.addr := by
    have := hpb.1; rw [endOf_concat, hpc.1] at this; exact this
  have hadj : n.addr = b.addr + b.size := by
    have := hpn.1
    rw [show pre ++ [c, b] = (pre ++ [c]) ++ [b] by simp, endOf_concat, hpb.1] at this
    exact this.symm
  rw [← hadj] at h
  rw [bind_eq_ok] at h
  obtain ⟨s1, hrem, h⟩ := h
  obtain ⟨l1, l2, hfl_eq, hfl1, htl1, hsh1, hag1⟩ :=
    WFx_remove hwf0 (n := n) (by simp) hn0 hrem
  have hreg1 := Region_of_sameShape hsh1 hreg
  have hts1 := htl1.2.2.2.1
  have hbm : b ∈ pre ++ [c] ++ b :: n :: post := by simp
  have hcm : c ∈ pre ++ [c] ++ b :: n :: post := by simp
  have hnm : n ∈ pre ++ [c] ++ b :: n :: post := by simp
  obtain ⟨hb1, hb2, hb3, hb4, hb5, hb6, hb7⟩ := TSeg_mem hts1 hbm
  obtain ⟨hc1, hc2, hc3, hc4, hc5, hc6, hc7⟩ := TSeg_mem hts1 hcm
  obtain ⟨hn1, hn2, hn3, hn4, hn5, hn6, hn7⟩ := TSeg_mem hts1 hnm
  have hbb := Tiling_bounds htl1 hbm
  have hcbd := Tiling_bounds htl1 hcm
  have hnb := Tiling_bounds htl1 hnm
  have hlt := Tiling_size_lt hreg1 htl1
  have hst := htl1.1
  have vc : s1.valid c.addr := ⟨by omega, by omega⟩
  have vn : s1.valid n.addr := ⟨by omega, by omega⟩
  have ev1 : mm_block_size s1 c.addr = .ok c.size := by
    rw [mm_block_size_eq_ok, blockSize_of_word hc6 (by omega) (by omega) hc4 hc5]
    exact ⟨vc, rfl⟩
  have ev2 : mm_block_size s1 n.addr = .ok n.size := by
    rw [mm_block_size_eq_ok, blockSize_of_word hn6 (by omega) (by omega) hn4 hn5]
    exact ⟨vn, rfl⟩
  have hw : wrap32 (wrap32 (b.size + c.size) + n.size) = n.addr + n.size - c.addr := by
    simp only [wrap32]; omega
  have ev3 : mm_block_set_header s1 c.addr (n.addr + n.size - c.addr) 0 =
      .ok (s1.put c.addr (n.addr + n.size - c.addr + 0)) := by
    rw [mm_block_set_header_eq_ok]; exact ⟨vc, rfl⟩
  have ev4 : mm_block_set_footer (s1.put c.addr (n.addr + n.size - c.addr + 0)) c.addr
      (n.addr + n.size - c.addr) 0 = .ok ((s1.put c.addr (n.addr + n.size - c.addr + 0)).put
        (n.addr + n.size - 4) (n.addr + n.size - c.addr + 0)) := by
    rw [mm_block_set_footer_eq_ok, blockSize, wordAt_put_same _ _ _ (by omega) (by omega),
      sizeOfWord_pack _ 0 (by omega) (by omega) (by omega) (Or.inl rfl),
      show c.addr + (n.addr + n.size - c.addr) - 4 = n.addr + n.size - 4 by omega]
    exact ⟨vc, (show s1.valid _ from ⟨by omega, by omega⟩), rfl⟩
  have ev5 : mm_block_prev ((s1.put c.addr (n.addr + n.size - c.addr + 0)).put
      (n.addr + n.size - 4) (n.addr + n.size - c.addr + 0)) b.addr = .ok c.addr := by
    rw [mm_block_prev_eq_ok, blockSize, wordAt_put_other _ _ _ _ (by omega),
      wordAt_put_other _ _ _ _ (by omega),
      show b.addr - 4 = c.addr + c.size - 4 by omega, hc7,
      sizeOfWord_pack _ _ (by omega) (by omega) hc4 hc5]
    exact ⟨(show s1.valid _ from ⟨by omega, by omega⟩), by omega⟩
  simp only [ev1, ev2, run_bind_ok, hw, ev3, ev4, ev5, run_pure, Except.ok.injEq,
    Prod.mk.injEq] at h
  obtain ⟨rfl, rfl⟩ := h
  have hm := @Tiling_merge _ pre [c, b, n] post hreg1
    (by simpa using htl1) (by simp) 0 (Or.inl rfl) (c.addr) (n.addr + n.size)
    (by rw [hsh1.2.2.2, hpc.1]) (by show _ = c.addr + c.size + b.size + n.size; omega)
  obtain ⟨htl3, hag3⟩ := hm
  have hnl : n.addr ∉ l1 ++ l2 := by
    rw [hfl_eq] at hnd
    intro hmem
    rcases List.mem_append.mp hmem with h1 | h2
    · exact (List.nodup_append.mp hnd).2.2 h1 (List.mem_cons_self _ _)
    · exact (List.nodup_cons.mp (List.nodup_append.mp hnd).2.1).1 h2
  have hsub : ∀ a, a ∈ l1 ++ l2 → a ∈ fl := by
    intro a ha
    rw [hfl_eq]; simp only [List.mem_append, List.mem_cons] at ha ⊢; tauto
  have hpos : ∀ y ∈ l1 ++ l2, y + 16 ≤ c.addr ∨ y = c.addr ∨ n.addr + n.size ≤ y := by
    intro y hy
    obtain ⟨d, hd, rfl, -⟩ := (hiff y).mp (hsub y hy)
    simp only [List.mem_append, List.mem_cons, List.not_mem_nil, or_false] at hd
    rcases hd with (hd | rfl) | rfl | hd
    · have := hpc.2.1 d hd; omega
    · exact Or.inr (Or.inl rfl)
    · exact absurd hy hnl
    · have := hpn.2.2 d hd; omega
  refine ⟨rfl, l1, l2, hfl_eq, ⟨hreg1, ?_, ?_, ?_, ?_, ?_⟩, hsh1, ?_⟩
  · rw [show c.size + b.size + n.size = n.addr + n.size - c.addr by omega, hc0]
    simpa using htl3
  · have h1 : NoAdjFree (pre ++ c :: ({ b with alloc := 1 } :: n :: post)) := by simpa using hnaf
    rw [NoAdjFree_mid] at h1 ⊢
    obtain ⟨g1, g2, -, g4⟩ := h1
    rw [NoAdjFree_cons, NoAdjFree_cons] at g4
    refine ⟨g1, g2, ?_, g4.2.2⟩
    intro h0
    exact g4.2.1 ⟨hn0, h0.2⟩
  · apply FreeList_put (FreeList_put hfl1 _ _ _)
    · intro y hy; have := hpos y hy; omega
    · intro y hy; have := hpos y hy; omega
  · rw [hfl_eq] at hnd
    exact (List.nodup_append.mp hnd).1.append (List.nodup_cons.mp (List.nodup_append.mp hnd).2.1).2
      (fun x h1 h2 => (List.nodup_append.mp hnd).2.2 h1 (List.mem_cons_of_mem _ h2))
  · intro a
    constructor
    · intro ha
      obtain ⟨d, hd, h1, h2⟩ := (hiff a).mp (hsub a ha)
      simp only [List.mem_append, List.mem_cons, List.not_mem_nil, or_false] at hd
      rcases hd with (hd | rfl) | rfl | hd
      · exact ⟨d, by simp [hd], h1, h2⟩
      · exact ⟨{ d with size := d.size + b.size + n.size }, by simp, h1, h2⟩
      · exact absurd (h1 ▸ ha) hnl
      · exact ⟨d, by simp [hd], h1, h2⟩
    · rintro ⟨d, hd, h1, h2⟩
      simp only [List.mem_append, List.mem_cons] at hd
      have hafl : a ∈ fl := by
        rcases hd with hd | rfl | hd
        · exact (hiff a).mpr ⟨d, by simp [hd], h1, h2⟩
        · exact (hiff a).mpr ⟨c, by simp, h1, hc0⟩
        · exact (hiff a).mpr ⟨d, by simp [hd], h1, h2⟩
      rw [hfl_eq] at hafl
      simp only [List.mem_append, List.mem_cons] at hafl ⊢
      rcases hafl with h | h | h
      · exact Or.inl h
      · exfalso
        rcases hd with hd | rfl | hd
        · have := hpc.2.1 d hd; omega
        · simp only at h1; omega
        · have := hpn.2.2 d hd; omega
      · exact Or.inr h
  · refine (hag1.mono ?_).trans (hag3.mono ?_)
    · intro x hx
      exact ⟨by omega, hx.2⟩
    · intro x hx
      exact ⟨hx.1, by simp⟩

theorem lastBlockAlloc_zero {pre : List Block} (h : ¬ lastBlockAlloc pre ≠ 0) :
    ∃ pre1 c, pre = pre1 ++ [c] ∧ c.alloc = 0 := by
  rcases list_nil_or_concat pre with rfl | ⟨ys, c, rfl⟩
  · exact absurd (by simp [lastBlockAlloc]) h
  · refine ⟨ys, c, rfl, ?_⟩
    rw [(lastBlock_concat ys c).1] at h
    exact not_not.mp h

theorem headBlockAlloc_zero {post : List Block} (h : ¬ headBlockAlloc post ≠ 0) :
    ∃ n post1, post = n :: post1 ∧ n.alloc = 0 := by
  cases post with
  | nil => exact absurd (by simp [headBlockAlloc]) h
  | cons n post1 => exact ⟨n, post1, rfl, not_not.mp h⟩

/-- `free_coalesce` on a heap that is well formed up to the block `b`: the
result is a well-formed heap in which `b` is free and merged with its free
neighbours. -/
theorem free_coalesce_spec {s t : Heap} {pre post : List Block} {b : Block} {fl : List Int}
    {r : Int} (hwf : WFx s pre b post fl) (h : free_coalesce s b.addr = .ok (r, t)) :
    SameShape s t ∧ CoalesceResult s t pre b post fl r := by
  obtain ⟨s2, rfl, -, hag2, h⟩ := free_coalesce_start hwf.1 hwf.2.1 h
  have hwf2 := WFx_stamp hwf
  have hsh2 : SameShape s ((s.put b.addr b.size).put (b.addr + b.size - 4) b.size) :=
    ⟨rfl, rfl, rfl, rfl⟩
  have hts := hwf.2.1.2.2.2.1
  have hbs := (TSeg_mem hts (show b ∈ pre ++ b :: post by simp)).2.2.1
  by_cases hp : lastBlockAlloc pre ≠ 0
  · by_cases hn : headBlockAlloc post ≠ 0
    · rw [if_pos ⟨hp, hn⟩] at h
      rw [bind_eq_ok] at h
      obtain ⟨u, happ, h⟩ := h
      simp only [run_pure, Except.ok.injEq, Prod.mk.injEq] at h
      obtain ⟨rfl, rfl⟩ := h
      obtain ⟨h1, h2, h3⟩ := free_coalesce_aa hwf2 rfl hp hn happ
      refine ⟨hsh2.chain h2, Or.inl ⟨hp, hn, rfl, h1, ?_⟩⟩
      exact (hag2.mono (fun x hx => ⟨hx.1, by simp⟩)).trans h3
    · rw [if_neg (fun hx => hn hx.2), if_pos ⟨hp, hn⟩] at h
      obtain ⟨n, post1, rfl, hn0⟩ := headBlockAlloc_zero hn
      obtain ⟨h1, l1, l2, h2, h3, h4, h5⟩ := free_coalesce_af hwf2 rfl hn0 hp h
      refine ⟨hsh2.chain h4, Or.inr (Or.inl ⟨n, post1, l1, l2, hp, rfl, hn0, h2, h1, h3, ?_⟩)⟩
      have hnb : n.addr = b.addr + b.size := by
        have h2 : TSeg s (s.heap_blocks + 8) ((pre ++ [b]) ++ n :: post1) := by simpa using hts
        have := (TSeg_parts h2).1
        rw [endOf_concat, (TSeg_parts hts).1] at this
        exact this.symm
      have hns := (TSeg_mem hts (show n ∈ pre ++ b :: n :: post1 by simp)).2.2.1
      exact (hag2.mono (fun x hx => ⟨by have := hx.1; omega, by simp⟩)).trans h5
  · obtain ⟨pre1, c, rfl, hc0⟩ := lastBlockAlloc_zero hp
    have hts2 : TSeg s (s.heap_blocks + 8) (pre1 ++ c :: b :: post) := by simpa using hts
    have hcb : c.addr + c.size = b.addr := by
      have := (TSeg_parts hts).1
      rw [endOf_concat, (TSeg_parts hts2).1] at this
      exact this
    have hcs := (TSeg_mem hts (show c ∈ pre1 ++ [c] ++ b :: post by simp)).2.2.1
    have hca : b.addr - lastBlockSize (pre1 ++ [c]) = c.addr := by
      rw [(lastBlock_concat pre1 c).2]; omega
    rw [hca] at h
    by_cases hn : headBlockAlloc post ≠ 0
    · rw [if_neg (fun hx => hp hx.1), if_neg (fun hx => hp hx.1), if_pos ⟨hp, hn⟩] at h
      obtain ⟨h1, -, h3, h4, h5⟩ := free_coalesce_fa hwf2 rfl hc0 hn h
      refine ⟨hsh2.chain h4, Or.inr (Or.inr (Or.inl ⟨pre1, c, rfl, hc0, hn, h1, h3, ?_⟩))⟩
      exact (hag2.mono (fun x hx => ⟨by have := hx.1; omega, by simp⟩)).trans h5
    · rw [if_neg (fun hx => hp hx.1), if_neg (fun hx => hp hx.1),
        if_neg (fun hx => hn hx.2)] at h
      obtain ⟨n, post1, rfl, hn0⟩ := headBlockAlloc_zero hn
      obtain ⟨h1, l1, l2, h2, h3, h4, h5⟩ := free_coalesce_ff hwf2 hc0 hn0 h
      refine ⟨hsh2.chain h4, Or.inr (Or.inr (Or.inr
        ⟨pre1, c, n, post1, l1, l2, rfl, hc0, rfl, hn0, h2, h1, h3, ?_⟩))⟩
      have hnb : n.addr = b.addr + b.size := by
        have h2 : TSeg s (s.heap_blocks + 8) ((pre1 ++ [c] ++ [b]) ++ n :: post1) := by
          simpa using hts
        have := (TSeg_parts h2).1
        rw [endOf_concat, (TSeg_parts hts).1] at this
        exact this.symm
      have hns := (TSeg_mem hts (show n ∈ pre1 ++ [c] ++ b :: n :: post1 by simp)).2.2.1
      exact (hag2.mono (fun x hx => ⟨by have := hx.1; omega, by simp⟩)).trans h5

/-- Bytes in the payload of an allocated block are outside the range an
operation on another block works on, and are no link words. -/
theorem Untouched_of_payload {s : Heap} {a0 : Int} {bs : List Block} {fl : List Int}
    (hts : TSeg s a0 bs) (hfl : ∀ y ∈ fl, ∃ d ∈ bs, d.addr = y ∧ d.alloc = 0)
    {c : Block} (hc : c ∈ bs) (hc1 : c.alloc = 1) {lo hi : Int}
    (hout : c.addr + c.size ≤ lo ∨ hi ≤ c.addr) {x : Int}
    (hx1 : c.addr ≤ x) (hx2 : x < c.addr + c.size) : Untouched lo hi fl x := by
  refine ⟨by omega, ?_⟩
  intro y hy
  obtain ⟨d, hd, rfl, hd0⟩ := hfl y hy
  have h1 := TSeg_mem hts hd
  rcases TSeg_disjoint hts hc hd with rfl | h | h
  · omega
  · omega
  · omega

theorem WFx.entries_free {s : Heap} {pre post : List Block} {b : Block} {fl : List Int}
    (h : WFx s pre b post fl) :
    ∀ y ∈ fl, ∃ d ∈ pre ++ b :: post, d.addr = y ∧ d.alloc = 0 := by
  intro y hy
  obtain ⟨c, hc, h1, h2⟩ := (h.2.2.2.2.2 y).mp hy
  exact ⟨c, by simp only [List.mem_append, List.mem_cons] at hc ⊢; tauto, h1, h2⟩

/-- Whatever the case, `free_coalesce` ends in a well-formed heap whose free
block at the returned address covers the block, and it keeps every allocated
block with its payload. -/
theorem CoalesceResult.wf {s t : Heap} {pre post : List Block} {b : Block} {fl : List Int}
    {r : Int} (hwf : WFx s pre b post fl) (h : CoalesceResult s t pre b post fl r) :
    ∃ bs2 fl2, WF t bs2 fl2 ∧
      (∀ c ∈ pre ++ post, c.alloc = 1 → c ∈ bs2 ∧ Kept s t c) ∧
      ∃ m ∈ bs2, m.addr = r ∧ m.alloc = 0 ∧ m.addr ≤ b.addr ∧
        b.addr + b.size ≤ m.addr + m.size := by
  have hfb := hwf.entries_free
  have hts := hwf.2.1.2.2.2.1
  have hbs := (TSeg_mem hts (show b ∈ pre ++ b :: post by simp)).2.2.1
  rcases h with ⟨hp, hn, rfl, h1, h2⟩ | ⟨n, post1, l1, l2, hp, rfl, hn0, hfl, rfl, h1, h2⟩ |
    ⟨pre1, c, rfl, hc0, hn, rfl, h1, h2⟩ |
    ⟨pre1, c, n, post1, l1, l2, rfl, hc0, rfl, hn0, hfl, rfl, h1, h2⟩
  · refine ⟨_, _, h1, ?_, ⟨{ b with alloc := 0 }, by simp, rfl, rfl, le_refl _, le_refl _⟩⟩
    intro c hc hc1
    refine ⟨by simp only [List.mem_append, List.mem_cons] at hc ⊢; tauto, ?_⟩
    intro x hx1 hx2
    have hcm : c ∈ pre ++ b :: post := by
      simp only [List.mem_append, List.mem_cons] at hc ⊢; tauto
    have hp := TSeg_parts hts
    apply h2 x
    apply Untouched_of_payload hts hfb hcm hc1 _ (by omega) (by omega)
    rcases List.mem_append.mp hc with hc | hc
    · have := hp.2.1 c hc; omega
    · have := hp.2.2 c hc; omega
  · have hts2 : TSeg s (s.heap_blocks + 8) ((pre ++ [b]) ++ n :: post1) := by simpa using hts
    have hpb := TSeg_parts hts
    have hpn := TSeg_parts hts2
    have hnb : n.addr = b.addr + b.size := by
      have := hpn.1; rw [endOf_concat, hpb.1] at this; exact this.symm
    have hns := (TSeg_mem hts (show n ∈ pre ++ b :: n :: post1 by simp)).2.2.1
    refine ⟨_, _, h1, ?_, ⟨{ b with size := b.size + n.size, alloc := 0 }, by simp, rfl, rfl,
      le_refl _, by show _ ≤ b.addr + (b.size + n.size); omega⟩⟩
    intro c hc hc1
    have hcn : c ≠ n := fun e => by rw [e, hn0] at hc1; omega
    simp only [List.mem_append, List.mem_cons] at hc
    refine ⟨by simp only [List.mem_append, List.mem_cons]; tauto, ?_⟩
    intro x hx1 hx2
    have hcm : c ∈ pre ++ b :: n :: post1 := by
      simp only [List.mem_append, List.mem_cons]; tauto
    apply h2 x
    apply Untouched_of_payload hts hfb hcm hc1 _ (by omega) (by omega)
    rcases hc with hc | hc | hc
    · have := hpb.2.1 c hc; omega
    · exact absurd hc hcn
    · have := hpn.2.2 c hc; omega
  · have hts2 : TSeg s (s.heap_blocks + 8) (pre1 ++ c :: b :: post) := by simpa using hts
    have hpb := TSeg_parts hts
    have hpc := TSeg_parts hts2
    have hcb : c.addr + c.size = b.addr := by
      have := hpb.1; rw [endOf_concat, hpc.1] at this; exact this
    have hcs := (TSeg_mem hts (show c ∈ pre1 ++ [c] ++ b :: post by simp)).2.2.1
    refine ⟨_, _, h1, ?_, ⟨{ c with size := c.size + b.size }, by simp, rfl, hc0,
      by show c.addr ≤ b.addr; omega, by show _ ≤ c.addr + (c.size + b.size); omega⟩⟩
    intro d hd hd1
    have hdc : d ≠ c := fun e => by rw [e, hc0] at hd1; omega
    simp only [List.mem_append, List.mem_cons, List.not_mem_nil, or_false] at hd
    refine ⟨by simp only [List.mem_append, List.mem_cons]; tauto, ?_⟩
    intro x hx1 hx2
    have hdm : d ∈ pre1 ++ [c] ++ b :: post := by
      simp only [List.mem_append, List.mem_cons]; tauto
    apply h2 x
    apply Untouched_of_payload hts hfb hdm hd1 _ (by omega) (by omega)
    rcases hd with (hd | hd) | hd
    · have := hpc.2.1 d hd; omega
    · exact absurd hd hdc
    · have := hpb.2.2 d hd; omega
  · have hts2 : TSeg s (s.heap_blocks + 8) (pre1 ++ c :: b :: n :: post1) := by simpa using hts
    have hts3 : TSeg s (s.heap_blocks + 8) ((pre1 ++ [c, b]) ++ n :: post1) := by
      simpa using hts
    have hpb := TSeg_parts hts
    have hpc := TSeg_parts hts2
    have hpn := TSeg_parts hts3
    have hcb : c.addr + c.size = b.addr := by
      have := hpb.1; rw [endOf_concat, hpc.1] at this; exact this
    have hnb : n.addr = b.addr + b.size := by
      have := hpn.1
      rw [show pre1 ++ [c, b] = (pre1 ++ [c]) ++ [b] by simp, endOf_concat, hpb.1] at this
      exact this.symm
    have hcs := (TSeg_mem hts (show c ∈ pre1 ++ [c] ++ b :: n :: post1 by simp)).2.2.1
    have hns := (TSeg_mem hts (show n ∈ pre1 ++ [c] ++ b :: n :: post1 by simp)).2.2.1
    refine ⟨_, _, h1, ?_, ⟨{ c with size := c.size + b.size + n.size }, by simp, rfl, hc0,
      by show c.addr ≤ b.addr; omega, by show _ ≤ c.addr + (c.size + b.size + n.size); omega⟩⟩
    intro d hd hd1
    have hdc : d ≠ c := fun e => by rw [e, hc0] at hd1; omega
    have hdn : d ≠ n := fun e => by rw [e, hn0] at hd1; omega
    simp only [List.mem_append, List.mem_cons, List.not_mem_nil, or_false] at hd
    refine ⟨by simp only [List.mem_append, List.mem_cons]; tauto, ?_⟩
    intro x hx1 hx2
    have hdm : d ∈ pre1 ++ [c] ++ b :: n :: post1 := by
      simp only [List.mem_append, List.mem_cons]; tauto
    apply h2 x
    apply Untouched_of_payload hts hfb hdm hd1 _ (by omega) (by omega)
    rcases hd with (hd | hd) | hd | hd
    · have := hpc.2.1 d hd; omega
    · exact absurd hd hdc
    · exact absurd hd hdn
    · have := hpn.2.2 d hd; omega

/-! ## `mm_free` -/

theorem WF.fl_blocks {s : Heap} {bs : List Block} {fl : List Int} (h : WF s bs fl) :
    ∀ y ∈ fl, ∃ d ∈ bs, d.addr = y ∧ d.alloc = 0 :=
  fun y hy => (h.2.2.2.2.2 y).mp hy

/-- A well-formed heap is well formed up to any of its allocated blocks. -/
theorem WF.toWFx_alloc {s : Heap} {pre post : List Block} {b : Block} {fl : List Int}
    (h : WF s (pre ++ b :: post) fl) (hb1 : b.alloc = 1) : WFx s pre b post fl := by
  obtain ⟨hreg, htl, hnaf, hfl, hnd, hiff⟩ := h
  refine ⟨hreg, htl, ?_, hfl, hnd, ?_⟩
  · rw [← hb1]; exact hnaf
  · intro a
    rw [hiff]
    simp only [List.mem_append, List.mem_cons]
    constructor
    · rintro ⟨c, hc, h1, h2⟩
      rcases hc with hc | rfl | hc
      · exact ⟨c, Or.inl hc, h1, h2⟩
      · omega
      · exact ⟨c, Or.inr hc, h1, h2⟩
    · rintro ⟨c, hc, h1, h2⟩
      exact ⟨c, by tauto, h1, h2⟩

/-- `mm_free` of the payload pointer of an allocated block, when it returns,
leaves a well-formed heap and keeps the other allocated blocks. -/
theorem mm_free_spec {s t : Heap} {bs : List Block} {fl : List Int} {b : Block} {p : Int}
    (hwf : WF s bs fl) (hb : b ∈ bs) (hb1 : b.alloc = 1) (hp : p = b.addr + 4)
    (h : mm_free s p = .ok t) :
    ∃ bs2 fl2, WF t bs2 fl2 ∧ SameShape s t ∧ KeepsAllocated s t bs bs2 b.addr := by
  obtain ⟨pre, post, rfl⟩ := List.append_of_mem hb
  have hwfx := hwf.toWFx_alloc hb1
  have hbb := Tiling_bounds hwf.2.1 hb
  have hp0 : p ≠ 0 := by have := hwf.1.1; omega
  unfold mm_free at h
  rw [if_neg hp0, bind_eq_ok] at h
  obtain ⟨⟨r, u⟩, hfc, h⟩ := h
  simp only [run_pure, Except.ok.injEq] at h
  subst h
  rw [show p - 4 = b.addr by omega] at hfc
  obtain ⟨hsh, hres⟩ := free_coalesce_spec hwfx hfc
  obtain ⟨bs2, fl2, hwf2, hk, -⟩ := hres.wf hwfx
  refine ⟨bs2, fl2, hwf2, hsh, ?_⟩
  intro c hc hc1 hne
  apply hk c _ hc1
  simp only [List.mem_append, List.mem_cons] at hc ⊢
  rcases hc with hc | rfl | hc
  · exact Or.inl hc
  · exact absurd rfl hne
  · exact Or.inr hc

/-! ## `place` -/

/-- Removal of a free block from the free list of a well-formed heap, when it
returns: the list loses that entry and only link words are written. -/
theorem WF_remove {s t : Heap} {pre post : List Block} {b : Block} {fl : List Int}
    (hwf : WF s (pre ++ b :: post) fl) (hb0 : b.alloc = 0)
    (h : mm_list_remove s b.addr = .ok t) :
    ∃ l1 l2, fl = l1 ++ b.addr :: l2 ∧ WFx t pre b post (l1 ++ l2) ∧ SameShape s t ∧
      Agree s t (Untouched 0 0 fl) := by
  have hfb := hwf.fl_blocks
  obtain ⟨hreg, htl, hnaf, hfl, hnd, hiff⟩ := hwf
  have hts := htl.2.2.2.1
  have hbfl : b.addr ∈ fl := (hiff _).mpr ⟨b, by simp, rfl, hb0⟩
  have hex : ∀ y ∈ fl, ∃ c ∈ pre ++ b :: post, c.addr = y :=
    fun y hy => by obtain ⟨d, hd, h1, -⟩ := hfb y hy; exact ⟨d, hd, h1⟩
  have hapf : Apart fl := Apart_of_tiling hts hex
  have hnz := header_ne_zero hts hex
  obtain ⟨l1, p, q, l2, rfl, rfl, hfl2⟩ := list_remove_spec hreg hfl hnd hapf hnz hbfl h
  have hag : Agree s ((s.put (q + 4) p).put (p + 8) q)
      (Untouched 0 0 (l1 ++ p :: b.addr :: q :: l2)) := by
    apply Agree.put (Agree_put _ _ _ _ _)
    · intro x hx; have := hx.2 p (by simp); omega
    · intro x hx; have := hx.2 q (by simp); omega
  have htl2 : Tiling ((s.put (q + 4) p).put (p + 8) q) (pre ++ b :: post) := by
    have h1 : Tiling s ((pre ++ b :: post) ++ [] ++ []) := by simpa using htl
    have h2 := @Tiling_rebuild _ ((s.put (q + 4) p).put (p + 8) q) _ _ [] _
      (l1 ++ p :: b.addr :: q :: l2) h1 ⟨rfl, rfl, rfl, rfl⟩
      (fun y hy => by simpa using hex y hy)
      (hag.mono (fun x hx => ⟨by omega, hx.2⟩))
      trivial rfl
    simpa using h2
  have hnd2 : (l1 ++ [p] ++ q :: l2).Nodup := by
    have e : l1 ++ p :: b.addr :: q :: l2 = (l1 ++ [p]) ++ b.addr :: (q :: l2) := by simp
    rw [e] at hnd
    exact (List.nodup_append.mp hnd).1.append (List.nodup_cons.mp (List.nodup_append.mp hnd).2.1).2
      (fun x h1 h2 => (List.nodup_append.mp hnd).2.2 h1 (List.mem_cons_of_mem _ h2))
  have hbn : b.addr ∉ l1 ++ [p] ++ q :: l2 := by
    have e : l1 ++ p :: b.addr :: q :: l2 = (l1 ++ [p]) ++ b.addr :: (q :: l2) := by simp
    rw [e] at hnd
    intro hmem
    rcases List.mem_append.mp hmem with h1 | h2
    · exact (List.nodup_append.mp hnd).2.2 h1 (List.mem_cons_self _ _)
    · exact (List.nodup_cons.mp (List.nodup_append.mp hnd).2.1).1 h2
  have hparts := TSeg_parts hts
  refine ⟨l1 ++ [p], q :: l2, by simp, ⟨hreg, htl2, ?_, by simpa using hfl2, hnd2, ?_⟩,
    ⟨rfl, rfl, rfl, rfl⟩, hag⟩
  · rw [NoAdjFree_mid] at hnaf ⊢
    obtain ⟨g1, g2, g3, g4⟩ := hnaf
    exact ⟨g1, by simp, by simp, g4⟩
  · intro a
    constructor
    · intro ha
      have hafl : a ∈ l1 ++ p :: b.addr :: q :: l2 := by
        simp only [List.mem_append, List.mem_cons, List.not_mem_nil, or_false] at ha ⊢; tauto
      obtain ⟨c, hc, h1, h2⟩ := (hiff a).mp hafl
      simp only [List.mem_append, List.mem_cons] at hc
      rcases hc with hc | rfl | hc
      · exact ⟨c, by simp [hc], h1, h2⟩
      · exact absurd (h1 ▸ ha) hbn
      · exact ⟨c, by simp [hc], h1, h2⟩
    · rintro ⟨c, hc, h1, h2⟩
      have hafl := (hiff a).mpr ⟨c, by
        simp only [List.mem_append, List.mem_cons] at hc ⊢; tauto, h1, h2⟩
      simp only [List.mem_append, List.mem_cons, List.not_mem_nil, or_false] at hafl ⊢
      rcases hafl with h | h | h | h | h
      · tauto
      · tauto
      · exfalso
        rcases List.mem_append.mp hc with hc | hc
        · have := hparts.2.1 c hc; omega
        · have := hparts.2.2 c hc
          have := (TSeg_mem hts (show b ∈ pre ++ b :: post by simp)).2.2.1
          omega
      · tauto
      · tauto

/-- Appending an entry to a well-formed list writes the two link words of the
entry and one link word of the old tail. -/
theorem append_core {s t : Heap} {fl : List Int} {b : Int}
    (hreg : Region s) (hfl : FreeList s fl) (hnd : fl.Nodup) (hapf : Apart fl)
    (hb0 : b ≠ 0) (hvb : s.valid b) (hap : ∀ y ∈ fl, y + 16 ≤ b ∨ b + 16 ≤ y)
    (h : mm_list_append s b = .ok t) :
    SameShape s t ∧ FreeList t (fl ++ [b]) ∧
    Agree s t (fun x => (x < b + 4 ∨ b + 12 ≤ x) ∧ ∀ a ∈ fl, x < a + 4 ∨ a + 12 ≤ x) := by
  by_cases ht : s.mm_list_tailp = 0
  · obtain ⟨rfl, hfl2⟩ := list_append_empty hb0 hvb ht h
    have : fl = [] := hfl.eq_nil_of_tail ht
    subst this
    refine ⟨⟨rfl, rfl, rfl, rfl⟩, hfl2, ?_⟩
    show Agree s ((s.put (b + 4) 0).put (b + 8) 0) _
    apply Agree.put (Agree_put _ _ _ _ _)
    · intro x hx; have := hx.1; omega
    · intro x hx; have := hx.1; omega
  · obtain ⟨rfl, hfl2⟩ := list_append_nonempty hreg hfl hnd hapf hb0 hvb hap ht h
    refine ⟨⟨rfl, rfl, rfl, rfl⟩, hfl2, ?_⟩
    show Agree s (((s.put (b + 4) s.mm_list_tailp).put (b + 8) 0).put
      (s.mm_list_tailp + 8) b) _
    apply Agree.put (Agree.put (Agree_put _ _ _ _ _) _ _ _)
    · intro x hx; have := hx.2 _ (hfl.tail_mem ht); omega
    · intro x hx; have := hx.1; omega
    · intro x hx; have := hx.1; omega

theorem WFx.bounds {s : Heap} {pre post : List Block} {b : Block} {fl : List Int}
    (h : WFx s pre b post fl) :
    s.mem_start + 12 ≤ b.addr ∧ b.addr + b.size + 4 ≤ s.mem_brk ∧ 16 ≤ b.size ∧
    b.size % 8 = 0 ∧ b.size < 2147483648 ∧ 0 < s.mem_start ∧ s.mem_brk ≤ 4294967296 ∧
    endOf (s.heap_blocks + 8) pre = b.addr := by
  obtain ⟨hreg, htl, -⟩ := h
  have hb : b ∈ pre ++ b :: post := by simp
  have h1 := Tiling_bounds htl hb
  have h2 := TSeg_mem htl.2.2.2.1 hb
  have h3 := Tiling_size_lt hreg htl
  have h4 := htl.1
  have h5 := (TSeg_parts htl.2.2.2.1).1
  obtain ⟨r1, r2, r3, r4⟩ := hreg
  refine ⟨h1.1, h1.2, h2.2.2.1, h2.2.2.2.1, by omega, r1, by omega, h5⟩

/-- The no-split branch of `place`: the whole block is stamped allocated. -/
theorem place_small {s : Heap} {pre post : List Block} {b : Block} {fl : List Int}
    (hwf : WFx s pre b post fl) :
    WF ((s.put b.addr (b.size + 1)).put (b.addr + b.size - 4) (b.size + 1))
      (pre ++ { b with alloc := 1 } :: post) fl ∧
    Agree s ((s.put b.addr (b.size + 1)).put (b.addr + b.size - 4) (b.size + 1))
      (Untouched b.addr (b.addr + b.size) []) := by
  have hnode := fun y hy => hwf.node (y := y) hy
  obtain ⟨hb1, hb2, hb3, hb4, hb5, hb6, hb7, hlo⟩ := hwf.bounds
  obtain ⟨hreg, htl, hnaf, hfl, hnd, hiff⟩ := hwf
  have hm := @Tiling_merge _ pre [b] post hreg
    (by simpa using htl) (by simp) 1 (Or.inr rfl) (b.addr) (b.addr + b.size)
    hlo.symm rfl
  rw [show b.addr + b.size - b.addr = b.size by omega] at hm
  obtain ⟨h1, h2⟩ := hm
  refine ⟨⟨hreg, by simpa using h1, hnaf, ?_, hnd, ?_⟩, h2⟩
  · refine FreeList_of_agree hfl (fun a ha => ha) rfl rfl h2 ?_
    intro y hy x hx1 hx2
    have := (hnode y hy).1
    exact ⟨by omega, by simp⟩
  · intro a
    rw [hiff]
    simp only [List.mem_append, List.mem_cons]
    constructor
    · rintro ⟨c, hc, h1, h2⟩
      exact ⟨c, by tauto, h1, h2⟩
    · rintro ⟨c, hc, h1, h2⟩
      rcases hc with hc | rfl | hc
      · exact ⟨c, Or.inl hc, h1, h2⟩
      · simp at h2
      · exact ⟨c, Or.inr hc, h1, h2⟩

/-- The branch of `place` for a remainder above 1024: the lower part stays
free and re-enters the free list at the tail, the upper part is allocated. -/
theorem place_big {s t : Heap} {pre post : List Block} {b : Block} {fl : List Int}
    {size r : Int} (hwf : WFx s pre b post fl) (hp : lastBlockAlloc pre ≠ 0)
    (hs16 : 16 ≤ size) (hs8 : size % 8 = 0) (hrest : b.size - size > 1024)
    (h : (do
        let s1 ← mm_block_set_header s b.addr (b.size - size) 0
        let s2 ← mm_block_set_footer s1 b.addr (b.size - size) 0
        let s3 ← mm_list_append s2 b.addr
        let nx ← mm_block_next s3 b.addr
        let s4 ← mm_block_set_header s3 nx size 1
        let nx2 ← mm_block_next s4 b.addr
        let s5 ← mm_block_set_footer s4 nx2 size 1
        let nx3 ← mm_block_next s5 b.addr
        pure (nx3, s5)) = .ok (r, t)) :
    r = b.addr + (b.size - size) ∧
    WF t (pre ++ { addr := b.addr, size := b.size - size, alloc := 0 } ::
      { addr := b.addr + (b.size - size), size := size, alloc := 1 } :: post)
      (fl ++ [b.addr]) ∧
    SameShape s t ∧ Agree s t (Untouched b.addr (b.addr + b.size) fl) := by
  have hnode := fun y hy => hwf.node (y := y) hy
  obtain ⟨hb1, hb2, hb3, hb4, hb5, hb6, hb7, hlo⟩ := hwf.bounds
  obtain ⟨hreg, htl, hnaf, hfl, hnd, hiff⟩ := hwf
  have hts := htl.2.2.2.1
  have vb : s.valid b.addr := ⟨by omega, by omega⟩
  have ev1 : mm_block_set_header s b.addr (b.size - size) 0 =
      .ok (s.put b.addr (b.size - size)) := by
    rw [mm_block_set_header_eq_ok, add_zero]; exact ⟨vb, rfl⟩
  have ev2 : mm_block_set_footer (s.put b.addr (b.size - size)) b.addr (b.size - size) 0 =
      .ok ((s.put b.addr (b.size - size)).put (b.addr + (b.size - size) - 4)
        (b.size - size)) := by
    rw [mm_block_set_footer_eq_ok, blockSize, wordAt_put_same _ _ _ (by omega) (by omega),
      sizeOfWord_self _ (by omega) (by omega) (by omega), add_zero]
    exact ⟨vb, (show s.valid _ from ⟨by omega, by omega⟩), rfl⟩
  simp only [ev1, ev2, run_bind_ok] at h
  rw [bind_eq_ok] at h
  obtain ⟨s3, happ, h⟩ := h
  -- the append
  have hfl2 : FreeList ((s.put b.addr (b.size - size)).put (b.addr + (b.size - size) - 4)
      (b.size - size)) fl := by
    apply FreeList_put (FreeList_put hfl _ _ _)
    · intro y hy; have := (hnode y hy).1; omega
    · intro y hy; have := (hnode y hy).1; omega
  have hapf : Apart fl := Apart_of_tiling hts (fun y hy => (hnode y hy).2)
  obtain ⟨hsh3, hfl3, hag3⟩ := append_core (s := (s.put b.addr (b.size - size)).put
    (b.addr + (b.size - size) - 4) (b.size - size)) hreg hfl2 hnd hapf (by omega) vb
    (fun y hy => by have := (hnode y hy).1; omega) happ
  have hw3 : ∀ x, (x + 4 ≤ b.addr + 4 ∨ b.addr + 12 ≤ x) →
      (∀ y ∈ fl, x + 4 ≤ y + 4 ∨ y + 12 ≤ x) → wordAt s3.mem x =
        wordAt ((s.put b.addr (b.size - size)).put (b.addr + (b.size - size) - 4)
          (b.size - size)).mem x := by
    intro x h1 h2
    apply hag3.word
    · exact ⟨by omega, fun a ha => by have := h2 a ha; omega⟩
    · exact ⟨by omega, fun a ha => by have := h2 a ha; omega⟩
    · exact ⟨by omega, fun a ha => by have := h2 a ha; omega⟩
    · exact ⟨by omega, fun a ha => by have := h2 a ha; omega⟩
  have hh3 : wordAt s3.mem b.addr = b.size - size := by
    rw [hw3 _ (by omega) (fun y hy => by have := (hnode y hy).1; omega),
      wordAt_put_other _ _ _ _ (by omega), wordAt_put_same _ _ _ (by omega) (by omega)]
  have hf3 : wordAt s3.mem (b.addr + (b.size - size) - 4) = b.size - size := by
    rw [hw3 _ (by omega) (fun y hy => by have := (hnode y hy).1; omega),
      wordAt_put_same _ _ _ (by omega) (by omega)]
  obtain ⟨e1, e2, e3, e4⟩ := hsh3
  simp only [put_mem_start, put_mem_brk, put_mem_max, put_heap_blocks] at e1 e2 e3 e4
  have vb3 : s3.valid b.addr := ⟨by omega, by omega⟩
  have ev3 : mm_block_next s3 b.addr = .ok (b.addr + (b.size - size)) := by
    rw [mm_block_next_eq_ok, blockSize, hh3, sizeOfWord_self _ (by omega) (by omega) (by omega)]
    exact ⟨vb3, rfl⟩
  have ev4 : mm_block_set_header s3 (b.addr + (b.size - size)) size 1 =
      .ok (s3.put (b.addr + (b.size - size)) (size + 1)) := by
    rw [mm_block_set_header_eq_ok]; exact ⟨⟨by omega, by omega⟩, rfl⟩
  have ev5 : mm_block_next (s3.put (b.addr + (b.size - size)) (size + 1)) b.addr =
      .ok (b.addr + (b.size - size)) := by
    rw [mm_block_next_eq_ok, blockSize, wordAt_put_other _ _ _ _ (by omega), hh3,
      sizeOfWord_self _ (by omega) (by omega) (by omega)]
    exact ⟨vb3, rfl⟩
  have ev6 : mm_block_set_footer (s3.put (b.addr + (b.size - size)) (size + 1))
      (b.addr + (b.size - size)) size 1 =
      .ok ((s3.put (b.addr + (b.size - size)) (size + 1)).put (b.addr + b.size - 4)
        (size + 1)) := by
    rw [mm_block_set_footer_eq_ok, blockSize, wordAt_put_same _ _ _ (by omega) (by omega),
      sizeOfWord_pack _ 1 (by omega) (by omega) hs8 (Or.inr rfl),
      show b.addr + (b.size - size) + size - 4 = b.addr + b.size - 4 by omega]
    exact ⟨(show s3.valid _ from ⟨by omega, by omega⟩),
      (show s3.valid _ from ⟨by omega, by omega⟩), rfl⟩
  have ev7 : mm_block_next ((s3.put (b.addr + (b.size - size)) (size + 1)).put
      (b.addr + b.size - 4) (size + 1)) b.addr = .ok (b.addr + (b.size - size)) := by
    rw [mm_block_next_eq_ok, blockSize, wordAt_put_other _ _ _ _ (by omega),
      wordAt_put_other _ _ _ _ (by omega), hh3,
      sizeOfWord_self _ (by omega) (by omega) (by omega)]
    exact ⟨vb3, rfl⟩
  simp only [ev3, ev4, ev5, ev6, ev7, run_bind_ok, run_pure, Except.ok.injEq,
    Prod.mk.injEq] at h
  obtain ⟨rfl, rfl⟩ := h
  have hsh : SameShape s ((s3.put (b.addr + (b.size - size)) (size + 1)).put
      (b.addr + b.size - 4) (size + 1)) := ⟨e1, e2, e3, e4⟩
  have hag : Agree s ((s3.put (b.addr + (b.size - size)) (size + 1)).put
      (b.addr + b.size - 4) (size + 1)) (Untouched b.addr (b.addr + b.size) fl) := by
    have h1 : Agree s ((s.put b.addr (b.size - size)).put (b.addr + (b.size - size) - 4)
        (b.size - size)) (Untouched b.addr (b.addr + b.size) fl) := by
      apply Agree.put (Agree_put _ _ _ _ _)
      · intro x hx; have := hx.1; omega
      · intro x hx; have := hx.1; omega
    have h2 := h1.trans (hag3.mono (fun x hx => ⟨by have := hx.1; omega, hx.2⟩))
    apply Agree.put (Agree.put h2 _ _ _)
    · intro x hx; have := hx.1; omega
    · intro x hx; have := hx.1; omega
  refine ⟨rfl, ⟨Region_of_sameShape hsh hreg, ?_, ?_, ?_, ?_, ?_⟩, hsh, hag⟩
  · have h1 : Tiling s (pre ++ [b] ++ post) := by simpa using htl
    have h2 := @Tiling_rebuild _ _ _ _ [{ addr := b.addr, size := b.size - size, alloc := 0 },
      { addr := b.addr + (b.size - size), size := size, alloc := 1 }] _ fl h1 hsh
      (fun y hy => by simpa using (hnode y hy).2)
      (by rw [hlo]; exact hag)
      (by
        rw [hlo]
        refine ⟨rfl, by show 16 ≤ b.size - size; omega, by show (b.size - size) % 8 = 0; omega,
          Or.inl rfl, ?_, ?_, rfl, hs16, hs8, Or.inr rfl, ?_, ?_, trivial⟩
        · show wordAt ((s3.put (b.addr + (b.size - size)) (size + 1)).put
            (b.addr + b.size - 4) (size + 1)).mem b.addr = b.size - size + 0
          rw [wordAt_put_other _ _ _ _ (by omega), wordAt_put_other _ _ _ _ (by omega), hh3,
            add_zero]
        · show wordAt ((s3.put (b.addr + (b.size - size)) (size + 1)).put
            (b.addr + b.size - 4) (size + 1)).mem (b.addr + (b.size - size) - 4)
              = b.size - size + 0
          rw [wordAt_put_other _ _ _ _ (by omega), wordAt_put_other _ _ _ _ (by omega), hf3,
            add_zero]
        · show wordAt ((s3.put (b.addr + (b.size - size)) (size + 1)).put
            (b.addr + b.size - 4) (size + 1)).mem (b.addr + (b.size - size)) = size + 1
          rw [wordAt_put_other _ _ _ _ (by omega), wordAt_put_same _ _ _ (by omega) (by omega)]
        · show wordAt ((s3.put (b.addr + (b.size - size)) (size + 1)).put
            (b.addr + b.size - 4) (size + 1)).mem (b.addr + (b.size - size) + size - 4)
              = size + 1
          rw [show b.addr + (b.size - size) + size - 4 = b.addr + b.size - 4 by omega,
            wordAt_put_same _ _ _ (by omega) (by omega)])
      (by rw [hlo]; show b.addr + (b.size - size) + size = b.addr + b.size; omega)
    simpa using h2
  · rw [NoAdjFree_mid] at hnaf ⊢
    obtain ⟨g1, g2, g3, g4⟩ := hnaf
    refine ⟨g1, fun hx => hp hx.1, by simp [headBlockAlloc], ?_⟩
    rw [NoAdjFree_cons]
    exact ⟨by simp, g4⟩
  · apply FreeList_put (FreeList_put hfl3 _ _ _)
    · intro y hy
      rcases List.mem_append.mp hy with hy | hy
      · have := (hnode y hy).1; omega
      · simp only [List.mem_singleton] at hy; omega
    · intro y hy
      rcases List.mem_append.mp hy with hy | hy
      · have := (hnode y hy).1; omega
      · simp only [List.mem_singleton] at hy; omega
  · rw [List.nodup_append]
    refine ⟨hnd, by simp, ?_⟩
    intro y hy1 hy2
    simp only [List.mem_singleton] at hy2
    have := (hnode y hy1).1
    omega
  · intro a
    simp only [List.mem_append, List.mem_cons, List.not_mem_nil, or_false, hiff]
    constructor
    · rintro (⟨c, hc, h1, h2⟩ | rfl)
      · exact ⟨c, by tauto, h1, h2⟩
      · exact ⟨{ addr := b.addr, size := b.size - size, alloc := 0 }, by simp, rfl, rfl⟩
    · rintro ⟨c, hc, h1, h2⟩
      rcases hc with hc | rfl | rfl | hc
      · exact Or.inl ⟨c, Or.inl hc, h1, h2⟩
      · exact Or.inr h1.symm
      · simp at h2
      · exact Or.inl ⟨c, Or.inr hc, h1, h2⟩

/-- The branch of `place` for a remainder between 513 and 1024: the lower part
is allocated, the upper part goes through `free_coalesce`, which appends it to
the free list because both its neighbours are allocated. -/
theorem place_mid {s t : Heap} {pre post : List Block} {b : Block} {fl : List Int}
    {size r : Int} (hwf : WFx s pre b post fl) (hn : headBlockAlloc post ≠ 0)
    (hs16 : 16 ≤ size) (hs8 : size % 8 = 0) (hrest : 512 < b.size - size)
    (h : (do
        let s1 ← mm_block_set_header s b.addr size 1
        let s2 ← mm_block_set_footer s1 b.addr size 1
        let nx ← mm_block_next s2 b.addr
        let s3 ← mm_block_set_header s2 nx (b.size - size) 0
        let nx2 ← mm_block_next s3 b.addr
        let s4 ← mm_block_set_footer s3 nx2 (b.size - size) 0
        let nx3 ← mm_block_next s4 b.addr
        let (_, s5) ← free_coalesce s4 nx3
        pure (b.addr, s5)) = .ok (r, t)) :
    r = b.addr ∧
    WF t (pre ++ { addr := b.addr, size := size, alloc := 1 } ::
      { addr := b.addr + size, size := b.size - size, alloc := 0 } :: post)
      (fl ++ [b.addr + size]) ∧
    SameShape s t ∧ Agree s t (Untouched b.addr (b.addr + b.size) fl) := by
  have hnode := fun y hy => hwf.node (y := y) hy
  obtain ⟨hb1, hb2, hb3, hb4, hb5, hb6, hb7, hlo⟩ := hwf.bounds
  obtain ⟨hreg, htl, hnaf, hfl, hnd, hiff⟩ := hwf
  have hts := htl.2.2.2.1
  have vb : s.valid b.addr := ⟨by omega, by omega⟩
  have ev1 : mm_block_set_header s b.addr size 1 = .ok (s.put b.addr (size + 1)) := by
    rw [mm_block_set_header_eq_ok]; exact ⟨vb, rfl⟩
  have ev2 : mm_block_set_footer (s.put b.addr (size + 1)) b.addr size 1 =
      .ok ((s.put b.addr (size + 1)).put (b.addr + size - 4) (size + 1)) := by
    rw [mm_block_set_footer_eq_ok, blockSize, wordAt_put_same _ _ _ (by omega) (by omega),
      sizeOfWord_pack _ 1 (by omega) (by omega) hs8 (Or.inr rfl)]
    exact ⟨vb, (show s.valid _ from ⟨by omega, by omega⟩), rfl⟩
  have ev3 : mm_block_next ((s.put b.addr (size + 1)).put (b.addr + size - 4) (size + 1))
      b.addr = .ok (b.addr + size) := by
    rw [mm_block_next_eq_ok, blockSize, wordAt_put_other _ _ _ _ (by omega),
      wordAt_put_same _ _ _ (by omega) (by omega),
      sizeOfWord_pack _ 1 (by omega) (by omega) hs8 (Or.inr rfl)]
    exact ⟨vb, rfl⟩
  have ev4 : mm_block_set_header ((s.put b.addr (size + 1)).put (b.addr + size - 4) (size + 1))
      (b.addr + size) (b.size - size) 0 =
      .ok (((s.put b.addr (size + 1)).put (b.addr + size - 4) (size + 1)).put (b.addr + size)
        (b.size - size)) := by
    rw [mm_block_set_header_eq_ok, add_zero]
    exact ⟨(show s.valid _ from ⟨by omega, by omega⟩), rfl⟩
  have ev5 : mm_block_next (((s.put b.addr (size + 1)).put (b.addr + size - 4) (size + 1)).put
      (b.addr + size) (b.size - size)) b.addr = .ok (b.addr + size) := by
    rw [mm_block_next_eq_ok, blockSize, wordAt_put_other _ _ _ _ (by omega),
      wordAt_put_other _ _ _ _ (by omega),
      wordAt_put_same _ _ _ (by omega) (by omega),
      sizeOfWord_pack _ 1 (by omega) (by omega) hs8 (Or.inr rfl)]
    exact ⟨vb, rfl⟩
  have ev6 : mm_block_set_footer (((s.put b.addr (size + 1)).put (b.addr + size - 4)
      (size + 1)).put (b.addr + size) (b.size - size)) (b.addr + size) (b.size - size) 0 =
      .ok ((((s.put b.addr (size + 1)).put (b.addr + size - 4) (size + 1)).put (b.addr + size)
        (b.size - size)).put (b.addr + b.size - 4) (b.size - size)) := by
    rw [mm_block_set_footer_eq_ok, blockSize, wordAt_put_same _ _ _ (by omega) (by omega),
      sizeOfWord_self _ (by omega) (by omega) (by omega), add_zero,
      show b.addr + size + (b.size - size) - 4 = b.addr + b.size - 4 by omega]
    exact ⟨(show s.valid _ from ⟨by omega, by omega⟩),
      (show s.valid _ from ⟨by omega, by omega⟩), rfl⟩
  have ev7 : mm_block_next ((((s.put b.addr (size + 1)).put (b.addr + size - 4) (size + 1)).put
      (b.addr + size) (b.size - size)).put (b.addr + b.size - 4) (b.size - size)) b.addr =
      .ok (b.addr + size) := by
    rw [mm_block_next_eq_ok, blockSize, wordAt_put_other _ _ _ _ (by omega),
      wordAt_put_other _ _ _ _ (by omega), wordAt_put_other _ _ _ _ (by omega),
      wordAt_put_same _ _ _ (by omega) (by omega),
      sizeOfWord_pack _ 1 (by omega) (by omega) hs8 (Or.inr rfl)]
    exact ⟨vb, rfl⟩
  simp only [ev1, ev2, ev3, ev4, ev5, ev6, ev7, run_bind_ok] at h
  rw [bind_eq_ok] at h
  obtain ⟨⟨r2, s5⟩, hfc, h⟩ := h
  simp only [run_pure, Except.ok.injEq, Prod.mk.injEq] at h
  obtain ⟨rfl, rfl⟩ := h
  -- the state handed to `free_coalesce`
  have hag40 : Agree s ((((s.put b.addr (size + 1)).put (b.addr + size - 4) (size + 1)).put
      (b.addr + size) (b.size - size)).put (b.addr + b.size - 4) (b.size - size))
      (Untouched b.addr (b.addr + b.size) []) := by
    apply Agree.put (Agree.put (Agree.put (Agree_put _ _ _ _ _) _ _ _) _ _ _)
    · intro x hx; have := hx.1; omega
    · intro x hx; have := hx.1; omega
    · intro x hx; have := hx.1; omega
    · intro x hx; have := hx.1; omega
  have hag4 : Agree s ((((s.put b.addr (size + 1)).put (b.addr + size - 4) (size + 1)).put
      (b.addr + size) (b.size - size)).put (b.addr + b.size - 4) (b.size - size))
      (Untouched b.addr (b.addr + b.size) fl) :=
    hag40.mono (fun x hx => ⟨hx.1, by simp⟩)
  have hsh4 : SameShape s ((((s.put b.addr (size + 1)).put (b.addr + size - 4) (size + 1)).put
      (b.addr + size) (b.size - size)).put (b.addr + b.size - 4) (b.size - size)) :=
    ⟨rfl, rfl, rfl, rfl⟩
  have htl4 : Tiling ((((s.put b.addr (size + 1)).put (b.addr + size - 4) (size + 1)).put
      (b.addr + size) (b.size - size)).put (b.addr + b.size - 4) (b.size - size))
      (pre ++ [{ addr := b.addr, size := size, alloc := 1 },
        { addr := b.addr + size, size := b.size - size, alloc := 0 }] ++ post) := by
    have h1 : Tiling s (pre ++ [b] ++ post) := by simpa using htl
    refine @Tiling_rebuild _ _ _ _ _ _ fl h1 hsh4
      (fun y hy => by simpa using (hnode y hy).2) (by rw [hlo]; exact hag4) ?_ ?_
    · rw [hlo]
      refine ⟨rfl, hs16, hs8, Or.inr rfl, ?_, ?_, rfl, by show 16 ≤ b.size - size; omega,
        by show (b.size - size) % 8 = 0; omega, Or.inl rfl, ?_, ?_, trivial⟩
      · show wordAt ((((s.put b.addr (size + 1)).put (b.addr + size - 4) (size + 1)).put
          (b.addr + size) (b.size - size)).put (b.addr + b.size - 4) (b.size - size)).mem b.addr
            = size + 1
        rw [wordAt_put_other _ _ _ _ (by omega), wordAt_put_other _ _ _ _ (by omega),
          wordAt_put_other _ _ _ _ (by omega), wordAt_put_same _ _ _ (by omega) (by omega)]
      · show wordAt ((((s.put b.addr (size + 1)).put (b.addr + size - 4) (size + 1)).put
          (b.addr + size) (b.size - size)).put (b.addr + b.size - 4) (b.size - size)).mem
            (b.addr + size - 4) = size + 1
        rw [wordAt_put_other _ _ _ _ (by omega), wordAt_put_other _ _ _ _ (by omega),
          wordAt_put_same _ _ _ (by omega) (by omega)]
      · show wordAt ((((s.put b.addr (size + 1)).put (b.addr + size - 4) (size + 1)).put
          (b.addr + size) (b.size - size)).put (b.addr + b.size - 4) (b.size - size)).mem
            (b.addr + size) = b.size - size + 0
        rw [wordAt_put_other _ _ _ _ (by omega), wordAt_put_same _ _ _ (by omega) (by omega),
          add_zero]
      · show wordAt ((((s.put b.addr (size + 1)).put (b.addr + size - 4) (size + 1)).put
          (b.addr + size) (b.size - size)).put (b.addr + b.size - 4) (b.size - size)).mem
            (b.addr + size + (b.size - size) - 4) = b.size - size + 0
        rw [show b.addr + size + (b.size - size) - 4 = b.addr + b.size - 4 by omega,
          wordAt_put_same _ _ _ (by omega) (by omega), add_zero]
    · rw [hlo]; show b.addr + size + (b.size - size) = b.addr + b.size; omega
  have hwf4 : WFx ((((s.put b.addr (size + 1)).put (b.addr + size - 4) (size + 1)).put
      (b.addr + size) (b.size - size)).put (b.addr + b.size - 4) (b.size - size))
      (pre ++ [{ addr := b.addr, size := size, alloc := 1 }])
      { addr := b.addr + size, size := b.size - size, alloc := 0 } post fl := by
    refine ⟨hreg, by simpa using htl4, ?_, ?_, hnd, ?_⟩
    · have e : pre ++ [{ addr := b.addr, size := size, alloc := 1 }] ++
          { addr := b.addr + size, size := b.size - size, alloc := 1 } :: post =
          pre ++ { addr := b.addr, size := size, alloc := 1 } ::
            ({ addr := b.addr + size, size := b.size - size, alloc := 1 } :: post) := by simp
      show NoAdjFree (pre ++ [{ addr := b.addr, size := size, alloc := 1 }] ++
          { addr := b.addr + size, size := b.size - size, alloc := 1 } :: post)
      rw [e]
      rw [NoAdjFree_mid] at hnaf ⊢
      obtain ⟨g1, g2, g3, g4⟩ := hnaf
      refine ⟨g1, by simp, by simp, ?_⟩
      rw [NoAdjFree_cons]
      exact ⟨by simp, g4⟩
    · refine FreeList_of_agree hfl (fun a ha => ha) rfl rfl hag40 ?_
      intro y hy x hx1 hx2
      have := (hnode y hy).1
      exact ⟨by omega, by simp⟩
    · intro a
      rw [hiff]
      simp only [List.mem_append, List.mem_cons, List.not_mem_nil, or_false]
      constructor
      · rintro ⟨c, hc, h1, h2⟩
        exact ⟨c, by tauto, h1, h2⟩
      · rintro ⟨c, hc, h1, h2⟩
        rcases hc with (hc | rfl) | hc
        · exact ⟨c, Or.inl hc, h1, h2⟩
        · simp at h2
        · exact ⟨c, Or.inr hc, h1, h2⟩
  obtain ⟨hsh5, hres⟩ := free_coalesce_spec hwf4 hfc
  have hA : lastBlockAlloc (pre ++ [{ addr := b.addr, size := size, alloc := 1 }]) = 1 :=
    (lastBlock_concat pre _).1
  rcases hres with ⟨-, -, -, h1, h2⟩ | ⟨n, post1, l1, l2, -, rfl, hn0, -⟩ |
    ⟨pre1, c, he, hc0, -⟩ | ⟨pre1, c, n, post1, l1, l2, he, hc0, -⟩
  · refine ⟨rfl, by simpa using h1, hsh4.chain hsh5, hag4.trans (h2.mono ?_)⟩
    intro x hx
    exact ⟨by have := hx.1; show x < b.addr + size ∨ b.addr + size + (b.size - size) ≤ x; omega,
      hx.2⟩
  · exact absurd hn0 hn
  · exfalso
    have := (lastBlock_concat pre1 c).1
    rw [← he, hA] at this
    omega
  · exfalso
    have := (lastBlock_concat pre1 c).1
    rw [← he, hA] at this
    omega

/-- In a well-formed heap the neighbours of a free block are allocated. -/
theorem WF.free_neighbours {s : Heap} {pre post : List Block} {b : Block} {fl : List Int}
    (h : WF s (pre ++ b :: post) fl) (hb0 : b.alloc = 0) :
    lastBlockAlloc pre ≠ 0 ∧ headBlockAlloc post ≠ 0 := by
  have := h.2.2.1
  rw [NoAdjFree_mid] at this
  exact ⟨fun hx => this.2.1 ⟨hx, hb0⟩, fun hx => this.2.2.1 ⟨hb0, hx⟩⟩

/-- `place` on a free block of a well-formed heap that is large enough, when
it returns. -/
theorem place_spec {s t : Heap} {pre post : List Block} {b : Block} {fl : List Int}
    {size r : Int} (hwf : WF s (pre ++ b :: post) fl) (hb0 : b.alloc = 0)
    (hs16 : 16 ≤ size) (hs8 : size % 8 = 0) (hle : size ≤ b.size)
    (h : place s b.addr size = .ok (r, t)) :
    SameShape s t ∧ PlaceResult s t pre b post fl size r := by
  obtain ⟨hp, hn⟩ := hwf.free_neighbours hb0
  have hbm : b ∈ pre ++ b :: post := by simp
  obtain ⟨hb1, hb2, hb3, hb4, hb5, hb6, hb7⟩ := TSeg_mem hwf.2.1.2.2.2.1 hbm
  have hbb := Tiling_bounds hwf.2.1 hbm
  have hlt := Tiling_size_lt hwf.1 hwf.2.1
  have hst := hwf.2.1.1
  have ev1 : mm_block_size s b.addr = .ok b.size := by
    rw [mm_block_size_eq_ok, blockSize_of_word hb6 (by omega) (by omega) hb4 hb5]
    exact ⟨⟨by omega, by omega⟩, rfl⟩
  have hw : wrap32 (b.size - size) = b.size - size := by
    simp only [wrap32]; omega
  unfold place at h
  simp only [ev1, run_bind_ok, hw] at h
  rw [bind_eq_ok] at h
  obtain ⟨s1, hrem, h⟩ := h
  obtain ⟨l1, l2, hfl, hwfx, hsh1, hag1⟩ := WF_remove hwf hb0 hrem
  have hsub : ∀ x, Untouched b.addr (b.addr + b.size) fl x →
      Untouched b.addr (b.addr + b.size) (l1 ++ l2) x := by
    intro x hx
    refine ⟨hx.1, fun a ha => hx.2 a ?_⟩
    rw [hfl]; simp only [List.mem_append, List.mem_cons] at ha ⊢; tauto
  have hag1b : Agree s s1 (Untouched b.addr (b.addr + b.size) fl) :=
    hag1.mono (fun x hx => ⟨by omega, hx.2⟩)
  by_cases h512 : b.size - size > 512
  · by_cases h1024 : b.size - size > 1024
    · rw [if_pos h512, if_pos h1024] at h
      obtain ⟨g1, g2, g3, g4⟩ := place_big hwfx hp hs16 hs8 h1024 h
      exact ⟨hsh1.chain g3, l1, l2, hfl, Or.inl ⟨h1024, g1, g2⟩, hag1b.trans (g4.mono hsub)⟩
    · rw [if_pos h512, if_neg h1024] at h
      obtain ⟨g1, g2, g3, g4⟩ := place_mid hwfx hn hs16 hs8 h512 h
      exact ⟨hsh1.chain g3, l1, l2, hfl, Or.inr (Or.inl ⟨h512, by omega, g1, g2⟩),
        hag1b.trans (g4.mono hsub)⟩
  · rw [if_neg h512] at h
    obtain ⟨g1, g2⟩ := place_small hwfx
    have vb : s1.valid b.addr := hsh1.valid ⟨by omega, by omega⟩
    have ev2 : mm_block_set_header s1 b.addr b.size 1 = .ok (s1.put b.addr (b.size + 1)) := by
      rw [mm_block_set_header_eq_ok]; exact ⟨vb, rfl⟩
    have ev3 : mm_block_set_footer (s1.put b.addr (b.size + 1)) b.addr b.size 1 =
        .ok ((s1.put b.addr (b.size + 1)).put (b.addr + b.size - 4) (b.size + 1)) := by
      rw [mm_block_set_footer_eq_ok, blockSize, wordAt_put_same _ _ _ (by omega) (by omega),
        sizeOfWord_pack _ 1 (by omega) (by omega) hb4 (Or.inr rfl)]
      exact ⟨vb, hsh1.valid ⟨by omega, by omega⟩, rfl⟩
    simp only [ev2, ev3, run_bind_ok, run_pure, Except.ok.injEq, Prod.mk.injEq] at h
    obtain ⟨rfl, rfl⟩ := h
    exact ⟨hsh1.chain ⟨rfl, rfl, rfl, rfl⟩, l1, l2, hfl, Or.inr (Or.inr ⟨by omega, rfl, g1⟩),
      hag1b.trans (g2.mono (fun x hx => ⟨hx.1, by simp⟩))⟩

/-- Whatever the branch, `place` ends in a well-formed heap with an allocated
block at the returned address that lies inside the old free block and has at
least the requested size; other allocated blocks keep their payload. -/
theorem PlaceResult.wellFormed {s t : Heap} {pre post : List Block} {b : Block} {fl : List Int}
    {size r : Int} (hwf : WF s (pre ++ b :: post) fl) (_ : 0 ≤ size) (hle : size ≤ b.size)
    (h : PlaceResult s t pre b post fl size r) :
    ∃ bs2 fl2 m, WF t bs2 fl2 ∧ m ∈ bs2 ∧ m.addr = r ∧ m.alloc = 1 ∧ size ≤ m.size ∧
      b.addr ≤ m.addr ∧ m.addr + m.size ≤ b.addr + b.size ∧
      (∀ c ∈ pre ++ post, c.alloc = 1 → c ∈ bs2 ∧ Kept s t c) := by
  have hts := hwf.2.1.2.2.2.1
  have hfb := hwf.fl_blocks
  have hp := TSeg_parts hts
  obtain ⟨l1, l2, hfl, hcases, hag⟩ := h
  have hkept : ∀ c ∈ pre ++ post, c.alloc = 1 → Kept s t c := by
    intro c hc hc1 x hx1 hx2
    have hcm : c ∈ pre ++ b :: post := by
      simp only [List.mem_append, List.mem_cons] at hc ⊢; tauto
    apply hag x
    apply Untouched_of_payload hts hfb hcm hc1 _ (by omega) (by omega)
    rcases List.mem_append.mp hc with hc | hc
    · have := hp.2.1 c hc; omega
    · have := hp.2.2 c hc; omega
  rcases hcases with ⟨h1, rfl, h2⟩ | ⟨h1, h1b, rfl, h2⟩ | ⟨h1, rfl, h2⟩
  · refine ⟨_, _, { addr := b.addr + (b.size - size), size := size, alloc := 1 }, h2, by simp,
      rfl, rfl, le_refl _, by show b.addr ≤ b.addr + (b.size - size); omega,
      by show b.addr + (b.size - size) + size ≤ _; omega, ?_⟩
    intro c hc hc1
    exact ⟨by simp only [List.mem_append, List.mem_cons] at hc ⊢; tauto, hkept c hc hc1⟩
  · refine ⟨_, _, { addr := b.addr, size := size, alloc := 1 }, h2, by simp,
      rfl, rfl, le_refl _, le_refl _, by show b.addr + size ≤ _; omega, ?_⟩
    intro c hc hc1
    exact ⟨by simp only [List.mem_append, List.mem_cons] at hc ⊢; tauto, hkept c hc hc1⟩
  · refine ⟨_, _, { b with alloc := 1 }, h2, by simp,
      rfl, rfl, hle, le_refl _, le_refl _, ?_⟩
    intro c hc hc1
    exact ⟨by simp only [List.mem_append, List.mem_cons] at hc ⊢; tauto, hkept c hc hc1⟩

/-! ## `extend_heap` -/

theorem mem_sbrk_eq_some {s u : Heap} {incr bp : Int} (h : mem_sbrk s incr = some (bp, u)) :
    0 ≤ incr ∧ s.mem_brk + incr ≤ s.mem_max ∧ bp = s.mem_brk ∧
    u = { s with mem_brk := s.mem_brk + incr } := by
  unfold mem_sbrk at h
  split at h
  · cases h
  · simp only [Option.some.injEq, Prod.mk.injEq] at h
    obtain ⟨rfl, rfl⟩ := h
    refine ⟨by omega, by omega, rfl, rfl⟩

/-- The state `extend_heap` hands to `free_coalesce`: the old heap with a new
free block over the old epilogue and a new epilogue behind it. -/
theorem extend_heap_grown {s : Heap} {bs : List Block} {fl : List Int} {size : Int}
    (hwf : WF s bs fl) (h16 : 16 ≤ size) (h8 : size % 8 = 0)
    (hmax : s.mem_brk + size ≤ s.mem_max) :
    WFx ((({ s with mem_brk := s.mem_brk + size }.put (s.mem_brk - 4) size).put
        (s.mem_brk - 4 + size - 4) size).put (s.mem_brk - 4 + size) 1)
      bs { addr := s.mem_brk - 4, size := size, alloc := 0 } [] fl ∧
    Agree s ((({ s with mem_brk := s.mem_brk + size }.put (s.mem_brk - 4) size).put
        (s.mem_brk - 4 + size - 4) size).put (s.mem_brk - 4 + size) 1)
      (fun x => x < s.mem_brk - 4) := by
  have hfb := hwf.fl_blocks
  obtain ⟨hreg, htl, hnaf, hfl, hnd, hiff⟩ := hwf
  obtain ⟨t1, t2, t3, t4, t5, t6⟩ := htl
  obtain ⟨r1, r2, r3, r4⟩ := hreg
  have hE := TSeg_le_endOf t4
  have hag : Agree s ((({ s with mem_brk := s.mem_brk + size }.put (s.mem_brk - 4) size).put
        (s.mem_brk - 4 + size - 4) size).put (s.mem_brk - 4 + size) 1)
      (fun x => x < s.mem_brk - 4) := by
    have h0 : Agree s { s with mem_brk := s.mem_brk + size } (fun x => x < s.mem_brk - 4) :=
      fun _ _ => rfl
    apply Agree.put (Agree.put (Agree.put h0 _ _ _) _ _ _)
    · intro x hx; omega
    · intro x hx; omega
    · intro x hx; omega
  have hw : ∀ a, a + 4 ≤ s.mem_brk - 4 →
      wordAt ((({ s with mem_brk := s.mem_brk + size }.put (s.mem_brk - 4) size).put
        (s.mem_brk - 4 + size - 4) size).put (s.mem_brk - 4 + size) 1).mem a = wordAt s.mem a := by
    intro a ha
    exact hag.word (show a < _ by omega) (show a + 1 < _ by omega) (show a + 2 < _ by omega)
      (show a + 3 < _ by omega)
  refine ⟨⟨⟨r1, by show s.mem_brk + size ≤ s.mem_max; omega, r3, r4⟩, ?_, ?_, ?_, hnd, ?_⟩, hag⟩
  · refine ⟨t1, ?_, ?_, ?_, ?_, ?_⟩
    · rw [hw _ (by show s.heap_blocks + 4 ≤ _; omega)]; exact t2
    · rw [hw _ (by show s.heap_blocks + 4 + 4 ≤ _; omega)]; exact t3
    · show TSeg _ (s.heap_blocks + 8) (bs ++ [_])
      rw [TSeg_append]
      constructor
      · apply TSeg_of_words t4
        intro b hb
        have := TSeg_mem t4 hb
        exact ⟨hw _ (by omega), hw _ (by omega)⟩
      · have e : endOf (s.heap_blocks + 8) bs = s.mem_brk - 4 := by omega
        rw [e]
        refine ⟨rfl, h16, h8, Or.inl rfl, ?_, ?_, trivial⟩
        · show wordAt ((({ s with mem_brk := s.mem_brk + size }.put (s.mem_brk - 4) size).put
            (s.mem_brk - 4 + size - 4) size).put (s.mem_brk - 4 + size) 1).mem (s.mem_brk - 4)
              = size + 0
          rw [wordAt_put_other _ _ _ _ (by omega), wordAt_put_other _ _ _ _ (by omega),
            wordAt_put_same _ _ _ (by omega) (by omega), add_zero]
        · show wordAt ((({ s with mem_brk := s.mem_brk + size }.put (s.mem_brk - 4) size).put
            (s.mem_brk - 4 + size - 4) size).put (s.mem_brk - 4 + size) 1).mem
              (s.mem_brk - 4 + size - 4) = size + 0
          rw [wordAt_put_other _ _ _ _ (by omega),
            wordAt_put_same _ _ _ (by omega) (by omega), add_zero]
    · show endOf (s.heap_blocks + 8) (bs ++ [_]) + 4 = s.mem_brk + size
      rw [endOf_concat]
      show endOf (s.heap_blocks + 8) bs + size + 4 = _
      omega
    · show wordAt _ (endOf (s.heap_blocks + 8) (bs ++ [_])) = 1
      rw [endOf_concat]
      show wordAt _ (endOf (s.heap_blocks + 8) bs + size) = 1
      rw [show endOf (s.heap_blocks + 8) bs + size = s.mem_brk - 4 + size by omega,
        wordAt_put_same _ _ _ (by omega) (by omega)]
  · show NoAdjFree (bs ++ [{ addr := s.mem_brk - 4, size := size, alloc := 1 }])
    rw [NoAdjFree_mid]
    exact ⟨hnaf, by simp, by simp, trivial⟩
  · refine FreeList_of_agree hfl ?_ rfl rfl hag ?_
    · intro a ha
      exact ⟨ha.1, by show a + 4 ≤ s.mem_brk + size; have := ha.2; omega⟩
    · intro y hy x hx1 hx2
      obtain ⟨d, hd, rfl, -⟩ := hfb y hy
      have := TSeg_mem t4 hd
      show x < s.mem_brk - 4
      omega
  · intro a
    rw [hiff]
    simp

/-- `extend_heap` on a well-formed heap, when it returns: either `mem_sbrk`
failed and nothing changed, or the heap has grown by `size` bytes, which form
a new free block at the end or have been absorbed by the free block that was
last; the allocated blocks keep their payload. -/
theorem extend_heap_spec {s t : Heap} {bs : List Block} {fl : List Int} {size r : Int}
    (hwf : WF s bs fl) (h16 : 16 ≤ size) (h8 : size % 8 = 0)
    (h : extend_heap s size = .ok (r, t)) :
    (mem_sbrk s size = none ∧ r = 0 ∧ t = s) ∨
    (t.mem_start = s.mem_start ∧ t.mem_brk = s.mem_brk + size ∧ t.mem_max = s.mem_max ∧
      t.heap_blocks = s.heap_blocks ∧
      ((lastBlockAlloc bs ≠ 0 ∧ r = s.mem_brk - 4 ∧
          WF t (bs ++ [{ addr := s.mem_brk - 4, size := size, alloc := 0 }])
            (fl ++ [s.mem_brk - 4])) ∨
        (∃ pre1 c, bs = pre1 ++ [c] ∧ c.alloc = 0 ∧ r = c.addr ∧
          WF t (pre1 ++ [{ c with size := c.size + size }]) fl)) ∧
      ∀ c ∈ bs, c.alloc = 1 → Kept s t c) := by
  unfold extend_heap at h
  cases hs : mem_sbrk s size with
  | none =>
    rw [hs] at h
    simp only [run_pure, Except.ok.injEq, Prod.mk.injEq] at h
    exact Or.inl ⟨rfl, h.1.symm, h.2.symm⟩
  | some v =>
    obtain ⟨bp, u⟩ := v
    rw [hs] at h
    obtain ⟨-, hmax, rfl, rfl⟩ := mem_sbrk_eq_some hs
    right
    obtain ⟨hwfx, hag⟩ := extend_heap_grown hwf h16 h8 hmax
    have hts := hwf.2.1.2.2.2.1
    have hst := hwf.2.1.1
    have hE := TSeg_le_endOf hts
    have hbrk := hwf.2.1.2.2.2.2.1
    obtain ⟨r1, r2, r3, r4⟩ := hwf.1
    have hsz : size < 2147483648 := by omega
    have v0 : ({ s with mem_brk := s.mem_brk + size } : Heap).valid (s.mem_brk - 4) :=
      ⟨by show s.mem_start ≤ _; omega, by show _ ≤ s.mem_brk + size; omega⟩
    have ev1 : mm_block_set_header { s with mem_brk := s.mem_brk + size } (s.mem_brk - 4) size 0
        = .ok ({ s with mem_brk := s.mem_brk + size }.put (s.mem_brk - 4) size) := by
      rw [mm_block_set_header_eq_ok, add_zero]; exact ⟨v0, rfl⟩
    have ev2 : mm_block_set_footer ({ s with mem_brk := s.mem_brk + size }.put (s.mem_brk - 4)
        size) (s.mem_brk - 4) size 0 = .ok (({ s with mem_brk := s.mem_brk + size }.put
          (s.mem_brk - 4) size).put (s.mem_brk - 4 + size - 4) size) := by
      rw [mm_block_set_footer_eq_ok, blockSize, wordAt_put_same _ _ _ (by omega) (by omega),
        sizeOfWord_self _ (by omega) hsz h8, add_zero]
      exact ⟨v0, ⟨by show s.mem_start ≤ _; omega, by show _ ≤ s.mem_brk + size; omega⟩, rfl⟩
    have ev3 : mm_block_next (({ s with mem_brk := s.mem_brk + size }.put
          (s.mem_brk - 4) size).put (s.mem_brk - 4 + size - 4) size) (s.mem_brk - 4) =
        .ok (s.mem_brk - 4 + size) := by
      rw [mm_block_next_eq_ok, blockSize, wordAt_put_other _ _ _ _ (by omega),
        wordAt_put_same _ _ _ (by omega) (by omega),
        sizeOfWord_self _ (by omega) hsz h8]
      exact ⟨v0, rfl⟩
    have ev4 : mm_block_set_header (({ s with mem_brk := s.mem_brk + size }.put
          (s.mem_brk - 4) size).put (s.mem_brk - 4 + size - 4) size) (s.mem_brk - 4 + size) 0 1 =
        .ok ((({ s with mem_brk := s.mem_brk + size }.put (s.mem_brk - 4) size).put
          (s.mem_brk - 4 + size - 4) size).put (s.mem_brk - 4 + size) 1) := by
      rw [mm_block_set_header_eq_ok, zero_add]
      exact ⟨⟨by show s.mem_start ≤ _; omega, by show _ ≤ s.mem_brk + size; omega⟩, rfl⟩
    simp only [ev1, ev2, ev3, ev4, run_bind_ok] at h
    obtain ⟨hsh, hres⟩ := free_coalesce_spec hwfx h
    obtain ⟨e1, e2, e3, e4⟩ := hsh
    obtain ⟨bs2, fl2, -, hk, -⟩ := hres.wf hwfx
    refine ⟨e1, e2, e3, e4, ?_, ?_⟩
    · rcases hres with ⟨hp, -, rfl, h1, -⟩ | ⟨n, post1, l1, l2, -, he, -⟩ |
        ⟨pre1, c, rfl, hc0, -, rfl, h1, -⟩ | ⟨pre1, c, n, post1, l1, l2, -, -, he, -⟩
      · exact Or.inl ⟨hp, rfl, h1⟩
      · cases he
      · exact Or.inr ⟨pre1, c, rfl, hc0, rfl, h1⟩
      · cases he
    · intro c hc hc1 x hx1 hx2
      have := TSeg_mem hts hc
      rw [(hk c (by simpa using hc) hc1).2 x hx1 hx2]
      exact hag x (by omega)

/-! ## `mm_malloc` -/

theorem place_ok_remove {s t : Heap} {bp size r : Int} (h : place s bp size = .ok (r, t)) :
    s.valid bp ∧ ∃ s1, mm_list_remove s bp = .ok s1 := by
  unfold place at h
  rw [bind_eq_ok] at h
  obtain ⟨z, hz, h⟩ := h
  rw [bind_eq_ok] at h
  obtain ⟨s1, h1, -⟩ := h
  exact ⟨(mm_block_size_eq_ok.mp hz).1, s1, h1⟩

theorem lastD_mem_of_ne_nil (xs : List Int) (d : Int) (h : xs ≠ []) : lastD xs d ∈ xs := by
  cases xs with
  | nil => exact absurd rfl h
  | cons x xs =>
    rcases lastD_eq_or_mem xs x with e | e
    · show lastD xs x ∈ x :: xs
      rw [e]; exact List.mem_cons_self _ _
    · exact List.mem_cons_of_mem _ e

/-- `mm_list_remove` does not return on the last entry of the free list. -/
theorem remove_not_tail {s t : Heap} {bs : List Block} {fl : List Int} {bp : Int}
    (hwf : WF s bs fl) (hb : bp ∈ fl) (h : mm_list_remove s bp = .ok t) :
    bp ≠ s.mm_list_tailp := by
  have hfb := hwf.fl_blocks
  obtain ⟨hreg, htl, hnaf, hfl, hnd, hiff⟩ := hwf
  have hts := htl.2.2.2.1
  have hex : ∀ y ∈ fl, ∃ c ∈ bs, c.addr = y :=
    fun y hy => by obtain ⟨d, hd, h1, -⟩ := hfb y hy; exact ⟨d, hd, h1⟩
  obtain ⟨l1, p, q, l2, rfl, -, -⟩ := list_remove_spec hreg hfl hnd
    (Apart_of_tiling hts hex) (header_ne_zero hts hex) hb h
  rw [hfl.2.1]
  have e : l1 ++ p :: bp :: q :: l2 = (l1 ++ [p]) ++ bp :: (q :: l2) := by simp
  rw [e] at hnd
  rw [e, lastD_append_cons]
  intro hx
  have hm : lastD (q :: l2) bp ∈ q :: l2 := lastD_mem_of_ne_nil _ _ (by simp)
  rw [← hx] at hm
  exact (List.nodup_cons.mp (List.nodup_append.mp hnd).2.1).1 hm

theorem place_null {s : Heap} {size : Int} (hreg : Region s) :
    ∀ r t, place s 0 size ≠ .ok (r, t) := by
  intro r t h
  exact hreg.not_valid_zero (place_ok_remove h).1

theorem find_fit_head_ok (s : Heap) (size : Int) (xs : List Int) :
    ∀ (fuel : Nat) (p r : Int), Seg s p xs 0 →
      find_fit_head s size fuel (xs.headD 0) = .ok r →
      r = (xs.find? (fun b => decide (blockSize s b ≥ size))).getD 0 := by
  induction xs with
  | nil =>
    intro fuel p r _ h
    cases fuel with
    | zero => simp [find_fit_head] at h
    | succ k => simpa [find_fit_head, eq_comm] using h
  | cons x xs ih =>
    intro fuel p r hs h
    obtain ⟨hx0, hv, _, hv8, _, hn, hrest⟩ := hs
    cases fuel with
    | zero => simp [find_fit_head] at h
    | succ k =>
      simp only [List.headD_cons, find_fit_head, ne_eq, hx0, not_false_eq_true, if_true,
        mm_block_size_of_valid hv, run_bind_ok, List.find?_cons] at h ⊢
      by_cases hsz : blockSize s x ≥ size
      · simp only [hsz, if_true, run_pure, Except.ok.injEq, decide_True, Option.getD_some] at h ⊢
        exact h.symm
      · simp only [hsz, if_false, decide_False, mm_list_next, load_of_valid hv8, run_bind_ok,
          hn] at h ⊢
        exact ih k x r hrest h

theorem find_fit_tail_ok (s : Heap) (size : Int) (xs : List Int) :
    ∀ (fuel : Nat) (n r : Int), Seg s 0 xs n →
      find_fit_tail s size fuel (lastD xs 0) = .ok r →
      r = (xs.reverse.find? (fun b => decide (blockSize s b ≥ size))).getD 0 := by
  induction xs using List.reverseRecOn with
  | nil =>
    intro fuel n r _ h
    cases fuel with
    | zero => simp [find_fit_tail] at h
    | succ k => simpa [find_fit_tail, lastD, eq_comm] using h
  | append_singleton xs x ih =>
    intro fuel n r hs h
    rw [Seg_append] at hs
    obtain ⟨hpre, hx0, hv, hv4, _, hp, _, _⟩ := hs
    cases fuel with
    | zero => simp [find_fit_tail] at h
    | succ k =>
      simp only [lastD_concat, find_fit_tail, ne_eq, hx0, not_false_eq_true, if_true,
        mm_block_size_of_valid hv, run_bind_ok, List.reverse_append, List.reverse_cons,
        List.reverse_nil, List.nil_append, List.singleton_append, List.find?_cons] at h ⊢
      by_cases hsz : blockSize s x ≥ size
      · simp only [hsz, if_true, run_pure, Except.ok.injEq, decide_True, Option.getD_some] at h ⊢
        exact h.symm
      · simp only [hsz, if_false, decide_False, mm_list_prev, load_of_valid hv4, run_bind_ok,
          hp] at h ⊢
        exact ih k _ r hpre h

/-- Whatever the step budget, a result of `find_fit` is the first fit. -/
theorem find_fit_ok {s : Heap} {fl : List Int} {size r : Int} {fuel : Nat}
    (hfl : FreeList s fl) (h : find_fit s fuel size = .ok r) : r = firstFit s fl size := by
  obtain ⟨hh, ht, hseg⟩ := hfl
  unfold find_fit at h
  unfold firstFit scanOrder
  by_cases hs : size > 1024
  · rw [if_pos hs, hh] at h
    rw [if_pos hs]
    exact find_fit_head_ok s size fl fuel 0 r hseg h
  · rw [if_neg hs, ht] at h
    rw [if_neg hs]
    exact find_fit_tail_ok s size fl fuel 0 r hseg h

/-- For a request of at most 16 bytes the first fit is the last entry of the
list: every free block is large enough and the scan starts at the tail. -/
theorem firstFit_small {s : Heap} {bs : List Block} {fl : List Int} {size : Int}
    (hwf : WF s bs fl) (hs : size ≤ 16) (hne : fl ≠ []) :
    firstFit s fl size = s.mm_list_tailp := by
  have hfb := hwf.fl_blocks
  obtain ⟨hreg, htl, hnaf, hfl, hnd, hiff⟩ := hwf
  rw [hfl.2.1]
  unfold firstFit scanOrder
  rw [if_neg (by omega)]
  obtain ⟨ys, hys⟩ : ∃ ys, fl = ys ++ [lastD fl 0] := by
    apply exists_concat_of_lastD_ne
    exact (Seg_mem hfl.2.2 (lastD_mem_of_ne_nil fl 0 hne)).1
  have hm := lastD_mem_of_ne_nil fl 0 hne
  generalize lastD fl 0 = T at *
  subst hys
  obtain ⟨d, hd, rfl, -⟩ := hfb _ hm
  have h1 := TSeg_mem htl.2.2.2.1 hd
  have h2 := Tiling_size_lt hreg htl
  have h3 := htl.1
  have hsz : blockSize s d.addr = d.size :=
    blockSize_of_word h1.2.2.2.2.2.1 (by omega) (by omega) h1.2.2.2.1 h1.2.2.2.2.1
  simp only [List.reverse_append, List.reverse_cons, List.reverse_nil, List.nil_append,
    List.singleton_append, List.find?_cons, hsz]
  have : decide (d.size ≥ size) = true := by simp; omega
  simp [this]

/-- `mm_malloc` on a well-formed heap, when it returns for a non-zero request:
the request did not overflow, the heap is well formed again, the returned
pointer is the payload of an allocated block of at least the required size
that is disjoint from the blocks allocated before, and those keep their
payload. -/
theorem mm_malloc_spec {s t : Heap} {bs : List Block} {fl : List Int} {fuel : Nat} {n p : Int}
    (hwf : WF s bs fl) (hn0 : 0 < n) (hn1 : n < 4294967296)
    (h : mm_malloc s fuel n = .ok (p, t)) :
    n + 15 < 2147483648 ∧
    ∃ bs2 fl2 m, WF t bs2 fl2 ∧ m ∈ bs2 ∧ m.addr = p - 4 ∧ m.alloc = 1 ∧
      (n + 15) / 8 * 8 ≤ m.size ∧
      (∀ c ∈ bs, c.alloc = 1 → c ∈ bs2 ∧ Kept s t c ∧
        (c.addr + c.size ≤ m.addr ∨ m.addr + m.size ≤ c.addr)) ∧
      t.mem_start = s.mem_start ∧ s.mem_brk ≤ t.mem_brk ∧ t.mem_max = s.mem_max ∧
      t.heap_blocks = s.heap_blocks := by
  have hfb := hwf.fl_blocks
  have hts := hwf.2.1.2.2.2.1
  have hreg := hwf.1
  have hfl := hwf.2.2.2.1
  have hlt := Tiling_size_lt hreg hwf.2.1
  have hst := hwf.2.1.1
  unfold mm_malloc at h
  rw [if_neg (by omega), bind_eq_ok] at h
  obtain ⟨tmp, hfit, h⟩ := h
  have hff := find_fit_ok hfl hfit
  have hfspec := find_fit_spec s fl (required_block_size (wrap32 n)) (fl.length + 1) hfl
    (by omega)
  rw [← hff] at hfspec
  obtain ⟨-, hnz, hz⟩ := hfspec
  have hr8 := required_block_size_mod8 (wrap32 n)
  -- a request that is granted did not overflow
  have hexact : 16 ≤ required_block_size (wrap32 n) → n + 15 < 2147483648 ∧
      required_block_size (wrap32 n) = (n + 15) / 8 * 8 := by
    intro h16
    have : n + 15 < 2147483648 := by
      by_contra hc
      have := required_block_size_overflow n (by omega) hn1 (by omega)
      omega
    exact ⟨this, required_block_size_exact n (by omega) this⟩
  by_cases htmp : tmp ≠ 0
  · -- a fit on the free list
    rw [if_pos htmp, bind_eq_ok] at h
    obtain ⟨⟨r, t1⟩, hpl, h⟩ := h
    simp only [run_pure, Except.ok.injEq, Prod.mk.injEq] at h
    obtain ⟨rfl, rfl⟩ := h
    obtain ⟨hmem, hsize⟩ := hnz htmp
    obtain ⟨b, hb, rfl, hb0⟩ := hfb tmp hmem
    have hbm := TSeg_mem hts hb
    have hbsz : blockSize s b.addr = b.size :=
      blockSize_of_word hbm.2.2.2.2.2.1 (by omega) (by omega) hbm.2.2.2.1 hbm.2.2.2.2.1
    rw [hbsz] at hsize
    have h16 : 16 ≤ required_block_size (wrap32 n) := by
      by_contra hc
      have hne : fl ≠ [] := fun e => by rw [e] at hmem; cases hmem
      have := @firstFit_small _ _ _ (required_block_size (wrap32 n)) hwf (by omega) hne
      rw [← hff] at this
      obtain ⟨-, s1, hrem⟩ := place_ok_remove hpl
      exact remove_not_tail hwf hmem hrem this
    obtain ⟨hno, hreq⟩ := hexact h16
    obtain ⟨pre, post, rfl⟩ := List.append_of_mem hb
    obtain ⟨hsh, hres⟩ := place_spec hwf hb0 h16 hr8 (by omega) hpl
    obtain ⟨bs2, fl2, m, hwf2, hm, hma, hm1, hms, hlo, hhi, hk⟩ :=
      hres.wellFormed hwf (by omega) (by omega)
    have hp := TSeg_parts hts
    refine ⟨hno, bs2, fl2, m, hwf2, hm, by omega, hm1, by omega, ?_, hsh.1, by rw [hsh.2.1],
      hsh.2.2.1, hsh.2.2.2⟩
    intro c hc hc1
    simp only [List.mem_append, List.mem_cons] at hc
    rcases hc with hc | rfl | hc
    · have := hp.2.1 c hc
      exact ⟨(hk c (by simp [hc]) hc1).1, (hk c (by simp [hc]) hc1).2, by omega⟩
    · omega
    · have := hp.2.2 c hc
      exact ⟨(hk c (by simp [hc]) hc1).1, (hk c (by simp [hc]) hc1).2, by omega⟩
  · -- no fit: the heap grows
    rw [if_neg htmp, bind_eq_ok] at h
    obtain ⟨⟨r1, t1⟩, hext, h⟩ := h
    rw [bind_eq_ok] at h
    obtain ⟨⟨r, t2⟩, hpl, h⟩ := h
    simp only [run_pure, Except.ok.injEq, Prod.mk.injEq] at h
    obtain ⟨rfl, rfl⟩ := h
    have hall := hz.mp (not_not.mp htmp)
    have hext8 : max 4096 (required_block_size (wrap32 n)) % 8 = 0 := by
      rcases max_cases (4096 : Int) (required_block_size (wrap32 n)) with ⟨e, -⟩ | ⟨e, -⟩ <;>
        rw [e] <;> omega
    have hEr := le_max_right (4096 : Int) (required_block_size (wrap32 n))
    have hEl := le_max_left (4096 : Int) (required_block_size (wrap32 n))
    generalize max 4096 (required_block_size (wrap32 n)) = E at hext hext8 hEr hEl
    rcases extend_heap_spec hwf (by omega) hext8 hext with ⟨-, rfl, rfl⟩ |
      ⟨e1, e2, e3, e4, hcase, hkept⟩
    · exact absurd hpl (place_null hreg _ _)
    · rcases hcase with ⟨-, rfl, hwf1⟩ | ⟨pre1, c, rfl, hc0, rfl, hwf1⟩
      · exfalso
        obtain ⟨-, s1, hrem⟩ := place_ok_remove hpl
        have := remove_not_tail hwf1 (by simp) hrem
        apply this
        rw [hwf1.2.2.2.1.2.1, lastD_concat]
      · have hcm : c ∈ pre1 ++ [c] := by simp
        have hcfl : c.addr ∈ fl := (hwf.2.2.2.2.2 _).mpr ⟨c, hcm, rfl, hc0⟩
        have hcb := TSeg_mem hts hcm
        have hcsz : blockSize s c.addr = c.size :=
          blockSize_of_word hcb.2.2.2.2.2.1 (by omega) (by omega) hcb.2.2.2.1 hcb.2.2.2.2.1
        have hsmall := hall _ hcfl
        rw [hcsz] at hsmall
        obtain ⟨hno, hreq⟩ := hexact (by omega)
        have hwf1b : WF t1 (pre1 ++ { c with size := c.size + E } :: []) fl := hwf1
        obtain ⟨hsh, hres⟩ := place_spec hwf1b hc0 (by omega) hr8
          (by show _ ≤ c.size + E; omega) hpl
        obtain ⟨bs2, fl2, m, hwf2, hm, hma, hm1, hms, hlo, hhi, hk⟩ :=
          hres.wellFormed hwf1b (by omega) (by show _ ≤ c.size + E; omega)
        have hp := TSeg_parts (show TSeg s (s.heap_blocks + 8) (pre1 ++ c :: []) from hts)
        refine ⟨hno, bs2, fl2, m, hwf2, hm, by omega, hm1, by omega, ?_, by rw [hsh.1, e1],
          by rw [hsh.2.1, e2]; omega, by rw [hsh.2.2.1, e3], by rw [hsh.2.2.2, e4]⟩
        intro d hd hd1
        simp only [List.mem_append, List.mem_cons, List.not_mem_nil, or_false] at hd
        rcases hd with hd | rfl
        · have := hp.2.1 d hd
          have hk1 := hk d (by simp [hd]) hd1
          refine ⟨hk1.1, ?_, by simp only at hlo; omega⟩
          intro x hx1 hx2
          rw [hk1.2 x hx1 hx2]
          exact hkept d (by simp [hd]) hd1 x hx1 hx2
        · omega

theorem ok_of_okPtr {r : Run (Int × Heap)} {p : Int} (h : okPtr r = some p) :
    ∃ t, r = .ok (p, t) := by
  cases r with
  | error e => simp [okPtr] at h
  | ok v =>
    obtain ⟨q, t⟩ := v
    simp only [okPtr, Option.some.injEq] at h
    exact ⟨t, by rw [h]⟩

theorem demoHeap_wf : WF demoHeap demoBlocks demoFree := by
  refine ⟨by simp only [Region, demoHeap]; decide, ?_,
    by simp only [NoAdjFree, demoBlocks]; decide, ⟨demoHeap_freeList, by decide, ?_⟩⟩
  · simp only [Tiling, TSeg, endOf, demoBlocks, demoHeap]
    decide
  · intro a
    simp only [demoFree, demoBlocks, List.mem_cons, List.mem_singleton, List.not_mem_nil,
      or_false, exists_eq_or_imp, exists_eq_left]
    constructor
    · rintro (rfl | rfl | rfl) <;> simp
    · rintro (h | h | h | h | h) <;> simp_all

/-- The block a successful `mm_malloc` hands out. -/
theorem mm_malloc_block_of_spec {s t : Heap} {bs : List Block} {fl : List Int} {fuel : Nat}
    {n p : Int} (hwf : WF s bs fl) (hn0 : 0 < n) (hn1 : n < 4294967296)
    (h : mm_malloc s fuel n = .ok (p, t)) :
    p ≠ 0 ∧ t.valid (p - 4) ∧ blockAlloc t (p - 4) = 1 ∧
    (n + 8 + 7) / 8 * 8 ≤ blockSize t (p - 4) ∧
    p + n ≤ (p - 4) + blockSize t (p - 4) - 4 ∧
    (p - 4) + blockSize t (p - 4) + 4 ≤ t.mem_brk := by
  obtain ⟨hno, bs2, fl2, m, hwf2, hm, hma, hm1, hms, -⟩ := mm_malloc_spec hwf hn0 hn1 h
  have hmm := TSeg_mem hwf2.2.1.2.2.2.1 hm
  have hb := Tiling_bounds hwf2.2.1 hm
  have hlt := Tiling_size_lt hwf2.1 hwf2.2.1
  have hst := hwf2.2.1.1
  have h0 := hwf2.1.1
  obtain ⟨q1, q2, q3, q4, q5, q6, q7⟩ := hmm
  rw [hma] at q6
  have hsz : blockSize t (p - 4) = m.size :=
    blockSize_of_word q6 (by omega) (by omega) q4 q5
  have hal : blockAlloc t (p - 4) = m.alloc := blockAlloc_of_word q6 q4 q5
  rw [hsz, hal]
  refine ⟨by omega, ⟨by omega, by omega⟩, hm1, by omega, by omega, by omega⟩


/-- Merge path of `mm_realloc` as a program: the current block is too small,
the next block is free and large enough. -/
theorem mm_realloc_merge_eq (s : Heap) (fuel : Nat) (ptr size : Int)
    (hptr : ptr ≠ 0) (hsize : size ≠ 0)
    (hhdr : s.valid (ptr - 4))
    (hnext : s.valid (ptr - 4 + blockSize s (ptr - 4)))
    (hsmall : ¬ blockSize s (ptr - 4) ≥ required_block_size (wrap32 size))
    (hnz : ptr - 4 + blockSize s (ptr - 4) ≠ 0)
    (hbig : wrap32 (blockSize s (ptr - 4) + blockSize s (ptr - 4 + blockSize s (ptr - 4)))
        ≥ required_block_size (wrap32 size))
    (hfree : blockAlloc s (ptr - 4 + blockSize s (ptr - 4)) = 0) :
    mm_realloc s fuel ptr size =
      (do
        let s1 ← mm_list_remove s (ptr - 4 + blockSize s (ptr - 4))
        let s2 ← mm_block_set_header s1 (ptr - 4)
          (wrap32 (blockSize s (ptr - 4) + blockSize s (ptr - 4 + blockSize s (ptr - 4)))) 1
        let s3 ← mm_block_set_footer s2 (ptr - 4)
          (wrap32 (blockSize s (ptr - 4) + blockSize s (ptr - 4 + blockSize s (ptr - 4)))) 1
        pure (ptr, s3)) := by
  have hal : mm_block_allocated s (ptr - 4 + blockSize s (ptr - 4)) =
      .ok (blockAlloc s (ptr - 4 + blockSize s (ptr - 4))) := by
    simp [mm_block_allocated, load_of_valid hnext, blockAlloc]
  simp only [mm_realloc, hptr, hsize, if_false, mm_block_next, mm_block_size_of_valid hhdr,
    run_bind_ok, run_pure, mm_block_size_of_valid hnext, hsmall, andThen, hal]
  simp [hnz, hbig, hfree]

/-- Writing inside the payload of an allocated block keeps the heap well formed. -/
theorem WF_payload_frame {s t : Heap} {bs : List Block} {fl : List Int} {m : Block}
    (hwf : WF s bs fl) (hm : m ∈ bs) (hm1 : m.alloc = 1) (hsh : SameShape s t)
    (hh : t.mm_list_headp = s.mm_list_headp) (ht : t.mm_list_tailp = s.mm_list_tailp)
    (hag : Agree s t (fun x => x < m.addr + 4 ∨ m.addr + m.size - 4 ≤ x)) :
    WF t bs fl := by
  obtain ⟨hreg, htl, hnaf, hfl, hnd, hiff⟩ := hwf
  obtain ⟨h1, h2, h3, hts, h5, h6⟩ := htl
  have hmm := TSeg_mem hts hm
  have hword : ∀ a, (a + 4 ≤ m.addr + 4 ∨ m.addr + m.size - 4 ≤ a) →
      wordAt t.mem a = wordAt s.mem a := fun a ha =>
    hag.word (by show _ ∨ _; omega) (by show _ ∨ _; omega) (by show _ ∨ _; omega)
      (by show _ ∨ _; omega)
  refine ⟨Region_of_sameShape hsh hreg, ⟨?_, ?_, ?_, ?_, ?_, ?_⟩, hnaf, ?_, hnd, hiff⟩
  · rw [hsh.1, hsh.2.2.2]; exact h1
  · rw [hsh.2.2.2, hword _ (by omega)]; exact h2
  · rw [hsh.2.2.2, hword _ (by omega)]; exact h3
  · rw [hsh.2.2.2]
    refine TSeg_of_words hts ?_
    intro c hc
    have hcm := TSeg_mem hts hc
    rcases TSeg_disjoint hts hc hm with rfl | hd | hd
    · exact ⟨hword _ (by omega), hword _ (by omega)⟩
    · exact ⟨hword _ (by omega), hword _ (by omega)⟩
    · exact ⟨hword _ (by omega), hword _ (by omega)⟩
  · rw [hsh.2.2.2, hsh.2.1]; exact h5
  · rw [hsh.2.2.2, hword _ (by omega)]; exact h6
  · refine FreeList_of_agree hfl (fun a ha => hsh.valid ha) hh ht hag ?_
    intro y hy x hx1 hx2
    obtain ⟨c, hc, rfl, hc0⟩ := (hiff y).mp hy
    have hcm := TSeg_mem hts hc
    rcases TSeg_disjoint hts hc hm with rfl | hd | hd
    · omega
    · left; omega
    · right; omega

/-- Merge path of `mm_realloc` on a well-formed heap, when it returns: the free
block `n` after the allocated block `b` leaves the free list and `b` absorbs
it; the heap stays well formed and every allocated payload is kept. -/
theorem mm_realloc_merge {s t : Heap} {pre post : List Block} {b n : Block} {fl : List Int}
    {q : Int} (hwf : WF s (pre ++ b :: n :: post) fl) (hb1 : b.alloc = 1) (hn0 : n.alloc = 0)
    (h : (do
        let s1 ← mm_list_remove s n.addr
        let s2 ← mm_block_set_header s1 b.addr (b.size + n.size) 1
        let s3 ← mm_block_set_footer s2 b.addr (b.size + n.size) 1
        pure (b.addr + 4, s3)) = .ok (q, t)) :
    q = b.addr + 4 ∧ ∃ l1 l2,
      WF t (pre ++ { addr := b.addr, size := b.size + n.size, alloc := 1 } :: post) (l1 ++ l2) ∧
      SameShape s t ∧ Kept s t b ∧ ∀ c ∈ pre ++ post, c.alloc = 1 → Kept s t c := by
  have hfb := hwf.fl_blocks
  have hts := hwf.2.1.2.2.2.1
  have hparts := TSeg_parts hts
  have hts2 : TSeg s (s.heap_blocks + 8) ((pre ++ [b]) ++ n :: post) := by simpa using hts
  have hparts2 := TSeg_parts hts2
  have hadj : n.addr = b.addr + b.size := by
    have := hparts2.1
    rw [endOf_concat, hparts.1] at this
    exact this.symm
  rw [bind_eq_ok] at h
  obtain ⟨s1, hrem, h⟩ := h
  obtain ⟨l1, l2, hfl_eq, hwfx, hsh1, hag1⟩ :=
    @WF_remove _ _ (pre ++ [b]) post n _ (by simpa using hwf) hn0 hrem
  obtain ⟨hreg1, htl1, hnaf1, hfl1, hnd1, hiff1⟩ := hwfx
  have htl1b : Tiling s1 (pre ++ b :: n :: post) := by simpa using htl1
  have hts1 := htl1b.2.2.2.1
  have hbm : b ∈ pre ++ b :: n :: post := by simp
  have hnm : n ∈ pre ++ b :: n :: post := by simp
  obtain ⟨hb1a, hb2, hb3, hb4, hb5, hb6, hb7⟩ := TSeg_mem hts1 hbm
  obtain ⟨hn1, hn2, hn3, hn4, hn5, hn6, hn7⟩ := TSeg_mem hts1 hnm
  have hbb := Tiling_bounds htl1b hbm
  have hnb := Tiling_bounds htl1b hnm
  have hlt := Tiling_size_lt hreg1 htl1b
  have hst := htl1b.1
  have vb : s1.valid b.addr := ⟨by omega, by omega⟩
  have ev3 : mm_block_set_header s1 b.addr (b.size + n.size) 1 =
      .ok (s1.put b.addr (b.size + n.size + 1)) := by
    rw [mm_block_set_header_eq_ok]; exact ⟨vb, rfl⟩
  have ev4 : mm_block_set_footer (s1.put b.addr (b.size + n.size + 1)) b.addr
      (b.size + n.size) 1 = .ok ((s1.put b.addr (b.size + n.size + 1)).put
        (n.addr + n.size - 4) (b.size + n.size + 1)) := by
    rw [mm_block_set_footer_eq_ok, blockSize, wordAt_put_same _ _ _ (by omega) (by omega),
      sizeOfWord_pack _ 1 (by omega) (by omega) (by omega) (Or.inr rfl),
      show b.addr + (b.size + n.size) - 4 = n.addr + n.size - 4 by omega]
    exact ⟨vb, (show s1.valid _ from ⟨by omega, by omega⟩), rfl⟩
  simp only [ev3, ev4, run_bind_ok, run_pure, Except.ok.injEq, Prod.mk.injEq] at h
  obtain ⟨rfl, rfl⟩ := h
  have hlo := hparts.1
  have hm := @Tiling_merge _ pre [b, n] post hreg1
    (by simpa using htl1b) (by simp) 1 (Or.inr rfl) (b.addr) (n.addr + n.size)
    (by rw [hsh1.2.2.2, hlo]) (by show _ = b.addr + b.size + n.size; omega)
  rw [show n.addr + n.size - b.addr = b.size + n.size by omega] at hm
  obtain ⟨htl3, hag3⟩ := hm
  have hout : ∀ c ∈ pre ++ post, c.addr + c.size ≤ b.addr ∨ n.addr + n.size ≤ c.addr := by
    intro c hc
    rcases List.mem_append.mp hc with hc | hc
    · have := hparts.2.1 c hc; omega
    · have := hparts2.2.2 c hc; omega
  have hcsz : ∀ c ∈ pre ++ post, 16 ≤ c.size := by
    intro c hc
    exact (TSeg_mem hts (show c ∈ pre ++ b :: n :: post by
      simp only [List.mem_append, List.mem_cons] at hc ⊢; tauto)).2.2.1
  have hpos := hreg1.1
  have hagp : Agree s1 ((s1.put b.addr (b.size + n.size + 1)).put (n.addr + n.size - 4)
      (b.size + n.size + 1))
      (fun x => (x < b.addr ∨ b.addr + 4 ≤ x) ∧ (x < n.addr + n.size - 4 ∨ n.addr + n.size ≤ x)) :=
    Agree.put (Agree_put _ _ _ _ (fun x hx => hx.1)) _ _ (fun x hx => by have := hx.2; omega)
  refine ⟨rfl, l1, l2, ⟨hreg1, by simpa using htl3, ?_, ?_, hnd1, ?_⟩, hsh1, ?_, ?_⟩
  · have h1 : NoAdjFree (pre ++ b :: n :: post) := hwf.2.2.1
    rw [NoAdjFree_mid] at h1 ⊢
    obtain ⟨g1, g2, -, g4⟩ := h1
    rw [NoAdjFree_cons] at g4
    exact ⟨g1, by simp, by simp, g4.2⟩
  · refine FreeList_of_agree hfl1 (fun a ha => ha) rfl rfl hag3 ?_
    intro y hy x hx1 hx2
    obtain ⟨c, hc, rfl, hc0⟩ := (hiff1 y).mp hy
    refine ⟨?_, by simp⟩
    simp only [List.mem_append, List.mem_cons, List.mem_singleton, List.not_mem_nil,
      or_false] at hc
    rcases hc with (hc | rfl) | hc
    · have := hout c (by simp [hc]); have := hcsz c (by simp [hc]); omega
    · omega
    · have := hout c (by simp [hc]); have := hcsz c (by simp [hc]); omega
  · intro a
    rw [hiff1 a]
    constructor
    · rintro ⟨c, hc, h1, h2⟩
      simp only [List.mem_append, List.mem_cons, List.mem_singleton, List.not_mem_nil,
        or_false] at hc
      rcases hc with (hc | rfl) | hc
      · exact ⟨c, by simp [hc], h1, h2⟩
      · omega
      · exact ⟨c, by simp [hc], h1, h2⟩
    · rintro ⟨c, hc, h1, h2⟩
      simp only [List.mem_append, List.mem_cons] at hc
      rcases hc with hc | rfl | hc
      · exact ⟨c, by simp [hc], h1, h2⟩
      · simp at h2
      · exact ⟨c, by simp [hc], h1, h2⟩
  · intro x hx1 hx2
    have hu : Untouched 0 0 fl x :=
      Untouched_of_payload hts hfb hbm hb1 (Or.inr (by omega)) (by omega) (by omega)
    rw [← hag1 x hu]
    exact hagp x ⟨by omega, by omega⟩
  · intro c hc hc1 x hx1 hx2
    have hcm : c ∈ pre ++ b :: n :: post := by
      simp only [List.mem_append, List.mem_cons] at hc ⊢; tauto
    have hu : Untouched 0 0 fl x :=
      Untouched_of_payload hts hfb hcm hc1 (Or.inr (by have := Tiling_bounds htl1b hcm; omega))
        (by omega) (by omega)
    rw [← hag1 x hu]
    have := hout c hc
    exact hagp x ⟨by omega, by omega⟩

/-- Fallback path of `mm_realloc` on a well-formed heap, when it returns: a new
block is allocated, it receives the whole old payload, and the old block is
freed; the heap stays well formed and every other allocated payload is kept. -/
theorem mm_realloc_fallback {s t : Heap} {bs : List Block} {fl : List Int} {fuel : Nat}
    {b : Block} {req q : Int} (hwf : WF s bs fl) (hb : b ∈ bs) (hb1 : b.alloc = 1)
    (hreq : b.size < req) (hreq2 : req < 2147483648)
    (h : (do
        let (q, t) ← mm_malloc s fuel (toU32 req)
        let t ← memcpy t q (b.addr + 4) (toU32 (num_bytes req))
        let t ← mm_free t (b.addr + 4)
        pure (q, t)) = .ok (q, t)) :
    ∃ bs2 fl2 m, WF t bs2 fl2 ∧ m ∈ bs2 ∧ m.addr = q - 4 ∧ m.alloc = 1 ∧ req + 8 ≤ m.size ∧
      (∀ c ∈ bs, c.alloc = 1 → c.addr + c.size ≤ m.addr ∨ m.addr + m.size ≤ c.addr) ∧
      KeepsAllocated s t bs bs2 b.addr ∧
      (∀ i, 0 ≤ i → i < b.size - 8 → t.mem (q + i) = s.mem (b.addr + 4 + i)) ∧
      t.mem_start = s.mem_start ∧ s.mem_brk ≤ t.mem_brk ∧ t.mem_max = s.mem_max ∧
      t.heap_blocks = s.heap_blocks := by
  have hbm := TSeg_mem hwf.2.1.2.2.2.1 hb
  have h16 := hbm.2.2.1
  have e1 : toU32 req = req := by simp only [toU32]; omega
  have e2 : toU32 (num_bytes req) = req - 8 := by simp only [toU32, num_bytes, wrap32]; omega
  rw [e1, e2, bind_eq_ok] at h
  obtain ⟨⟨q1, t1⟩, hmal, h⟩ := h
  simp only at h
  rw [bind_eq_ok] at h
  obtain ⟨t2, hcpy, h⟩ := h
  rw [bind_eq_ok] at h
  obtain ⟨t3, hfree, h⟩ := h
  simp only [run_pure, Except.ok.injEq, Prod.mk.injEq] at h
  obtain ⟨rfl, rfl⟩ := h
  obtain ⟨hlt, bs2, fl2, m, hwf1, hm, hma, hm1, hmsz, hkeep, g1, g2, g3, g4⟩ :=
    mm_malloc_spec hwf (by omega) (by omega) hmal
  have hmsz2 : req + 8 ≤ m.size := by omega
  have hmm := TSeg_mem hwf1.2.1.2.2.2.1 hm
  -- the copy
  unfold memcpy at hcpy
  simp only [Except.ok.injEq] at hcpy
  have hmem : ∀ x, t2.mem x =
      if q1 ≤ x ∧ x < q1 + (req - 8) then t1.mem (b.addr + 4 + (x - q1)) else t1.mem x := by
    intro x; rw [← hcpy]
  have hag : Agree t1 t2 (fun x => x < m.addr + 4 ∨ m.addr + m.size - 4 ≤ x) := by
    intro x hx
    rw [hmem, if_neg (by omega)]
  have hsh2 : SameShape t1 t2 := by rw [← hcpy]; exact ⟨rfl, rfl, rfl, rfl⟩
  have hh2 : t2.mm_list_headp = t1.mm_list_headp := by rw [← hcpy]
  have ht2 : t2.mm_list_tailp = t1.mm_list_tailp := by rw [← hcpy]
  have hwf2 := WF_payload_frame hwf1 hm hm1 hsh2 hh2 ht2 hag
  obtain ⟨hb2, hkb, hdb⟩ := hkeep b hb hb1
  obtain ⟨bs3, fl3, hwf3, hsh3, hk3⟩ := mm_free_spec hwf2 hb2 hb1 rfl hfree
  have hmb : m.addr ≠ b.addr := by omega
  obtain ⟨hm3, hkm⟩ := hk3 m hm hm1 hmb
  refine ⟨bs3, fl3, m, hwf3, hm3, hma, hm1, hmsz2, fun c hc hc1 => (hkeep c hc hc1).2.2,
    ?_, ?_, ?_, ?_, ?_, ?_⟩
  · intro c hc hc1 hne
    obtain ⟨hc2, hkc, hdc⟩ := hkeep c hc hc1
    obtain ⟨hc3, hkc3⟩ := hk3 c hc2 hc1 hne
    refine ⟨hc3, fun x hx1 hx2 => ?_⟩
    rw [hkc3 x hx1 hx2, hag x (by omega), hkc x hx1 hx2]
  · intro i hi0 hi1
    rw [hkm (q1 + i) (by omega) (by omega)]
    rw [hmem, if_pos ⟨by omega, by omega⟩, show b.addr + 4 + (q1 + i - q1) = b.addr + 4 + i by omega]
    exact hkb _ (by omega) (by omega)
  · rw [hsh3.1, hsh2.1]; exact g1
  · rw [hsh3.2.1, hsh2.2.1]; exact g2
  · rw [hsh3.2.2.1, hsh2.2.2.1]; exact g3
  · rw [hsh3.2.2.2, hsh2.2.2.2]; exact g4

/-- `mm_realloc` of an allocated pointer with a non-zero size on a well-formed
heap, when it returns: the heap stays well formed, the result is the payload of
an allocated block `m` that holds the whole old payload, every other allocated
block keeps its place and its payload, and a moved block is apart from every
block that was allocated before. -/
theorem mm_realloc_spec {s t : Heap} {bs : List Block} {fl : List Int} {fuel : Nat}
    {b : Block} {ptr size q : Int} (hwf : WF s bs fl) (hb : b ∈ bs) (hb1 : b.alloc = 1)
    (hp : ptr = b.addr + 4) (hn0 : 0 < size) (hn1 : size < 4294967296)
    (h : mm_realloc s fuel ptr size = .ok (q, t)) :
    ∃ bs2 fl2 m, WF t bs2 fl2 ∧ m ∈ bs2 ∧ m.addr = q - 4 ∧ m.alloc = 1 ∧
      KeepsAllocated s t bs bs2 b.addr ∧
      (q = ptr ∨ ∀ c ∈ bs, c.alloc = 1 → c.addr + c.size ≤ m.addr ∨ m.addr + m.size ≤ c.addr) ∧
      (∀ i, 0 ≤ i → i < b.size - 8 → t.mem (q + i) = s.mem (ptr + i)) ∧
      (size + 15 < 2147483648 → (size + 15) / 8 * 8 ≤ m.size) ∧
      t.mem_start = s.mem_start ∧ s.mem_brk ≤ t.mem_brk ∧ t.mem_max = s.mem_max ∧
      t.heap_blocks = s.heap_blocks := by
  obtain ⟨pre, post, rfl⟩ := List.append_of_mem hb
  have hreg := hwf.1
  have htl := hwf.2.1
  have hts := htl.2.2.2.1
  have hbm := TSeg_mem hts hb
  have hbb := Tiling_bounds htl hb
  have hparts := TSeg_parts hts
  have hnx := @Tiling_next _ (pre ++ [b]) post (by simpa using htl)
  rw [endOf_concat, hparts.1] at hnx
  obtain ⟨hw, hz0, hz8, hal, hzb⟩ := hnx
  have hpos := hreg.1
  have hrg := hreg.2.2.2
  have hbrk := hreg.2.1
  have hst := htl.1
  have ebs : blockSize s (ptr - 4) = b.size := by
    rw [show ptr - 4 = b.addr by omega]
    exact blockSize_of_word hbm.2.2.2.2.2.1 (by omega) (by omega) hbm.2.2.2.1 hbm.2.2.2.2.1
  have ens : blockSize s (ptr - 4 + b.size) = headBlockSize post := by
    rw [show ptr - 4 + b.size = b.addr + b.size by omega]
    exact blockSize_of_word hw hz0 (by omega) hz8 hal
  have ena : blockAlloc s (ptr - 4 + b.size) = headBlockAlloc post := by
    rw [show ptr - 4 + b.size = b.addr + b.size by omega]
    exact blockAlloc_of_word hw hz8 hal
  have hptr : ptr ≠ 0 := by omega
  have hsize : size ≠ 0 := by omega
  have v1 : s.valid (ptr - 4) := ⟨by omega, by omega⟩
  have v2 : s.valid (ptr - 4 + blockSize s (ptr - 4)) := by rw [ebs]; exact ⟨by omega, by omega⟩
  have hrr := required_block_size_range (wrap32 size)
  by_cases hfit : required_block_size (wrap32 size) ≤ b.size
  · rw [mm_realloc_fits_eq s fuel ptr size hptr hsize v1 v2 (by rw [ebs]; exact hfit)] at h
    simp only [Except.ok.injEq, Prod.mk.injEq] at h
    obtain ⟨rfl, rfl⟩ := h
    refine ⟨_, fl, b, hwf, hb, by omega, hb1, fun c hc hc1 _ => ⟨hc, fun _ _ _ => rfl⟩,
      Or.inl rfl, fun _ _ _ => rfl, ?_, rfl, le_refl _, rfl, rfl⟩
    intro hs
    rw [required_block_size_exact size (by omega) hs] at hfit
    exact hfit
  · have hsmall : ¬ blockSize s (ptr - 4) ≥ required_block_size (wrap32 size) := by
      rw [ebs]; exact hfit
    have hw32 : wrap32 (b.size + headBlockSize post) = b.size + headBlockSize post := by
      simp only [wrap32]; omega
    by_cases hmerge : b.size + headBlockSize post ≥ required_block_size (wrap32 size) ∧
        headBlockAlloc post = 0
    · cases post with
      | nil => exact absurd hmerge.2 (by simp [headBlockAlloc])
      | cons n post1 =>
        simp only [headBlockSize, headBlockAlloc] at hmerge hw32 ens ena
        have hts2 : TSeg s (s.heap_blocks + 8) ((pre ++ [b]) ++ n :: post1) := by simpa using hts
        have hadj : n.addr = b.addr + b.size := by
          have := (TSeg_parts hts2).1
          rw [endOf_concat, hparts.1] at this
          exact this.symm
        rw [mm_realloc_merge_eq s fuel ptr size hptr hsize v1 v2 hsmall (by rw [ebs]; omega)
          (by rw [ebs, ens, hw32]; exact hmerge.1) (by rw [ebs, ena]; exact hmerge.2),
          ebs, ens, hw32, show ptr - 4 + b.size = n.addr by omega,
          show ptr - 4 = b.addr by omega, hp] at h
        obtain ⟨rfl, l1, l2, hwf2, hsh, hkb, hkc⟩ := mm_realloc_merge hwf hb1 hmerge.2 h
        refine ⟨_, _, { addr := b.addr, size := b.size + n.size, alloc := 1 }, hwf2, by simp,
          by simp, rfl, ?_, Or.inl hp.symm, ?_, ?_, hsh.1, le_of_eq hsh.2.1.symm, hsh.2.2.1,
          hsh.2.2.2⟩
        · intro c hc hc1 hne
          simp only [List.mem_append, List.mem_cons] at hc
          rcases hc with hc | rfl | rfl | hc
          · exact ⟨by simp [hc], hkc c (by simp [hc]) hc1⟩
          · exact absurd rfl hne
          · omega
          · exact ⟨by simp [hc], hkc c (by simp [hc]) hc1⟩
        · intro i hi0 hi1
          rw [hp]
          exact hkb _ (by omega) (by omega)
        · intro hs
          rw [required_block_size_exact size (by omega) hs] at hmerge
          exact hmerge.1
    · rw [mm_realloc_fallback_eq s fuel ptr size hptr hsize v1 v2 hsmall
        (by rw [ebs, ens, ena, hw32]; exact hmerge), hp] at h
      obtain ⟨bs2, fl2, m, hwf2, hm, hma, hm1, hmsz, hdis, hkeep, hbytes, g⟩ :=
        mm_realloc_fallback hwf hb hb1 (by omega) hrr.2 h
      refine ⟨bs2, fl2, m, hwf2, hm, hma, hm1, hkeep, Or.inr hdis, ?_, ?_, g⟩
      · intro i hi0 hi1
        rw [hp]; exact hbytes i hi0 hi1
      · intro hs
        rw [required_block_size_exact size (by omega) hs] at hmsz
        omega

/-- State `mm_init` builds before it extends the heap: alignment word,
prologue and epilogue in the first 16 bytes obtained from `mem_sbrk`. -/
theorem mm_init_eq {raw : Heap} (hreg : Region raw) (hle : raw.mem_start ≤ raw.mem_brk)
    (hroom : raw.mem_brk + 16 ≤ raw.mem_max) :
    ∃ u, WF u [] [] ∧ u.mem_brk = raw.mem_brk + 16 ∧ u.heap_blocks = raw.mem_brk + 4 ∧
      u.mem_start = raw.mem_start ∧ u.mem_max = raw.mem_max ∧
      mm_init raw = (do
        let (r, s) ← extend_heap u 5000
        if r = 0 then pure (-1, s) else pure (0, s)) := by
  obtain ⟨hpos, hbrk, hmax, hrg⟩ := hreg
  let s0 : Heap := { mm_list_init raw with mem_brk := raw.mem_brk + 16 }
  let sA : Heap := { s0 with heap_blocks := raw.mem_brk }
  have hsb : mem_sbrk (mm_list_init raw) 16 =
      some (raw.mem_brk, { mm_list_init raw with mem_brk := raw.mem_brk + 16 }) := by
    simp only [mem_sbrk, mm_list_init]
    rw [if_neg (by omega)]
  let R := raw.mem_brk
  let sB := sA.put R (0 + 0)
  let sC := sB.put (R + 4) (8 + 1)
  let sD := sC.put (R + 8) (8 + 1)
  let sE := sD.put (R + 12) (0 + 1)
  have eC : blockSize sC (R + 4) = 8 := by
    show sizeOfWord (wordAt (sB.put (R + 4) (8 + 1)).mem (R + 4)) = 8
    rw [wordAt_put_same _ _ _ (by omega) (by omega)]
    decide
  have ev1 : mm_block_set_header sA R 0 0 = .ok sB := by
    rw [mm_block_set_header_eq_ok]; exact ⟨⟨hle, by show R + 4 ≤ R + 16; omega⟩, rfl⟩
  have ev2 : mm_block_set_header sB (R + 4) 8 1 = .ok sC := by
    rw [mm_block_set_header_eq_ok]
    exact ⟨⟨by show raw.mem_start ≤ R + 4; omega, by show R + 4 + 4 ≤ R + 16; omega⟩, rfl⟩
  have ev3 : mm_block_set_footer sC (R + 4) 8 1 = .ok sD := by
    rw [mm_block_set_footer_eq_ok, eC, show R + 4 + 8 - 4 = R + 8 by omega]
    exact ⟨⟨by show raw.mem_start ≤ R + 4; omega, by show R + 4 + 4 ≤ R + 16; omega⟩,
      ⟨by show raw.mem_start ≤ R + 8; omega, by show R + 8 + 4 ≤ R + 16; omega⟩, rfl⟩
  have ev4 : mm_block_set_header sD (R + 12) 0 1 = .ok sE := by
    rw [mm_block_set_header_eq_ok]
    exact ⟨⟨by show raw.mem_start ≤ R + 12; omega, by show R + 12 + 4 ≤ R + 16; omega⟩, rfl⟩
  refine ⟨{ sE with heap_blocks := R + 4 }, ?_, rfl, rfl, rfl, rfl, ?_⟩
  · refine ⟨⟨hpos, hroom, hmax, hrg⟩, ⟨?_, ?_, ?_, trivial, ?_, ?_⟩, trivial,
      ⟨rfl, rfl, trivial⟩, List.nodup_nil, fun a => by simp⟩
    · show raw.mem_start + 4 ≤ R + 4; omega
    · show wordAt (sD.put (R + 12) (0 + 1)).mem (R + 4) = 9
      rw [wordAt_put_other _ _ _ _ (by omega)]
      show wordAt (sC.put (R + 8) (8 + 1)).mem (R + 4) = 9
      rw [wordAt_put_other _ _ _ _ (by omega)]
      show wordAt (sB.put (R + 4) (8 + 1)).mem (R + 4) = 9
      rw [wordAt_put_same _ _ _ (by omega) (by omega)]; rfl
    · show wordAt (sD.put (R + 12) (0 + 1)).mem (R + 4 + 4) = 9
      rw [wordAt_put_other _ _ _ _ (by omega)]
      show wordAt (sC.put (R + 8) (8 + 1)).mem (R + 4 + 4) = 9
      rw [show R + 4 + 4 = R + 8 by omega, wordAt_put_same _ _ _ (by omega) (by omega)]; rfl
    · show R + 4 + 8 + 4 = R + 16; omega
    · show wordAt (sD.put (R + 12) (0 + 1)).mem (R + 4 + 8) = 1
      rw [show R + 4 + 8 = R + 12 by omega, wordAt_put_same _ _ _ (by omega) (by omega)]; rfl
  · show (match mem_sbrk (mm_list_init raw) 16 with
      | none => _
      | some (new_region, s) => _) = _
    rw [hsb]
    show (do
      let s ← mm_block_set_header sA R 0 0
      let s ← mm_block_set_header s (s.heap_blocks + 4) 8 1
      let s ← mm_block_set_footer s (s.heap_blocks + 4) 8 1
      let s ← mm_block_set_header s (s.heap_blocks + 12) 0 1
      let (r, s) ← extend_heap { s with heap_blocks := s.heap_blocks + 4 } 5000
      if r = 0 then pure (-1, s) else pure (0, s)) = _
    rw [ev1, run_bind_ok]
    show (do
      let s ← mm_block_set_header sB (R + 4) 8 1
      let s ← mm_block_set_footer s (s.heap_blocks + 4) 8 1
      let s ← mm_block_set_header s (s.heap_blocks + 12) 0 1
      let (r, s) ← extend_heap { s with heap_blocks := s.heap_blocks + 4 } 5000
      if r = 0 then pure (-1, s) else pure (0, s)) = _
    rw [ev2, run_bind_ok]
    show (do
      let s ← mm_block_set_footer sC (R + 4) 8 1
      let s ← mm_block_set_header s (s.heap_blocks + 12) 0 1
      let (r, s) ← extend_heap { s with heap_blocks := s.heap_blocks + 4 } 5000
      if r = 0 then pure (-1, s) else pure (0, s)) = _
    rw [ev3, run_bind_ok]
    show (do
      let s ← mm_block_set_header sD (R + 12) 0 1
      let (r, s) ← extend_heap { s with heap_blocks := s.heap_blocks + 4 } 5000
      if r = 0 then pure (-1, s) else pure (0, s)) = _
    rw [ev4, run_bind_ok]
    rfl

/-- A successful `mm_init` leaves a well-formed heap with a single free block
of 5000 bytes, the only entry of the free list. -/
theorem mm_init_spec {raw s : Heap} (hreg : Region raw) (h : mm_init raw = .ok (0, s)) :
    WF s [{ addr := raw.mem_brk + 12, size := 5000, alloc := 0 }] [raw.mem_brk + 12] ∧
    s.heap_blocks = raw.mem_brk + 4 ∧ s.mem_brk = raw.mem_brk + 5016 ∧
    s.mem_start = raw.mem_start ∧ s.mem_max = raw.mem_max := by
  by_cases hroom : raw.mem_brk + 16 ≤ raw.mem_max
  swap
  · exfalso
    have hsb : mem_sbrk (mm_list_init raw) 16 = none := by
      simp only [mem_sbrk, mm_list_init]
      rw [if_pos (Or.inr (by omega))]
    have : mm_init raw = .ok (-1, mm_list_init raw) := by
      show (match mem_sbrk (mm_list_init raw) 16 with
        | none => _
        | some (new_region, s) => _) = _
      rw [hsb]; rfl
    rw [this] at h
    simp at h
  by_cases hle : raw.mem_start ≤ raw.mem_brk
  swap
  · exfalso
    have hsb : mem_sbrk (mm_list_init raw) 16 =
        some (raw.mem_brk, { mm_list_init raw with mem_brk := raw.mem_brk + 16 }) := by
      simp only [mem_sbrk, mm_list_init]
      rw [if_neg (by omega)]
    let s0 : Heap := { mm_list_init raw with mem_brk := raw.mem_brk + 16 }
    let sA : Heap := { s0 with heap_blocks := raw.mem_brk }
    have hst : mm_block_set_header sA raw.mem_brk 0 0 = .error .segv := by
      simp only [mm_block_set_header, store]
      rw [if_neg (fun hv => hle hv.1)]
    have : mm_init raw = .error .segv := by
      show (match mem_sbrk (mm_list_init raw) 16 with
        | none => _
        | some (new_region, s) => _) = _
      rw [hsb]
      show (do
        let s ← mm_block_set_header sA raw.mem_brk 0 0
        let s ← mm_block_set_header s (s.heap_blocks + 4) 8 1
        let s ← mm_block_set_footer s (s.heap_blocks + 4) 8 1
        let s ← mm_block_set_header s (s.heap_blocks + 12) 0 1
        let (r, s) ← extend_heap { s with heap_blocks := s.heap_blocks + 4 } 5000
        if r = 0 then pure (-1, s) else pure (0, s)) = _
      rw [hst]; rfl
    rw [this] at h
    simp at h
  obtain ⟨u, hwf, hu1, hu2, hu3, hu4, heq⟩ := mm_init_eq hreg hle hroom
  rw [heq, bind_eq_ok] at h
  obtain ⟨⟨r, t⟩, hext, h⟩ := h
  simp only at h
  split at h
  · simp at h
  rename_i hr
  simp only [run_pure, Except.ok.injEq, Prod.mk.injEq, true_and] at h
  subst h
  rcases extend_heap_spec hwf (by omega) (by omega) hext with ⟨-, h0, -⟩ | ⟨g1, g2, g3, g4, hc, -⟩
  · exact absurd h0 hr
  rcases hc with ⟨-, -, hw⟩ | ⟨pre1, c, hnil, -⟩
  · rw [hu1, show raw.mem_brk + 16 - 4 = raw.mem_brk + 12 by omega] at hw
    exact ⟨by simpa using hw, by rw [g4, hu2], by rw [g2, hu1]; omega, by rw [g1, hu3],
      by rw [g3, hu4]⟩
  · simp at hnil

/-- A live pointer is not null. -/
theorem WF.ptr_pos {s : Heap} {bs : List Block} {fl : List Int} (h : WF s bs fl) {b : Block}
    (hb : b ∈ bs) : 0 < b.addr + 4 ∧ 16 ≤ b.size := by
  have := Tiling_bounds h.2.1 hb
  have := h.1.1
  have := (TSeg_mem h.2.1.2.2.2.1 hb).2.2.1
  omega

theorem Consistent.not_mem_zero {s : Heap} {live : List Int} (h : Consistent s live) :
    (0 : Int) ∉ live := by
  obtain ⟨bs, fl, hwf, -, hl⟩ := h
  intro h0
  obtain ⟨b, hb, h1, -⟩ := hl 0 h0
  have := hwf.ptr_pos hb
  omega

/-- `mm_malloc` keeps the heap consistent and adds its result to the live
pointers. -/
theorem Consistent.malloc {s t : Heap} {live : List Int} {fuel : Nat} {n p : Int}
    (hc : Consistent s live) (hn0 : 0 ≤ n) (hn1 : n < 4294967296)
    (h : mm_malloc s fuel n = .ok (p, t)) :
    Consistent t (if p = 0 then live else p :: live) := by
  by_cases hz : n = 0
  · subst hz
    simp only [mm_malloc, if_true, run_pure, Except.ok.injEq, Prod.mk.injEq] at h
    obtain ⟨rfl, rfl⟩ := h
    simpa using hc
  obtain ⟨bs, fl, hwf, hnd, hl⟩ := hc
  obtain ⟨-, bs2, fl2, m, hwf2, hm, hma, hm1, -, hkeep, -⟩ :=
    mm_malloc_spec hwf (by omega) hn1 h
  have hmp := hwf2.ptr_pos hm
  rw [if_neg (by omega)]
  refine ⟨bs2, fl2, hwf2, List.nodup_cons.mpr ⟨?_, hnd⟩, ?_⟩
  · intro hp
    obtain ⟨c, hc, h1, h2⟩ := hl p hp
    have := (hkeep c hc h2).2.2
    have := hwf.ptr_pos hc
    omega
  · intro q hq
    rcases List.mem_cons.mp hq with rfl | hq
    · exact ⟨m, hm, hma, hm1⟩
    · obtain ⟨c, hc, h1, h2⟩ := hl q hq
      exact ⟨c, (hkeep c hc h2).1, h1, h2⟩

/-- `mm_free` of null or of a live pointer keeps the heap consistent and drops
the pointer from the live ones. -/
theorem Consistent.free {s t : Heap} {live : List Int} {p : Int}
    (hc : Consistent s live) (hp : p = 0 ∨ p ∈ live) (h : mm_free s p = .ok t) :
    Consistent t (live.erase p) := by
  have h0 := hc.not_mem_zero
  by_cases hz : p = 0
  · subst hz
    simp only [mm_free, if_true, run_pure, Except.ok.injEq] at h
    subst h
    rw [List.erase_of_not_mem h0]
    exact hc
  have hpl : p ∈ live := hp.resolve_left hz
  obtain ⟨bs, fl, hwf, hnd, hl⟩ := hc
  obtain ⟨b, hb, hba, hb1⟩ := hl p hpl
  obtain ⟨bs2, fl2, hwf2, -, hk⟩ := mm_free_spec hwf hb hb1 (by omega) h
  refine ⟨bs2, fl2, hwf2, hnd.erase p, ?_⟩
  intro q hq
  obtain ⟨hqp, hql⟩ := (hnd.mem_erase_iff).mp hq
  obtain ⟨c, hc, h1, h2⟩ := hl q hql
  exact ⟨c, (hk c hc h2 (by omega)).1, h1, h2⟩

/-- `mm_realloc` of null or of a live pointer keeps the heap consistent; the
result replaces the pointer among the live ones. -/
theorem Consistent.realloc {s t : Heap} {live : List Int} {fuel : Nat} {p n q : Int}
    (hc : Consistent s live) (hp : p = 0 ∨ p ∈ live) (hn0 : 0 ≤ n) (hn1 : n < 4294967296)
    (h : mm_realloc s fuel p n = .ok (q, t)) :
    Consistent t (if q = 0 then live.erase p else q :: live.erase p) := by
  have h0 := hc.not_mem_zero
  by_cases hz : p = 0
  · subst hz
    simp only [mm_realloc, if_true] at h
    rw [List.erase_of_not_mem h0]
    exact hc.malloc hn0 hn1 h
  have hpl : p ∈ live := hp.resolve_left hz
  by_cases hnz : n = 0
  · subst hnz
    simp only [mm_realloc, if_neg hz, if_true] at h
    rw [bind_eq_ok] at h
    obtain ⟨u, hfree, h⟩ := h
    simp only [run_pure, Except.ok.injEq, Prod.mk.injEq] at h
    obtain ⟨rfl, rfl⟩ := h
    rw [if_pos rfl]
    exact hc.free hp hfree
  obtain ⟨bs, fl, hwf, hnd, hl⟩ := hc
  obtain ⟨b, hb, hba, hb1⟩ := hl p hpl
  obtain ⟨bs2, fl2, m, hwf2, hm, hma, hm1, hk, hmv, -⟩ :=
    mm_realloc_spec hwf hb hb1 (by omega) (by omega) hn1 h
  have hmp := hwf2.ptr_pos hm
  rw [if_neg (by omega)]
  refine ⟨bs2, fl2, hwf2, List.nodup_cons.mpr ⟨?_, hnd.erase p⟩, ?_⟩
  · intro hq
    obtain ⟨hqp, hql⟩ := (hnd.mem_erase_iff).mp hq
    rcases hmv with h1 | h1
    · exact hqp h1
    · obtain ⟨c, hc, h2, h3⟩ := hl q hql
      have := h1 c hc h3
      have := hwf.ptr_pos hc
      omega
  · intro r hr
    rcases List.mem_cons.mp hr with rfl | hr
    · exact ⟨m, hm, hma, hm1⟩
    · obtain ⟨hrp, hrl⟩ := (hnd.mem_erase_iff).mp hr
      obtain ⟨c, hc, h1, h2⟩ := hl r hrl
      exact ⟨c, (hk c hc h2 (by omega)).1, h1, h2⟩

/-- Consistency is kept along every run that starts in a consistent state. -/
theorem ReachFrom.keeps_consistent {s0 s : Heap} {live0 live : List Int}
    (h0 : Consistent s0 live0) (h : ReachFrom s0 live0 s live) : Consistent s live := by
  induction h with
  | start => exact h0
  | malloc s t live fuel n p _ hn0 hn1 h ih => exact ih.malloc hn0 hn1 h
  | free s t live p _ hp h ih => exact ih.free hp h
  | realloc s t live fuel p n q _ hp hn0 hn1 h ih => exact ih.realloc hp hn0 hn1 h

/-- Every state reachable from a successful `mm_init` is consistent. -/
theorem Reach.consistent {s : Heap} {live : List Int} (h : Reach s live) :
    Consistent s live := by
  obtain ⟨raw, s0, hreg, hinit, hr⟩ := h
  exact ReachFrom.keeps_consistent
    ⟨_, _, (mm_init_spec hreg hinit).1, List.nodup_nil, fun p hp => by simp at hp⟩ hr

/-- The hand-built heap `demoHeap` with its two allocated payloads is
consistent, and stays so along every run. -/
theorem demoHeap_consistent : Consistent demoHeap [4144, 5760] := by
  refine ⟨demoBlocks, demoFree, demoHeap_wf, by decide, ?_⟩
  intro p hp
  simp only [List.mem_cons, List.mem_singleton, List.not_mem_nil, or_false] at hp
  rcases hp with rfl | rfl
  · exact ⟨{ addr := 4140, size := 16, alloc := 1 }, by simp [demoBlocks], rfl, rfl⟩
  · exact ⟨{ addr := 5756, size := 16, alloc := 1 }, by simp [demoBlocks], rfl, rfl⟩

/-- A run on `demoHeap`: `mm_malloc(100)` returns 5648 and the heap stays
consistent with three live payloads. -/
theorem demoHeap_malloc_consistent :
    ∃ t, mm_malloc demoHeap 10 100 = .ok (5648, t) ∧ Consistent t [5648, 4144, 5760] := by
  obtain ⟨t, ht⟩ := ok_of_okPtr (show okPtr (mm_malloc demoHeap 10 100) = some 5648 by rfl)
  exact ⟨t, ht, by simpa using demoHeap_consistent.malloc (by decide) (by decide) ht⟩

/-- The address-order scan of a tiled stretch of the heap visits exactly its
blocks and stops at the header after them, if that one has size 0. -/
theorem heapWalk_of_TSeg {s : Heap} {bs : List Block} : ∀ {a : Int}, TSeg s a bs →
    endOf a bs - a < 2147483648 → blockSize s (endOf a bs) = 0 →
    heapWalk s (bs.length + 1) a = some (bs, endOf a bs) := by
  induction bs with
  | nil =>
    intro a _ _ h0
    simp only [endOf] at h0
    simp [heapWalk, h0, endOf]
  | cons b bs ih =>
    intro a hts hlt h0
    obtain ⟨h1, h2, h3, h4, h5, h6, h7⟩ := hts
    have hle := TSeg_le_endOf h7
    simp only [endOf] at hlt h0 ⊢
    have esz : blockSize s a = b.size := blockSize_of_word h5 (by omega) (by omega) h3 h4
    have eal : blockAlloc s a = b.alloc := blockAlloc_of_word h5 h3 h4
    have hrec := ih h7 (by omega) h0
    show (if blockSize s a = 0 then _ else _) = _
    rw [if_neg (by omega), esz, eal]
    show (match heapWalk s (bs.length + 1) (a + b.size) with
      | none => none
      | some (bs, e) => some ((⟨a, b.size, b.alloc⟩ : Block) :: bs, e)) = _
    rw [hrec, ← h1]

/-- The sizes of the blocks of a tiled stretch sum to its extent. -/
theorem sum_sizes_of_TSeg {s : Heap} {bs : List Block} : ∀ {a : Int}, TSeg s a bs →
    (bs.map Block.size).sum = endOf a bs - a := by
  induction bs with
  | nil => intro a _; simp [endOf]
  | cons b bs ih =>
    intro a hts
    have := ih hts.2.2.2.2.2.2
    simp only [List.map_cons, List.sum_cons, endOf]
    omega

/-- The traversal of a well-linked free list visits exactly its entries. -/
theorem listWalk_of_Seg {s : Heap} {fl : List Int} : ∀ {p : Int}, Seg s p fl 0 →
    listWalk s (fl.length + 1) (fl.headD 0) = some fl := by
  induction fl with
  | nil => intro p _; simp [listWalk]
  | cons x xs ih =>
    intro p h
    obtain ⟨h1, h2, h3, h4, h5, h6, h7⟩ := h
    have hrec := ih h7
    show (if x = 0 then _ else _) = _
    rw [if_neg h1]
    show (match listWalk s (xs.length + 1) (wordAt s.mem (x + 8)) with
      | none => none
      | some ys => some (x :: ys)) = _
    rw [h6, hrec]

/-- Scan of a well-formed heap: from the header after the prologue the walk
visits exactly the blocks and ends at the epilogue, the last word of the
region; the block sizes add up to the bytes between prologue and epilogue. -/
theorem WF.walk {s : Heap} {bs : List Block} {fl : List Int} (h : WF s bs fl) :
    blockSize s s.heap_blocks = 8 ∧
    heapWalk s (bs.length + 1) (s.heap_blocks + blockSize s s.heap_blocks) =
      some (bs, s.mem_brk - 4) ∧
    blockAlloc s (s.mem_brk - 4) = 1 ∧
    (bs.map Block.size).sum = s.mem_brk - 4 - (s.heap_blocks + 8) ∧
    listWalk s (fl.length + 1) s.mm_list_headp = some fl := by
  obtain ⟨hreg, htl, -, ⟨hh, -, hseg⟩, -, -⟩ := h
  have hlt := Tiling_size_lt hreg htl
  obtain ⟨t1, t2, t3, hts, t5, t6⟩ := htl
  have hE : endOf (s.heap_blocks + 8) bs = s.mem_brk - 4 := by omega
  have e8 : blockSize s s.heap_blocks = 8 :=
    @blockSize_of_word _ _ 8 1 t2 (by omega) (by omega) (by omega) (Or.inr rfl)
  rw [hE] at t6
  have e0 : blockSize s (s.mem_brk - 4) = 0 :=
    @blockSize_of_word _ _ 0 1 t6 (by omega) (by omega) (by omega) (Or.inr rfl)
  have ea : blockAlloc s (s.mem_brk - 4) = 1 :=
    @blockAlloc_of_word _ _ 0 1 t6 (by omega) (Or.inr rfl)
  refine ⟨e8, ?_, ea, ?_, ?_⟩
  · rw [e8, ← hE]
    exact heapWalk_of_TSeg hts (by omega) (by rw [hE]; exact e0)
  · rw [sum_sizes_of_TSeg hts, hE]
  · rw [hh]; exact listWalk_of_Seg hseg

/-- The state right after `mm_init` on `rawHeap` is reachable. -/
theorem reach_afterInit : Reach (afterInit rawHeap) [] :=
  ⟨rawHeap, _, by simp only [Region, rawHeap]; decide, rfl, ReachFrom.start⟩

/-- Writing payload bytes of an allocated block keeps the heap well formed. -/
theorem WF_writeBytes {s : Heap} {bs : List Block} {fl : List Int} {m : Block}
    (hwf : WF s bs fl) (hm : m ∈ bs) (hm1 : m.alloc = 1) (p n : Int) (pat : Int → Int)
    (hp : p = m.addr + 4) (hn : n + 8 ≤ m.size) : WF (writeBytes s p n pat) bs fl := by
  refine WF_payload_frame hwf hm hm1 ⟨rfl, rfl, rfl, rfl⟩ rfl rfl ?_
  intro x hx
  show (if p ≤ x ∧ x < p + n then _ else _) = _
  rw [if_neg (by omega)]

/-- Payload preservation of `mm_realloc`, from a well-formed heap in which the
pointer is the payload of an allocated block holding the pattern. -/
theorem mm_realloc_payload {s t : Heap} {bs : List Block} {fl : List Int} {m : Block}
    {fuel : Nat} {p n1 n2 q : Int} {pat : Int → Int}
    (hwf : WF s bs fl) (hm : m ∈ bs) (hm1 : m.alloc = 1) (hp : p = m.addr + 4)
    (hn : n1 + 8 ≤ m.size) (h2 : 0 < n2) (h2b : n2 < 4294967296)
    (h : mm_realloc (writeBytes s p n1 pat) fuel p n2 = .ok (q, t)) :
    q ≠ 0 ∧ ∀ i, 0 ≤ i → i < n1 → byteAt t.mem (q + i) = pat i % 256 := by
  have hwf2 := WF_writeBytes hwf hm hm1 p n1 pat hp hn
  obtain ⟨bs2, fl2, m2, hwf3, hm2, hma, -, -, -, hbytes, -⟩ :=
    mm_realloc_spec hwf2 hm hm1 hp h2 h2b h
  have := hwf3.ptr_pos hm2
  refine ⟨by omega, fun i hi0 hi1 => ?_⟩
  rw [byteAt, hbytes i hi0 (by omega)]
  show (if p ≤ p + i ∧ p + i < p + n1 then pat (p + i - p) % 256 else _) % 256 = _
  rw [if_pos ⟨by omega, by omega⟩, show p + i - p = i by omega, Int.emod_emod_of_dvd _ (dvd_refl _)]

/-- Words outside the written range are not changed by `writeBytes`. -/
theorem wordAt_writeBytes (s : Heap) (p n : Int) (pat : Int → Int) (a : Int)
    (h : a + 4 ≤ p ∨ p + n ≤ a) : wordAt (writeBytes s p n pat).mem a = wordAt s.mem a := by
  have e : ∀ x, a ≤ x → x < a + 4 → (writeBytes s p n pat).mem x = s.mem x := by
    intro x hx1 hx2
    show (if p ≤ x ∧ x < p + n then _ else _) = _
    rw [if_neg (by omega)]
  simp only [wordAt, byteAt]
  rw [e a (by omega) (by omega), e (a + 1) (by omega) (by omega),
    e (a + 2) (by omega) (by omega), e (a + 3) (by omega) (by omega)]

/-- `place` on a null block pointer faults on its first read. -/
theorem place_null_segv {s : Heap} (size : Int) (h : ¬ s.valid 0) :
    place s 0 size = .error .segv := by
  simp [place, mm_block_size, load_of_not_valid h]

/-- `mm_malloc` with no fit on the free list and no room to grow: the null
result of `extend_heap` goes to `place`, which faults. -/
theorem mm_malloc_no_room {s : Heap} {fl : List Int} {fuel : Nat} {n : Int}
    (hn : n ≠ 0) (hreg : Region s) (hfl : FreeList s fl) (hfuel : fl.length < fuel)
    (hnofit : ∀ b ∈ fl, blockSize s b < required_block_size (wrap32 n))
    (hgrow : mem_sbrk s (max 4096 (required_block_size (wrap32 n))) = none) :
    mm_malloc s fuel n = .error .segv := by
  obtain ⟨hff, -, hz⟩ := find_fit_spec s fl (required_block_size (wrap32 n)) fuel hfl hfuel
  rw [hz.mpr hnofit] at hff
  have hnull : ¬ s.valid 0 := fun hv => by have := hreg.1; have := hv.1; omega
  simp only [mm_malloc, if_neg hn, hff, run_bind_ok, ne_eq, not_true_eq_false, if_false,
    extend_heap, hgrow, run_pure, place_null_segv _ hnull, run_bind_error]

/-- In a well-formed heap with a single block, every free-list entry is the
list tail. -/
theorem WF.single_tail {s : Heap} {c : Block} {fl : List Int} (h : WF s [c] fl) {x : Int}
    (hx : x ∈ fl) : x = s.mm_list_tailp := by
  obtain ⟨-, -, -, ⟨-, ht, -⟩, -, hiff⟩ := h
  have hne : fl ≠ [] := fun e => by rw [e] at hx; cases hx
  have hl := lastD_mem_of_ne_nil fl 0 hne
  obtain ⟨b1, hb1, e1, -⟩ := (hiff _).mp hx
  obtain ⟨b2, hb2, e2, -⟩ := (hiff _).mp hl
  rw [List.mem_singleton] at hb1 hb2
  rw [ht, ← e1, ← e2, hb1, hb2]

/-- A heap without allocated blocks has at most one block. -/
theorem idle_blocks {bs : List Block} (hn : NoAdjFree bs) (hidle : ∀ b ∈ bs, b.alloc = 0) :
    bs = [] ∨ ∃ c, bs = [c] := by
  match bs, hn, hidle with
  | [], _, _ => exact Or.inl rfl
  | [c], _, _ => exact Or.inr ⟨c, rfl⟩
  | b :: c :: rest, hn, hidle =>
    exact absurd ⟨hidle b (by simp), hidle c (by simp)⟩ hn.1

/-- On a well-formed heap without allocated blocks `mm_malloc` never returns
for a non-zero request: the block it places is the first or the last entry of
the free list, and `mm_list_remove` reads through the null link of that entry. -/
theorem mm_malloc_idle {s : Heap} {bs : List Block} {fl : List Int} {fuel : Nat} {n : Int}
    (hwf : WF s bs fl) (hidle : ∀ b ∈ bs, b.alloc = 0) (hn0 : 0 < n) :
    ∀ p t, mm_malloc s fuel n ≠ .ok (p, t) := by
  intro p t h
  have hreg := hwf.1
  have hfl := hwf.2.2.2.1
  unfold mm_malloc at h
  rw [if_neg (by omega), bind_eq_ok] at h
  obtain ⟨tmp, hfit, h⟩ := h
  have hff := find_fit_ok hfl hfit
  have hfspec := find_fit_spec s fl (required_block_size (wrap32 n)) (fl.length + 1) hfl
    (by omega)
  rw [← hff] at hfspec
  obtain ⟨-, hnz, -⟩ := hfspec
  by_cases htmp : tmp ≠ 0
  · rw [if_pos htmp, bind_eq_ok] at h
    obtain ⟨⟨r, t1⟩, hpl, -⟩ := h
    obtain ⟨hmem, -⟩ := hnz htmp
    obtain ⟨-, s1, hrem⟩ := place_ok_remove hpl
    rcases idle_blocks hwf.2.2.1 hidle with rfl | ⟨c, rfl⟩
    · obtain ⟨b, hb, -⟩ := (hwf.2.2.2.2.2 _).mp hmem
      cases hb
    · exact remove_not_tail hwf hmem hrem (hwf.single_tail hmem)
  · rw [if_neg htmp, bind_eq_ok] at h
    obtain ⟨⟨r1, t1⟩, hext, h⟩ := h
    rw [bind_eq_ok] at h
    obtain ⟨⟨r, t2⟩, hpl, -⟩ := h
    have hext8 : max 4096 (required_block_size (wrap32 n)) % 8 = 0 := by
      have hr8 := required_block_size_mod8 (wrap32 n)
      rcases max_cases (4096 : Int) (required_block_size (wrap32 n)) with ⟨e, -⟩ | ⟨e, -⟩ <;>
        rw [e] <;> omega
    have hEl := le_max_left (4096 : Int) (required_block_size (wrap32 n))
    generalize max 4096 (required_block_size (wrap32 n)) = E at hext hext8 hEl
    rcases extend_heap_spec hwf (by omega) hext8 hext with ⟨-, rfl, rfl⟩ |
      ⟨-, -, -, -, hcase, -⟩
    · exact absurd hpl (place_null hreg _ _)
    · obtain ⟨-, s1, hrem⟩ := place_ok_remove hpl
      rcases hcase with ⟨-, rfl, hwf1⟩ | ⟨pre1, c, rfl, hc0, rfl, hwf1⟩
      · have := remove_not_tail hwf1 (by simp) hrem
        apply this
        rw [hwf1.2.2.2.1.2.1, lastD_concat]
      · have hpre : pre1 = [] := by
          rcases idle_blocks hwf.2.2.1 hidle with e | ⟨d, e⟩
          · simp at e
          · cases pre1 with
            | nil => rfl
            | cons x xs => simp at e
        subst hpre
        have hcfl : c.addr ∈ fl := (hwf.2.2.2.2.2 _).mpr ⟨c, by simp, rfl, hc0⟩
        have hwf1b : WF t1 [{ c with size := c.size + E }] fl := hwf1
        exact remove_not_tail hwf1b hcfl hrem (hwf1b.single_tail hcfl)

/-- The state right after `mm_init` on `rawHeap` is well formed: one free block
of 5000 bytes at 4108. -/
theorem afterInit_wf :
    WF (afterInit rawHeap) [{ addr := 4108, size := 5000, alloc := 0 }] [4108] :=
  (@mm_init_spec rawHeap (afterInit rawHeap) (by simp only [Region, rawHeap]; decide) rfl).1

/-- The copy length of the fallback path, as the `size_t` that `memcpy`
receives, exceeds the payload capacity of the current block. -/
theorem copy_length_exceeds_capacity (s : Heap) (ptr size : Int)
    (h : ¬ blockSize s (ptr - 4) ≥ required_block_size (wrap32 size)) :
    blockSize s (ptr - 4) - 8 < toU32 (num_bytes (required_block_size (wrap32 size))) := by
  have h1 := num_bytes_exceeds_capacity s ptr size h
  have h2 : num_bytes (required_block_size (wrap32 size)) < 4294967296 := by
    simp only [num_bytes, wrap32]; omega
  simp only [toU32]
  omega

/-- A run of `mm_list_remove` that meets a null `prev_free` or `next_free`
link reads through it and faults. -/
theorem mm_list_remove_null {s : Heap} {bp : Int} (h0 : ¬ s.valid 0)
    (hl : wordAt s.mem (bp + 4) = 0 ∨ wordAt s.mem (bp + 8) = 0) :
    mm_list_remove s bp = .error .segv := by
  unfold mm_list_remove mm_list_prev mm_list_next
  by_cases v4 : s.valid (bp + 4)
  swap
  · rw [load_of_not_valid v4]; rfl
  rw [load_of_valid v4, run_bind_ok]
  by_cases v8 : s.valid (bp + 8)
  swap
  · rw [load_of_not_valid v8]; rfl
  rw [load_of_valid v8, run_bind_ok]
  generalize wordAt s.mem (bp + 4) = P at hl
  generalize wordAt s.mem (bp + 8) = N at hl
  by_cases vP : s.valid P
  swap
  · simp [andThen, derefIsZero, derefNonZero, load_of_not_valid vP]
  have hP : P ≠ 0 := fun e => h0 (e ▸ vP)
  have hN : N = 0 := hl.resolve_left hP
  subst hN
  by_cases hw : wordAt s.mem P = 0
  · simp [andThen, derefIsZero, derefNonZero, load_of_valid vP, load_of_not_valid h0, hw]
  · simp [andThen, derefIsZero, derefNonZero, load_of_valid vP, load_of_not_valid h0, hw]

/-- With both links pointing into the managed region `mm_list_remove` returns. -/
theorem mm_list_remove_returns {s : Heap} {bp : Int} (v4 : s.valid (bp + 4))
    (v8 : s.valid (bp + 8)) (vP : s.valid (wordAt s.mem (bp + 4)))
    (vN : s.valid (wordAt s.mem (bp + 8)))
    (vP8 : s.valid (wordAt s.mem (bp + 4) + 8)) (vN4 : s.valid (wordAt s.mem (bp + 8) + 4)) :
    ∃ t, mm_list_remove s bp = .ok t := by
  unfold mm_list_remove mm_list_prev mm_list_next
  rw [load_of_valid v4, run_bind_ok, load_of_valid v8, run_bind_ok]
  generalize wordAt s.mem (bp + 4) = P at vP vP8
  generalize wordAt s.mem (bp + 8) = N at vN vN4
  have eP : load s P = .ok (wordAt s.mem P) := load_of_valid vP
  have eN : load s N = .ok (wordAt s.mem N) := load_of_valid vN
  by_cases hp : wordAt s.mem P = 0 <;> by_cases hn : wordAt s.mem N = 0
  · simp only [andThen, derefIsZero, derefNonZero, eP, eN, run_bind_ok, run_pure, hp, hn,
      decide_True, if_true]
    exact ⟨_, rfl⟩
  · simp only [andThen, derefIsZero, derefNonZero, eP, eN, run_bind_ok, run_pure, hp, hn,
      decide_True, decide_False, if_true, if_false, ne_eq, not_false_eq_true, Bool.false_eq_true,
      mm_list_prev_set, store_of_valid _ vN4]
    exact ⟨_, rfl⟩
  · simp only [andThen, derefIsZero, derefNonZero, eP, eN, run_bind_ok, run_pure, hp, hn,
      decide_True, decide_False, if_true, if_false, ne_eq, not_false_eq_true, Bool.false_eq_true,
      not_true_eq_false, mm_list_next_set, store_of_valid _ vP8]
    exact ⟨_, rfl⟩
  · simp only [andThen, derefIsZero, derefNonZero, eP, eN, run_bind_ok, run_pure, hp, hn,
      decide_True, decide_False, if_true, if_false, ne_eq, not_false_eq_true, Bool.false_eq_true,
      not_true_eq_false, mm_list_prev_set, mm_list_next_set, store_of_valid _ vN4]
    rw [show store { s with mem := putWord s.mem (N + 4) P } (P + 8) N =
      .ok { s with mem := putWord (putWord s.mem (N + 4) P) (P + 8) N } from
      store_of_valid (s := { s with mem := putWord s.mem (N + 4) P }) N vP8]
    exact ⟨_, rfl⟩

/-- Links of an entry of a well-linked stretch: the `prev_free` link is the
entry before it, or the stretch's predecessor for the first entry; likewise
for `next_free`. -/
theorem Seg_links {s : Heap} {xs : List Int} : ∀ {p n : Int}, Seg s p xs n → ∀ x ∈ xs,
    ((x = xs.headD 0 ∧ wordAt s.mem (x + 4) = p) ∨ wordAt s.mem (x + 4) ∈ xs) ∧
    ((x = lastD xs 0 ∧ wordAt s.mem (x + 8) = n) ∨ wordAt s.mem (x + 8) ∈ xs) := by
  induction xs with
  | nil => intro p n _ x hx; cases hx
  | cons y ys ih =>
    intro p n h x hx
    obtain ⟨h1, h2, h3, h4, h5, h6, h7⟩ := h
    rcases List.mem_cons.mp hx with rfl | hx
    · refine ⟨Or.inl ⟨rfl, h5⟩, ?_⟩
      cases ys with
      | nil => exact Or.inl ⟨rfl, h6⟩
      | cons z zs => right; rw [h6]; simp
    · obtain ⟨g1, g2⟩ := ih h7 x hx
      constructor
      · right
        rcases g1 with ⟨e1, e2⟩ | g1
        · rw [e2]; exact List.mem_cons_self _ _
        · exact List.mem_cons_of_mem _ g1
      · rcases g2 with ⟨e1, e2⟩ | g2
        · left
          refine ⟨?_, e2⟩
          cases ys with
          | nil => cases hx
          | cons z zs => exact e1
        · right; exact List.mem_cons_of_mem _ g2

/-- The first entry of the free list has a null `prev_free` link and the last
one a null `next_free` link. -/
theorem FreeList.end_links {s : Heap} {fl : List Int} (h : FreeList s fl) {b : Int}
    (hb : b ∈ fl) :
    (s.mm_list_headp = b → wordAt s.mem (b + 4) = 0) ∧
    (s.mm_list_tailp = b → wordAt s.mem (b + 8) = 0) := by
  obtain ⟨hh, ht, hseg⟩ := h
  constructor
  · intro e
    cases fl with
    | nil => cases hb
    | cons y ys =>
      simp only [List.headD_cons] at hh
      rw [← e, hh]
      exact hseg.2.2.2.2.1
  · intro e
    have hne : lastD fl 0 ≠ 0 := by
      rw [← ht, e]; exact (Seg_mem hseg hb).1
    obtain ⟨ys, hys⟩ := exists_concat_of_lastD_ne fl 0 hne
    rw [hys, Seg_append] at hseg
    rw [← e, ht]
    exact hseg.2.2.2.2.2.2.1

/-- An entry of the free list that is neither first nor last has two non-null
links, both entries of the list. -/
theorem FreeList.inner_links {s : Heap} {fl : List Int} (h : FreeList s fl) {b : Int}
    (hb : b ∈ fl) :
    (s.mm_list_headp ≠ b → wordAt s.mem (b + 4) ∈ fl) ∧
    (s.mm_list_tailp ≠ b → wordAt s.mem (b + 8) ∈ fl) := by
  obtain ⟨hh, ht, hseg⟩ := h
  obtain ⟨g1, g2⟩ := Seg_links hseg b hb
  constructor
  · intro hne
    rcases g1 with ⟨e, -⟩ | g1
    · exact absurd (hh.trans e.symm) hne
    · exact g1
  · intro hne
    rcases g2 with ⟨e, -⟩ | g2
    · exact absurd (ht.trans e.symm) hne
    · exact g2

/-- On a well-linked free list `mm_list_remove` faults exactly when a link of
the entry is null. -/
theorem mm_list_remove_faults_iff {s : Heap} {fl : List Int} {b : Int} (hreg : Region s)
    (hfl : FreeList s fl) (hb : b ∈ fl) :
    (wordAt s.mem (b + 4) = 0 ∨ wordAt s.mem (b + 8) = 0 →
      mm_list_remove s b = .error .segv) ∧
    (wordAt s.mem (b + 4) ≠ 0 → wordAt s.mem (b + 8) ≠ 0 →
      ∃ t, mm_list_remove s b = .ok t) := by
  refine ⟨mm_list_remove_null hreg.not_valid_zero, fun hp hn => ?_⟩
  obtain ⟨-, hv4, hv8⟩ := (Seg_mem hfl.2.2 hb).2
  obtain ⟨g1, g2⟩ := Seg_links hfl.2.2 b hb
  have mp : wordAt s.mem (b + 4) ∈ fl := g1.elim (fun e => absurd e.2 hp) id
  have mn : wordAt s.mem (b + 8) ∈ fl := g2.elim (fun e => absurd e.2 hn) id
  obtain ⟨-, vP, -, vP8⟩ := Seg_mem hfl.2.2 mp
  obtain ⟨-, vN, vN4, -⟩ := Seg_mem hfl.2.2 mn
  exact mm_list_remove_returns hv4 hv8 vP vN vP8 vN4

/-- In a well-formed heap `mm_list_remove` faults on the first and on the last
entry of the free list. -/
theorem WF.remove_end_faults {s : Heap} {bs : List Block} {fl : List Int} {b : Int}
    (hwf : WF s bs fl) (hb : b ∈ fl) (hend : s.mm_list_headp = b ∨ s.mm_list_tailp = b) :
    mm_list_remove s b = .error .segv := by
  obtain ⟨g1, g2⟩ := hwf.2.2.2.1.end_links hb
  exact mm_list_remove_null hwf.1.not_valid_zero (hend.elim (fun e => Or.inl (g1 e))
    (fun e => Or.inr (g2 e)))

/-- In a well-formed heap `mm_list_remove` returns on an entry that is neither
first nor last: its neighbours are linked to each other, the other entries
keep their order, head and tail stay. -/
theorem WF.remove_inner {s : Heap} {bs : List Block} {fl : List Int} {b : Int}
    (hwf : WF s bs fl) (hb : b ∈ fl) (hh : s.mm_list_headp ≠ b) (ht : s.mm_list_tailp ≠ b) :
    ∃ t l1 p n l2, mm_list_remove s b = .ok t ∧ fl = l1 ++ p :: b :: n :: l2 ∧
      FreeList t (l1 ++ p :: n :: l2) ∧ t = (s.put (n + 4) p).put (p + 8) n := by
  have hfb := hwf.fl_blocks
  obtain ⟨hreg, htl, -, hfl, hnd, -⟩ := hwf
  have hex : ∀ y ∈ fl, ∃ c ∈ bs, c.addr = y :=
    fun y hy => by obtain ⟨d, hd, h1, -⟩ := hfb y hy; exact ⟨d, hd, h1⟩
  obtain ⟨g1, g2⟩ := hfl.inner_links hb
  have hp := (Seg_mem hfl.2.2 (g1 hh)).1
  have hn := (Seg_mem hfl.2.2 (g2 ht)).1
  obtain ⟨t, hrem⟩ := (mm_list_remove_faults_iff hreg hfl hb).2 hp hn
  obtain ⟨l1, p, n, l2, e1, e2, e3⟩ := list_remove_spec hreg hfl hnd
    (Apart_of_tiling htl.2.2.2.1 hex) (header_ne_zero htl.2.2.2.1 hex) hb hrem
  exact ⟨t, l1, p, n, l2, hrem, e1, e3, e2⟩

/-- `place` on the first or the last entry of the free list faults in
`mm_list_remove`. -/
theorem place_end_faults {s : Heap} {bs : List Block} {fl : List Int} {b : Block}
    (hwf : WF s bs fl) (hb : b ∈ bs) (hb0 : b.alloc = 0) (size : Int)
    (hend : s.mm_list_headp = b.addr ∨ s.mm_list_tailp = b.addr) :
    place s b.addr size = .error .segv := by
  have hbfl : b.addr ∈ fl := (hwf.2.2.2.2.2 _).mpr ⟨b, hb, rfl, hb0⟩
  have hv := (Seg_mem hwf.2.2.2.1.2.2 hbfl).2.1
  unfold place
  rw [mm_block_size_of_valid hv, run_bind_ok, hwf.remove_end_faults hbfl hend]
  rfl

/-- The merge path of `mm_realloc` faults in `mm_list_remove` when the free
next block is the first or the last entry of the free list. -/
theorem mm_realloc_merge_end_faults {s : Heap} {pre post : List Block} {b n : Block}
    {fl : List Int} (fuel : Nat) {size : Int} (hwf : WF s (pre ++ b :: n :: post) fl)
    (hn0 : n.alloc = 0) (hs0 : 0 < size)
    (hsmall : b.size < required_block_size (wrap32 size))
    (hbig : required_block_size (wrap32 size) ≤ b.size + n.size)
    (hend : s.mm_list_headp = n.addr ∨ s.mm_list_tailp = n.addr) :
    mm_realloc s fuel (b.addr + 4) size = .error .segv := by
  have hreg := hwf.1
  have htl := hwf.2.1
  have hts := htl.2.2.2.1
  have hbm : b ∈ pre ++ b :: n :: post := by simp
  have hnm : n ∈ pre ++ b :: n :: post := by simp
  have hb := TSeg_mem hts hbm
  have hn := TSeg_mem hts hnm
  have hbb := Tiling_bounds htl hbm
  have hnb := Tiling_bounds htl hnm
  have hparts := TSeg_parts hts
  have hts2 : TSeg s (s.heap_blocks + 8) ((pre ++ [b]) ++ n :: post) := by simpa using hts
  have hadj : n.addr = b.addr + b.size := by
    have := (TSeg_parts hts2).1
    rw [endOf_concat, hparts.1] at this
    exact this.symm
  have hpos := hreg.1
  have hrg := hreg.2.2.2
  have hbrk := hreg.2.1
  have ebs : blockSize s (b.addr + 4 - 4) = b.size := by
    rw [show b.addr + 4 - 4 = b.addr by omega]
    exact blockSize_of_word hb.2.2.2.2.2.1 (by omega) (by omega) hb.2.2.2.1 hb.2.2.2.2.1
  have ens : blockSize s (b.addr + 4 - 4 + b.size) = n.size := by
    rw [show b.addr + 4 - 4 + b.size = n.addr by omega]
    exact blockSize_of_word hn.2.2.2.2.2.1 (by omega) (by omega) hn.2.2.2.1 hn.2.2.2.2.1
  have ena : blockAlloc s (b.addr + 4 - 4 + b.size) = 0 := by
    rw [show b.addr + 4 - 4 + b.size = n.addr by omega, ← hn0]
    exact blockAlloc_of_word hn.2.2.2.2.2.1 hn.2.2.2.1 hn.2.2.2.2.1
  have hw32 : wrap32 (b.size + n.size) = b.size + n.size := by
    simp only [wrap32]; omega
  have hnfl : n.addr ∈ fl := (hwf.2.2.2.2.2 _).mpr ⟨n, hnm, rfl, hn0⟩
  rw [mm_realloc_merge_eq s fuel (b.addr + 4) size (by omega) (by omega)
    ⟨by omega, by omega⟩ (by rw [ebs]; exact ⟨by omega, by omega⟩) (by rw [ebs]; omega)
    (by rw [ebs]; omega) (by rw [ebs, ens, hw32]; exact hbig) (by rw [ebs]; exact ena),
    ebs, show b.addr + 4 - 4 + b.size = n.addr by omega, hwf.remove_end_faults hnfl hend]
  rfl

/-- `free_coalesce` does not return when the next block is free and is the
first or the last entry of the free list: it faults in `mm_list_remove`. -/
theorem free_coalesce_end_faults {s : Heap} {pre post : List Block} {b n : Block}
    {fl : List Int} (hwf : WFx s pre b (n :: post) fl) (hn0 : n.alloc = 0)
    (hend : s.mm_list_headp = n.addr ∨ s.mm_list_tailp = n.addr) :
    ∀ r t, free_coalesce s b.addr ≠ .ok (r, t) := by
  intro r t h
  obtain ⟨hreg, htl, hnaf, hfl, hnd, hiff⟩ := hwf
  have hts := htl.2.2.2.1
  have hparts := TSeg_parts hts
  have hts2 : TSeg s (s.heap_blocks + 8) ((pre ++ [b]) ++ n :: post) := by simpa using hts
  have hadj : n.addr = b.addr + b.size := by
    have := (TSeg_parts hts2).1
    rw [endOf_concat, hparts.1] at this
    exact this.symm
  have hbm := TSeg_mem hts (show b ∈ pre ++ b :: n :: post by simp)
  have hnfl : n.addr ∈ fl := (hiff _).mpr ⟨n, by simp, rfl, hn0⟩
  obtain ⟨g1, g2⟩ := hfl.end_links hnfl
  have hlink : wordAt s.mem (n.addr + 4) = 0 ∨ wordAt s.mem (n.addr + 8) = 0 :=
    hend.elim (fun e => Or.inl (g1 e)) (fun e => Or.inr (g2 e))
  obtain ⟨s2, hs2, -, -, hprog⟩ := free_coalesce_start hreg htl h
  have hrem : mm_list_remove s2 (b.addr + b.size) = .error .segv := by
    rw [← hadj]
    refine mm_list_remove_null (by rw [hs2]; exact hreg.not_valid_zero) ?_
    rw [hs2]
    simp only [put_mem]
    rw [wordAt_putWord_other _ _ _ _ (by omega), wordAt_putWord_other _ _ _ _ (by omega),
      wordAt_putWord_other _ _ _ _ (by omega), wordAt_putWord_other _ _ _ _ (by omega)]
    exact hlink
  have hnext : ¬ headBlockAlloc (n :: post) ≠ 0 := by simp [headBlockAlloc, hn0]
  by_cases hp : lastBlockAlloc pre ≠ 0
  · rw [if_neg (fun hc => hnext hc.2), if_pos ⟨hp, hnext⟩, hrem] at hprog
    cases hprog
  · rw [if_neg (fun hc => hp hc.1), if_neg (fun hc => hp hc.1), if_neg (fun hc => hnext hc.2),
      hrem] at hprog
    cases hprog

/-- Header and footer of a block of a well-formed heap both decode to its size
and flag. -/
theorem WF.block_words {s : Heap} {bs : List Block} {fl : List Int} (h : WF s bs fl)
    {m : Block} (hm : m ∈ bs) :
    blockSize s m.addr = m.size ∧ blockAlloc s m.addr = m.alloc ∧
    sizeOfWord (wordAt s.mem (m.addr + m.size - 4)) = m.size ∧
    allocOfWord (wordAt s.mem (m.addr + m.size - 4)) = m.alloc := by
  have hlt := Tiling_size_lt h.1 h.2.1
  obtain ⟨g1, g2, g3, g4, g5, g6, g7⟩ := TSeg_mem h.2.1.2.2.2.1 hm
  have hsz : m.size < 2147483648 := by omega
  refine ⟨blockSize_of_word g6 (by omega) hsz g4 g5, blockAlloc_of_word g6 g4 g5, ?_, ?_⟩
  · rw [g7]; exact sizeOfWord_pack _ _ (by omega) hsz g4 g5
  · rw [g7]; exact allocOfWord_pack _ _ g4 g5

/-- The block `place` returns, when it returns: marked allocated in header and
footer, with the requested size when the block was split (remainder above
512) and with the whole size of the free block otherwise. -/
theorem place_block {s t : Heap} {pre post : List Block} {b : Block} {fl : List Int}
    {size r : Int} (hwf : WF s (pre ++ b :: post) fl) (hb0 : b.alloc = 0) (hs16 : 16 ≤ size)
    (hs8 : size % 8 = 0) (hle : size ≤ b.size) (h : place s b.addr size = .ok (r, t)) :
    r = (if b.size - size > 1024 then b.addr + (b.size - size) else b.addr) ∧
    blockSize t r = (if b.size - size > 512 then size else b.size) ∧
    blockAlloc t r = 1 ∧
    sizeOfWord (wordAt t.mem (r + blockSize t r - 4)) =
      (if b.size - size > 512 then size else b.size) ∧
    allocOfWord (wordAt t.mem (r + blockSize t r - 4)) = 1 := by
  obtain ⟨-, l1, l2, -, hcase, -⟩ := place_spec hwf hb0 hs16 hs8 hle h
  rcases hcase with ⟨h1, rfl, hw⟩ | ⟨h1, h2, rfl, hw⟩ | ⟨h1, rfl, hw⟩
  · obtain ⟨e1, e2, e3, e4⟩ := hw.block_words
      (m := { addr := b.addr + (b.size - size), size := size, alloc := 1 }) (by simp)
    simp only at e1 e2 e3 e4
    rw [if_pos h1, if_pos (by omega), e1]
    exact ⟨rfl, rfl, e2, e3, e4⟩
  · obtain ⟨e1, e2, e3, e4⟩ := hw.block_words
      (m := { addr := b.addr, size := size, alloc := 1 }) (by simp)
    simp only at e1 e2 e3 e4
    rw [if_neg (by omega), if_pos h1, e1]
    exact ⟨rfl, rfl, e2, e3, e4⟩
  · obtain ⟨e1, e2, e3, e4⟩ := hw.block_words (m := { b with alloc := 1 }) (by simp)
    simp only at e1 e2 e3 e4
    rw [if_neg (by omega), if_neg (by omega), e1]
    exact ⟨rfl, rfl, e2, e3, e4⟩

/-- Blocks of a tiled stretch start at multiples of 8 from its start. -/
theorem TSeg_aligned {s : Heap} {bs : List Block} : ∀ {a : Int}, TSeg s a bs →
    ∀ b ∈ bs, (b.addr - a) % 8 = 0 := by
  induction bs with
  | nil => intro a _ b hb; cases hb
  | cons c cs ih =>
    intro a h b hb
    obtain ⟨h1, h2, h3, h4, h5, h6, h7⟩ := h
    rcases List.mem_cons.mp hb with rfl | hb
    · omega
    · have := ih h7 b hb
      omega

/-- In a well-formed heap every block header sits at an offset congruent to 4
modulo 8 from the first byte of the heap (the alignment word before the
prologue), and every payload at a multiple of 8. -/
theorem WF.aligned {s : Heap} {bs : List Block} {fl : List Int} (h : WF s bs fl) {b : Block}
    (hb : b ∈ bs) :
    (b.addr - (s.heap_blocks - 4)) % 8 = 4 ∧ (b.addr + 4 - (s.heap_blocks - 4)) % 8 = 0 := by
  have := TSeg_aligned h.2.1.2.2.2.1 b hb
  omega

/-- Payload pointer returned by `mm_malloc` or `mm_realloc` on a consistent
heap: a multiple of 8 away from the first byte of the heap; the heap stays
well formed and `heap_blocks` stays. -/
theorem Consistent.result_aligned {s t : Heap} {live : List Int} {fuel : Nat} {q n p : Int}
    (hc : Consistent s live) (hn0 : 0 ≤ n) (hn1 : n < 4294967296)
    (hcall : mm_malloc s fuel n = .ok (p, t) ∨
      ((q = 0 ∨ q ∈ live) ∧ mm_realloc s fuel q n = .ok (p, t)))
    (hp : p ≠ 0) :
    (p - (s.heap_blocks - 4)) % 8 = 0 ∧ t.heap_blocks = s.heap_blocks ∧
    ∃ bs fl, WF t bs fl ∧ ∀ b ∈ bs, (b.addr - (s.heap_blocks - 4)) % 8 = 4 := by
  have key : ∀ {u : Heap} {m : Int}, mm_malloc s fuel m = .ok (p, u) → 0 ≤ m → m < 4294967296 →
      (p - (s.heap_blocks - 4)) % 8 = 0 ∧ u.heap_blocks = s.heap_blocks ∧
      ∃ bs fl, WF u bs fl ∧ ∀ b ∈ bs, (b.addr - (s.heap_blocks - 4)) % 8 = 4 := by
    intro u m h hm0 hm1
    obtain ⟨bs, fl, hwf, -, -⟩ := hc
    by_cases hz : m = 0
    · subst hz
      simp only [mm_malloc, if_true, run_pure, Except.ok.injEq, Prod.mk.injEq] at h
      exact absurd h.1.symm hp
    obtain ⟨-, bs2, fl2, b, hwf2, hb, hba, -, -, -, -, -, -, ehb⟩ :=
      mm_malloc_spec hwf (by omega) hm1 h
    have ha := hwf2.aligned hb
    rw [ehb] at ha
    refine ⟨by omega, ehb, bs2, fl2, hwf2, fun c hc => ?_⟩
    have := (hwf2.aligned hc).1
    rw [ehb] at this
    exact this
  rcases hcall with h | ⟨hq, h⟩
  · exact key h hn0 hn1
  · by_cases hz : q = 0
    · subst hz
      simp only [mm_realloc, if_true] at h
      exact key h hn0 hn1
    have h0 := hc.not_mem_zero
    have hql : q ∈ live := hq.resolve_left hz
    by_cases hnz : n = 0
    · subst hnz
      simp only [mm_realloc, if_neg hz, if_true] at h
      rw [bind_eq_ok] at h
      obtain ⟨u, -, h⟩ := h
      simp only [run_pure, Except.ok.injEq, Prod.mk.injEq] at h
      exact absurd h.1.symm hp
    obtain ⟨bs, fl, hwf, -, hl⟩ := hc
    obtain ⟨b, hb, hba, hb1⟩ := hl q hql
    obtain ⟨bs2, fl2, m, hwf2, hm, hma, -, -, -, -, -, -, -, -, ehb⟩ :=
      mm_realloc_spec hwf hb hb1 (by omega) (by omega) hn1 h
    have ha := hwf2.aligned hm
    rw [ehb] at ha
    refine ⟨by omega, ehb, bs2, fl2, hwf2, fun c hc => ?_⟩
    have := (hwf2.aligned hc).1
    rw [ehb] at this
    exact this

/-- Along every run from a consistent state `heap_blocks` keeps its value. -/
theorem ReachFrom.heap_blocks_eq {s0 s : Heap} {live0 live : List Int}
    (h0 : Consistent s0 live0) (h : ReachFrom s0 live0 s live) :
    s.heap_blocks = s0.heap_blocks := by
  induction h with
  | start => rfl
  | malloc s t live fuel n p hr hn0 hn1 h ih =>
    by_cases hp : p = 0
    · by_cases hz : n = 0
      · subst hz
        simp only [mm_malloc, if_true, run_pure, Except.ok.injEq, Prod.mk.injEq] at h
        rw [← h.2]; exact ih
      · obtain ⟨bs, fl, hwf, -, -⟩ := ReachFrom.keeps_consistent h0 hr
        obtain ⟨-, bs2, fl2, b, hwf2, hb, hba, -, -, -, -, -, -, ehb⟩ :=
          mm_malloc_spec hwf (by omega) hn1 h
        rw [ehb]; exact ih
    · rw [(Consistent.result_aligned (q := 0) (ReachFrom.keeps_consistent h0 hr) hn0 hn1
        (Or.inl h) hp).2.1]
      exact ih
  | free s t live p hr hp h ih =>
    have hc := ReachFrom.keeps_consistent h0 hr
    by_cases hz : p = 0
    · subst hz
      simp only [mm_free, if_true, run_pure, Except.ok.injEq] at h
      rw [← h]; exact ih
    · obtain ⟨bs, fl, hwf, -, hl⟩ := hc
      obtain ⟨b, hb, hba, hb1⟩ := hl p (hp.resolve_left hz)
      obtain ⟨bs2, fl2, -, hsh, -⟩ := mm_free_spec hwf hb hb1 (by omega) h
      rw [hsh.2.2.2]; exact ih
  | realloc s t live fuel p n q hr hp hn0 hn1 h ih =>
    have hc := ReachFrom.keeps_consistent h0 hr
    by_cases hq : q = 0
    swap
    · rw [(Consistent.result_aligned hc hn0 hn1 (Or.inr ⟨hp, h⟩) hq).2.1]
      exact ih
    by_cases hz : p = 0
    · subst hz
      simp only [mm_realloc, if_true] at h
      by_cases hnz : n = 0
      · subst hnz
        simp only [mm_malloc, if_true, run_pure, Except.ok.injEq, Prod.mk.injEq] at h
        rw [← h.2]; exact ih
      · obtain ⟨bs, fl, hwf, -, -⟩ := hc
        obtain ⟨-, bs2, fl2, b, hwf2, hb, hba, -, -, -, -, -, -, ehb⟩ :=
          mm_malloc_spec hwf (by omega) hn1 h
        rw [ehb]; exact ih
    · obtain ⟨bs, fl, hwf, -, hl⟩ := hc
      obtain ⟨b, hb, hba, hb1⟩ := hl p (hp.resolve_left hz)
      by_cases hnz : n = 0
      · subst hnz
        simp only [mm_realloc, if_neg hz, if_true] at h
        rw [bind_eq_ok] at h
        obtain ⟨u, hfree, h⟩ := h
        simp only [run_pure, Except.ok.injEq, Prod.mk.injEq] at h
        obtain ⟨bs2, fl2, -, hsh, -⟩ := mm_free_spec hwf hb hb1 (by omega) hfree
        rw [← h.2, hsh.2.2.2]; exact ih
      · obtain ⟨bs2, fl2, m, hwf2, hm, hma, -, -, -, -, -, -, -, -, ehb⟩ :=
          mm_realloc_spec hwf hb hb1 (by omega) (by omega) hn1 h
        rw [ehb]; exact ih

/-- A successful `mm_init` leaves a consistent heap without live pointers;
the first byte it obtained from `mem_sbrk` lies 4 bytes below `heap_blocks`. -/
theorem mm_init_consistent {raw s : Heap} (hreg : Region raw) (h : mm_init raw = .ok (0, s)) :
    Consistent s [] ∧ s.heap_blocks - 4 = raw.mem_brk := by
  obtain ⟨hwf, hb, -⟩ := mm_init_spec hreg h
  exact ⟨⟨_, _, hwf, List.nodup_nil, fun p hp => by simp at hp⟩, by omega⟩

/-! ## The run on the demonstration heap -/

/-- A run whose pointer is known returns it together with its end state. -/
theorem eq_ok_of_okPtr {r : Run (Int × Heap)} {p : Int} (d : Heap) (h : okPtr r = some p) :
    r = .ok (p, stateAfter d r) := by
  match r, h with
  | .ok (q, t), h =>
    simp only [okPtr, Option.some.injEq] at h
    subst h
    rfl

/-- A call of `mm_free` that returns ends in its end state. -/
theorem eq_ok_of_returns {r : Run Heap} (d : Heap) (h : returns r = true) :
    r = .ok (freedState d r) := by
  match r, h with
  | .ok t, _ => rfl

/-- Step 1: `mm_realloc(5760, 100)` on `demoHeap` takes the fallback path and
returns 5640. -/
theorem demoStep1_eq : mm_realloc demoHeap 10 5760 100 = .ok (5640, demoStep1) :=
  eq_ok_of_okPtr demoHeap (by decide!)

/-- Step 2: `mm_malloc(100)` returns 5528. -/
theorem demoStep2_eq : mm_malloc demoStep1 10 100 = .ok (5528, demoStep2) :=
  eq_ok_of_okPtr demoStep1 (by decide!)

/-- Step 3: `mm_malloc(2000)` extends the heap and returns 7896. -/
theorem demoStep3_eq : mm_malloc demoStep2 10 2000 = .ok (7896, demoStep3) :=
  eq_ok_of_okPtr demoStep2 (by decide!)

/-- Step 4: `mm_free(5528)` returns. -/
theorem demoStep4_eq : mm_free demoStep3 5528 = .ok demoStep4 :=
  eq_ok_of_returns demoStep3 (by decide!)

/-- Step 5: `mm_realloc(4144, 100)` merges with the next block and returns
4144. -/
theorem demoStep5_eq : mm_realloc demoStep4 10 4144 100 = .ok (4144, demoStep5) :=
  eq_ok_of_okPtr demoStep4 (by decide!)

/-- The first four steps form a run from `demoHeap`; 7896, 5640 and 4144 are
live after them. -/
theorem demoStep4_reach : ReachFrom demoHeap [4144, 5760] demoStep4 [7896, 5640, 4144] := by
  have r1 : ReachFrom demoHeap [4144, 5760] demoStep1 [5640, 4144] :=
    ReachFrom.realloc demoHeap demoStep1 [4144, 5760] 10 5760 100 5640 ReachFrom.start
      (by decide) (by decide) (by decide) demoStep1_eq
  have r2 : ReachFrom demoHeap [4144, 5760] demoStep2 [5528, 5640, 4144] :=
    ReachFrom.malloc demoStep1 demoStep2 [5640, 4144] 10 100 5528 r1 (by decide) (by decide)
      demoStep2_eq
  have r3 : ReachFrom demoHeap [4144, 5760] demoStep3 [7896, 5528, 5640, 4144] :=
    ReachFrom.malloc demoStep2 demoStep3 [5528, 5640, 4144] 10 2000 7896 r2 (by decide)
      (by decide) demoStep3_eq
  exact ReachFrom.free demoStep3 demoStep4 [7896, 5528, 5640, 4144] 5528 r3 (by decide)
    demoStep4_eq

/-- The five steps form a run from `demoHeap`; 4144, 7896 and 5640 are live
after them. -/
theorem demoStep5_reach : ReachFrom demoHeap [4144, 5760] demoStep5 [4144, 7896, 5640] :=
  ReachFrom.realloc demoStep4 demoStep5 [7896, 5640, 4144] 10 4144 100 4144 demoStep4_reach
    (by decide) (by decide) (by decide) demoStep5_eq

/-- The heap the five steps leave: the address-order scan finds the free block
at 4108, the merged allocated block at 4140, the block of step 1 at 5636, a
free block at 5756 and the block of step 3 at 7892, and ends at 9900. -/
theorem demoStep5_heapWalk :
    heapWalk demoStep5 6 (demoStep5.heap_blocks + blockSize demoStep5 demoStep5.heap_blocks) =
      some ([⟨4108, 32, 0⟩, ⟨4140, 1496, 1⟩, ⟨5636, 120, 1⟩, ⟨5756, 2136, 0⟩,
        ⟨7892, 2008, 1⟩], 9900) := by decide!

/-- The free list the five steps leave. -/
theorem demoStep5_listWalk :
    listWalk demoStep5 3 demoStep5.mm_list_headp = some [4108, 5756] ∧
      demoStep5.mem_brk = 9904 := by decide!

/-- On `demoHeap`, `mm_malloc(100)` returns 5648. -/
theorem demoFresh_eq : mm_malloc demoHeap 10 100 = .ok (5648, demoFresh) :=
  eq_ok_of_okPtr demoHeap (by decide!)

/-- After `mm_malloc(100)` and the pattern written to its payload,
`mm_realloc(5648, 104)` finds the block large enough and returns 5648. -/
theorem demoFresh_fits :
    okPtr (mm_realloc (writeBytes demoFresh 5648 100 demoPattern) 10 5648 104) = some 5648 := by
  decide!

/-- After `mm_malloc(100)` and the pattern written to its payload,
`mm_realloc(5648, 2000)` takes the fallback path (the next block is
allocated), extends the heap and returns 7888. -/
theorem demoFresh_fallback :
    okPtr (mm_realloc (writeBytes demoFresh 5648 100 demoPattern) 10 5648 2000) = some 7888 := by
  decide!

/-- With the pattern written to the 8 payload bytes of the block at 4140 of
`demoHeap`, `mm_realloc(4144, 100)` merges the block with the free block after
it and returns 4144. -/
theorem demoHeap_merge :
    okPtr (mm_realloc (writeBytes demoHeap 4144 8 demoPattern) 10 4144 100) = some 4144 := by
  decide!

/-- With the pattern written to the 8 payload bytes of the block at 5756 of
`demoHeap`, `mm_realloc(5760, 100)` takes the fallback path and returns 5640. -/
theorem demoHeap_fallback :
    okPtr (mm_realloc (writeBytes demoHeap 5760 8 demoPattern) 10 5760 100) = some 5640 := by
  decide!

/-- After that merge the header at 4140 holds the merged size 1616 with the
allocated bit. -/
theorem demoHeap_merge_header :
    wordAt (stateAfter demoHeap
      (mm_realloc (writeBytes demoHeap 4144 8 demoPattern) 10 4144 100)).mem 4140 = 1616 + 1 := by
  decide!

/-- The heap the first four steps leave: free and allocated blocks alternate
from 4108 to the epilogue at 9900; the free block at 4156 is the merge of the
block freed in step 4 with its free predecessor. -/
theorem demoStep4_heapWalk :
    heapWalk demoStep4 7 (demoStep4.heap_blocks + blockSize demoStep4 demoStep4.heap_blocks) =
      some ([⟨4108, 32, 0⟩, ⟨4140, 16, 1⟩, ⟨4156, 1480, 0⟩, ⟨5636, 120, 1⟩, ⟨5756, 2136, 0⟩,
        ⟨7892, 2008, 1⟩], 9900) := by decide!

/-! ## The properties C1 to C10 -/

/-- C1: the specification has `mm_malloc(n)`, `n > 0`, return null and change
nothing when no free-list entry is large enough and `mem_sbrk` fails.  The code
does not: for every such state and request, `mm_malloc` passes the null result
of `extend_heap` to `place`, which reads the header at address 0, and the run
faults instead of returning. -/
theorem mm_malloc_growth_failure_faults (s : Heap) (fl : List Int) (fuel : Nat) (n : Int)
    (hn : n ≠ 0) (hreg : Region s) (hfl : FreeList s fl) (hfuel : fl.length < fuel)
    (hnofit : ∀ b ∈ fl, blockSize s b < required_block_size (wrap32 n))
    (hgrow : mem_sbrk s (max 4096 (required_block_size (wrap32 n))) = none) :
    mm_malloc s fuel n = .error .segv :=
  mm_malloc_no_room hn hreg hfl hfuel hnofit hgrow

/-- Witness for C1: after `mm_init` on a region that cannot grow any further
the only free block has 5000 bytes; a request of 5000 bytes needs 5008. -/
theorem mm_malloc_growth_failure_faults_witness :
    mm_malloc (afterInit rawHeap) 10 5000 = .error .segv :=
  mm_malloc_growth_failure_faults (afterInit rawHeap) [4108] 10 5000 (by decide)
    afterInit_wf.1 afterInit_wf.2.2.2.1 (by decide)
    (by intro b hb; rw [List.mem_singleton] at hb; subst hb; decide) rfl

/-- C2: on a well-formed heap, when `mm_malloc(n)` with `n > 0` returns a
pointer `p`, then `p` is not null, the header at `p - 4` is marked allocated
and records a size of at least the smallest multiple of 8 that is `≥ n + 8`,
and the `n` payload bytes from `p` on lie inside that block, which lies below
the epilogue. -/
theorem mm_malloc_returns_allocated_block (s t : Heap) (bs : List Block) (fl : List Int)
    (fuel : Nat) (n p : Int) (hwf : WF s bs fl) (hn0 : 0 < n) (hn1 : n < 4294967296)
    (h : mm_malloc s fuel n = .ok (p, t)) :
    p ≠ 0 ∧ t.valid (p - 4) ∧ blockAlloc t (p - 4) = 1 ∧
    roundUp8 (n + 8) ≤ blockSize t (p - 4) ∧
    p + n ≤ (p - 4) + blockSize t (p - 4) - 4 ∧
    (p - 4) + blockSize t (p - 4) + 4 ≤ t.mem_brk :=
  mm_malloc_block_of_spec hwf hn0 hn1 h

/-- Witness for C2: `mm_malloc(100)` on `demoHeap` returns 5648, the payload of
an allocated block of 112 bytes. -/
theorem mm_malloc_returns_allocated_block_witness :
    ∃ t, mm_malloc demoHeap 10 100 = .ok (5648, t) ∧
      (5648 : Int) ≠ 0 ∧ t.valid (5648 - 4) ∧ blockAlloc t (5648 - 4) = 1 ∧
      roundUp8 (100 + 8) ≤ blockSize t (5648 - 4) ∧
      5648 + 100 ≤ (5648 - 4) + blockSize t (5648 - 4) - 4 ∧
      (5648 - 4) + blockSize t (5648 - 4) + 4 ≤ t.mem_brk := by
  obtain ⟨t, ht⟩ := ok_of_okPtr (show okPtr (mm_malloc demoHeap 10 100) = some 5648 by rfl)
  exact ⟨t, ht, mm_malloc_returns_allocated_block demoHeap t demoBlocks demoFree 10 100 5648
    demoHeap_wf (by decide) (by decide) ht⟩

/-- C3 (P1, tiling): in every state reached from a consistent heap (in
particular from the heap a successful `mm_init` leaves, `mm_init_consistent`) by
calls of `mm_malloc`, `mm_free` (of a live pointer) and `mm_realloc` that
return, the walk from the prologue that adds each header size visits a list of
blocks and reaches the epilogue, the last word of the region; the sizes of the
visited blocks sum to the bytes between prologue and epilogue, and the blocks
tile that range (each starts where the previous one ends). -/
theorem reachable_heap_is_tiled (s0 s : Heap) (live0 live : List Int)
    (h0 : Consistent s0 live0) (hr : ReachFrom s0 live0 s live) :
    ∃ bs, heapWalk s (bs.length + 1) (s.heap_blocks + blockSize s s.heap_blocks) =
        some (bs, s.mem_brk - 4) ∧
      blockSize s (s.mem_brk - 4) = 0 ∧ blockAlloc s (s.mem_brk - 4) = 1 ∧
      (bs.map Block.size).sum = s.mem_brk - 4 - (s.heap_blocks + 8) ∧
      Tiling s bs := by
  obtain ⟨bs, fl, hwf, -⟩ := ReachFrom.keeps_consistent h0 hr
  obtain ⟨h8, hw, ha, hsum, -⟩ := hwf.walk
  refine ⟨bs, hw, ?_, ha, hsum, hwf.2.1⟩
  obtain ⟨-, -, -, -, t5, t6⟩ := hwf.2.1
  rw [show endOf (s.heap_blocks + 8) bs = s.mem_brk - 4 by omega] at t6
  exact @blockSize_of_word _ _ 0 1 t6 (by omega) (by omega) (by omega) (Or.inr rfl)

/-- Witness for C3: the heap after the five calls on `demoHeap`
(`mm_realloc(5760, 100)` through the fallback path, `mm_malloc(100)` with a
split, `mm_malloc(2000)` with heap growth, `mm_free(5528)` with a merge,
`mm_realloc(4144, 100)` through the merge path), whose scan finds five blocks
from 4108 to the epilogue at 9900. -/
theorem reachable_heap_is_tiled_witness :
    (mm_realloc demoHeap 10 5760 100 = .ok (5640, demoStep1) ∧
      mm_malloc demoStep1 10 100 = .ok (5528, demoStep2) ∧
      mm_malloc demoStep2 10 2000 = .ok (7896, demoStep3) ∧
      mm_free demoStep3 5528 = .ok demoStep4 ∧
      mm_realloc demoStep4 10 4144 100 = .ok (4144, demoStep5)) ∧
    heapWalk demoStep5 6 (demoStep5.heap_blocks + blockSize demoStep5 demoStep5.heap_blocks) =
      some ([⟨4108, 32, 0⟩, ⟨4140, 1496, 1⟩, ⟨5636, 120, 1⟩, ⟨5756, 2136, 0⟩,
        ⟨7892, 2008, 1⟩], 9900) ∧
    ∃ bs, heapWalk demoStep5 (bs.length + 1)
        (demoStep5.heap_blocks + blockSize demoStep5 demoStep5.heap_blocks) =
          some (bs, demoStep5.mem_brk - 4) ∧
      blockSize demoStep5 (demoStep5.mem_brk - 4) = 0 ∧
      blockAlloc demoStep5 (demoStep5.mem_brk - 4) = 1 ∧
      (bs.map Block.size).sum = demoStep5.mem_brk - 4 - (demoStep5.heap_blocks + 8) ∧
      Tiling demoStep5 bs :=
  ⟨⟨demoStep1_eq, demoStep2_eq, demoStep3_eq, demoStep4_eq, demoStep5_eq⟩, demoStep5_heapWalk,
    reachable_heap_is_tiled demoHeap demoStep5 [4144, 5760] [4144, 7896, 5640]
      demoHeap_consistent demoStep5_reach⟩

/-- C4 (P2, no-adjacent-free): in every state reached from a consistent heap
(in particular from the heap a successful `mm_init` leaves) by calls of
`mm_malloc`, `mm_free` (of a live pointer) and `mm_realloc` that return, no two
consecutive blocks of the address-order scan are both free. -/
theorem reachable_heap_no_adjacent_free (s0 s : Heap) (live0 live : List Int)
    (h0 : Consistent s0 live0) (hr : ReachFrom s0 live0 s live) :
    ∃ bs, heapWalk s (bs.length + 1) (s.heap_blocks + blockSize s s.heap_blocks) =
        some (bs, s.mem_brk - 4) ∧
      NoAdjFree bs := by
  obtain ⟨bs, fl, hwf, -⟩ := ReachFrom.keeps_consistent h0 hr
  exact ⟨bs, hwf.walk.2.1, hwf.2.2.1⟩

/-- Witness for C4: the heap after the first four calls of the run on
`demoHeap`, the last of which, `mm_free(5528)`, frees a block that follows a
free block and merges the two; the scan then finds free and allocated
blocks in alternation. -/
theorem reachable_heap_no_adjacent_free_witness :
    (mm_realloc demoHeap 10 5760 100 = .ok (5640, demoStep1) ∧
      mm_malloc demoStep1 10 100 = .ok (5528, demoStep2) ∧
      mm_malloc demoStep2 10 2000 = .ok (7896, demoStep3) ∧
      mm_free demoStep3 5528 = .ok demoStep4) ∧
    heapWalk demoStep4 7 (demoStep4.heap_blocks + blockSize demoStep4 demoStep4.heap_blocks) =
      some ([⟨4108, 32, 0⟩, ⟨4140, 16, 1⟩, ⟨4156, 1480, 0⟩, ⟨5636, 120, 1⟩, ⟨5756, 2136, 0⟩,
        ⟨7892, 2008, 1⟩], 9900) ∧
    ∃ bs, heapWalk demoStep4 (bs.length + 1)
        (demoStep4.heap_blocks + blockSize demoStep4 demoStep4.heap_blocks) =
          some (bs, demoStep4.mem_brk - 4) ∧
      NoAdjFree bs :=
  ⟨⟨demoStep1_eq, demoStep2_eq, demoStep3_eq, demoStep4_eq⟩, demoStep4_heapWalk,
    reachable_heap_no_adjacent_free demoHeap demoStep4 [4144, 5760] [7896, 5640, 4144]
      demoHeap_consistent demoStep4_reach⟩

/-- C5 (P3, free-list fidelity): in every state reached from a consistent heap
(in particular from the heap a successful `mm_init` leaves) by calls of
`mm_malloc`, `mm_free` (of a live pointer) and `mm_realloc` that return, the
entries met by traversing the free list from `mm_list_headp` through the next
links are, each exactly once, the addresses of the blocks that the
address-order scan finds marked free. -/
theorem reachable_free_list_fidelity (s0 s : Heap) (live0 live : List Int)
    (h0 : Consistent s0 live0) (hr : ReachFrom s0 live0 s live) :
    ∃ bs fl, heapWalk s (bs.length + 1) (s.heap_blocks + blockSize s s.heap_blocks) =
        some (bs, s.mem_brk - 4) ∧
      listWalk s (fl.length + 1) s.mm_list_headp = some fl ∧ fl.Nodup ∧
      ∀ a, a ∈ fl ↔ ∃ b ∈ bs, b.addr = a ∧ b.alloc = 0 := by
  obtain ⟨bs, fl, hwf, -⟩ := ReachFrom.keeps_consistent h0 hr
  exact ⟨bs, fl, hwf.walk.2.1, hwf.walk.2.2.2.2, hwf.2.2.2.2.1, hwf.2.2.2.2.2⟩

/-- Witness for C5: the heap after the five calls on `demoHeap`, whose free
list holds 4108 and 5756, the two free blocks of the scan. -/
theorem reachable_free_list_fidelity_witness :
    ReachFrom demoHeap [4144, 5760] demoStep5 [4144, 7896, 5640] ∧
    (listWalk demoStep5 3 demoStep5.mm_list_headp = some [4108, 5756] ∧
      demoStep5.mem_brk = 9904) ∧
    ∃ bs fl, heapWalk demoStep5 (bs.length + 1)
        (demoStep5.heap_blocks + blockSize demoStep5 demoStep5.heap_blocks) =
          some (bs, demoStep5.mem_brk - 4) ∧
      listWalk demoStep5 (fl.length + 1) demoStep5.mm_list_headp = some fl ∧
      fl.Nodup ∧ ∀ a, a ∈ fl ↔ ∃ b ∈ bs, b.addr = a ∧ b.alloc = 0 :=
  ⟨demoStep5_reach, demoStep5_listWalk,
    reachable_free_list_fidelity demoHeap demoStep5 [4144, 5760] [4144, 7896, 5640]
      demoHeap_consistent demoStep5_reach⟩

/-- C6: the specification has `mm_malloc(n)` followed by `mm_free` restore the
free-block structure of an idle heap.  The code never gets that far: on every
well-formed heap without an allocated block (such as the one right after
`mm_init`) and for every `n > 0`, `mm_malloc(n)` does not return; the block it
places is the only free-list entry, and `mm_list_remove` reads through the null
links of that entry. -/
theorem mm_malloc_on_idle_heap_never_returns (s : Heap) (bs : List Block) (fl : List Int)
    (fuel : Nat) (n : Int) (hwf : WF s bs fl) (hidle : ∀ b ∈ bs, b.alloc = 0) (hn0 : 0 < n) :
    ¬ ∃ p t, mm_malloc s fuel n = .ok (p, t) :=
  fun ⟨p, t, h⟩ => mm_malloc_idle hwf hidle hn0 p t h

/-- Witness for C6: `mm_malloc(100)` right after `mm_init` on `rawHeap`; the
run stops with a fault. -/
theorem mm_malloc_on_idle_heap_never_returns_witness :
    (¬ ∃ p t, mm_malloc (afterInit rawHeap) 10 100 = .ok (p, t)) ∧
    mm_malloc (afterInit rawHeap) 10 100 = .error .segv :=
  ⟨mm_malloc_on_idle_heap_never_returns (afterInit rawHeap)
    [{ addr := 4108, size := 5000, alloc := 0 }] [4108] 10 100 afterInit_wf (by decide)
    (by decide), rfl⟩

/-- C7: the specification has the fallback path of `mm_realloc` never copy more
than the payload capacity of the old block.  The code always does: whenever the
call takes the fallback path (non-null `ptr`, non-zero `size`, current block
smaller than the required size, merge not taken), it runs `mm_malloc`, then
`memcpy` of `required_size - 8` bytes, then `mm_free`, and that copy length
exceeds `block_size(old block) - 8`. -/
theorem mm_realloc_fallback_copies_past_block (s : Heap) (fuel : Nat) (ptr size : Int)
    (hptr : ptr ≠ 0) (hsize : size ≠ 0)
    (hhdr : s.valid (ptr - 4))
    (hnext : s.valid (ptr - 4 + blockSize s (ptr - 4)))
    (hsmall : ¬ blockSize s (ptr - 4) ≥ required_block_size (wrap32 size))
    (hnomerge : ¬ (wrap32 (blockSize s (ptr - 4) + blockSize s (ptr - 4 + blockSize s (ptr - 4)))
        ≥ required_block_size (wrap32 size)
      ∧ blockAlloc s (ptr - 4 + blockSize s (ptr - 4)) = 0)) :
    mm_realloc s fuel ptr size =
      (do
        let (q, t) ← mm_malloc s fuel (toU32 (required_block_size (wrap32 size)))
        let t ← memcpy t q ptr (toU32 (num_bytes (required_block_size (wrap32 size))))
        let t ← mm_free t ptr
        pure (q, t)) ∧
    blockSize s (ptr - 4) - 8 < toU32 (num_bytes (required_block_size (wrap32 size))) :=
  ⟨mm_realloc_fallback_eq s fuel ptr size hptr hsize hhdr hnext hsmall hnomerge,
    copy_length_exceeds_capacity s ptr size hsmall⟩

/-- Witness for C7: `mm_realloc(5760, 48)` on `demoHeap` takes the fallback
path (the block at 5756 has 16 bytes, its free neighbour 32, and 56 are
required): it copies 48 bytes out of a payload that has room for 8. -/
theorem mm_realloc_fallback_copies_past_block_witness :
    mm_realloc demoHeap 10 5760 48 =
      (do
        let (q, t) ← mm_malloc demoHeap 10 56
        let t ← memcpy t q 5760 48
        let t ← mm_free t 5760
        pure (q, t)) ∧
    blockSize demoHeap (5760 - 4) - 8 < 48 :=
  mm_realloc_fallback_copies_past_block demoHeap 10 5760 48 (by decide) (by decide) (by decide)
    (by decide) (by decide) (by decide)

/-- C8 (P5, payload preservation): on a well-formed heap, for a payload
pointer `p` with room for `n1` bytes (the pointer `mm_malloc(n1)` has just
returned, or the payload of any allocated block of at least `n1 + 8` bytes),
after writing a byte pattern into the `n1` payload bytes at `p`, a call
`q = mm_realloc(p, n2)` that returns, with `n1, n2 > 0`, yields a non-null `q`
whose first `min(n1, n2)` payload bytes are the first `min(n1, n2)` bytes of
the pattern, whichever path `mm_realloc` takes. -/
theorem mm_realloc_preserves_payload (s t : Heap) (fuel : Nat) (n1 n2 p q : Int)
    (pat : Int → Int) (h1 : 0 < n1) (h2 : 0 < n2) (h2b : n2 < 4294967296)
    (hp : (∃ s0 bs0 fl0 fuel0, WF s0 bs0 fl0 ∧ n1 < 4294967296 ∧
        mm_malloc s0 fuel0 n1 = .ok (p, s)) ∨
      (∃ bs fl m, WF s bs fl ∧ m ∈ bs ∧ m.alloc = 1 ∧ p = m.addr + 4 ∧ n1 + 8 ≤ m.size))
    (hr : mm_realloc (writeBytes s p n1 pat) fuel p n2 = .ok (q, t)) :
    q ≠ 0 ∧ ∀ i, 0 ≤ i → i < min n1 n2 → byteAt t.mem (q + i) = pat i % 256 := by
  have key : ∃ bs fl m, WF s bs fl ∧ m ∈ bs ∧ m.alloc = 1 ∧ p = m.addr + 4 ∧
      n1 + 8 ≤ m.size := by
    rcases hp with ⟨s0, bs0, fl0, fuel0, hwf, h1b, hm⟩ | hp
    · obtain ⟨hlt, bs2, fl2, m, hwf1, hmm, hma, hm1, hmsz, -⟩ := mm_malloc_spec hwf h1 h1b hm
      exact ⟨bs2, fl2, m, hwf1, hmm, hm1, by omega, by omega⟩
    · exact hp
  obtain ⟨bs, fl, m, hwf, hmm, hm1, hpm, hcap⟩ := key
  obtain ⟨hq, hb⟩ := mm_realloc_payload hwf hmm hm1 hpm hcap h2 h2b hr
  exact ⟨hq, fun i hi0 hi1 => hb i hi0 (lt_of_lt_of_le hi1 (min_le_left _ _))⟩

/-- Witness for C8, one call for each path of `mm_realloc`, the pattern
`1, 2, 3, ...` written to the payload before the call.  After
`mm_malloc(100) = 5648` on `demoHeap`: `mm_realloc(5648, 104)` finds the block
large enough and returns 5648; `mm_realloc(5648, 2000)` takes the fallback
path, extends the heap and returns 7888.  On `demoHeap` itself:
`mm_realloc(4144, 100)` merges the block at 4140 with the free block after it
(the header at 4140 then holds 1616 with the allocated bit) and returns 4144;
`mm_realloc(5760, 100)` takes the fallback path and returns 5640. -/
theorem mm_realloc_preserves_payload_witness :
    mm_malloc demoHeap 10 100 = .ok (5648, demoFresh) ∧
    (∃ t, mm_realloc (writeBytes demoFresh 5648 100 demoPattern) 10 5648 104 = .ok (5648, t) ∧
      ((5648 : Int) ≠ 0 ∧
        ∀ i, 0 ≤ i → i < min 100 104 → byteAt t.mem (5648 + i) = demoPattern i % 256)) ∧
    (∃ t, mm_realloc (writeBytes demoFresh 5648 100 demoPattern) 10 5648 2000 = .ok (7888, t) ∧
      ((7888 : Int) ≠ 0 ∧
        ∀ i, 0 ≤ i → i < min 100 2000 → byteAt t.mem (7888 + i) = demoPattern i % 256)) ∧
    (∃ t, mm_realloc (writeBytes demoHeap 4144 8 demoPattern) 10 4144 100 = .ok (4144, t) ∧
      wordAt t.mem 4140 = 1616 + 1 ∧
      ((4144 : Int) ≠ 0 ∧
        ∀ i, 0 ≤ i → i < min 8 100 → byteAt t.mem (4144 + i) = demoPattern i % 256)) ∧
    (∃ t, mm_realloc (writeBytes demoHeap 5760 8 demoPattern) 10 5760 100 = .ok (5640, t) ∧
      ((5640 : Int) ≠ 0 ∧
        ∀ i, 0 ≤ i → i < min 8 100 → byteAt t.mem (5640 + i) = demoPattern i % 256)) :=
  ⟨demoFresh_eq,
    ⟨_, eq_ok_of_okPtr demoHeap demoFresh_fits,
      mm_realloc_preserves_payload demoFresh _ 10 100 104 5648 5648 demoPattern (by decide)
        (by decide) (by decide)
        (Or.inl ⟨demoHeap, demoBlocks, demoFree, 10, demoHeap_wf, by decide, demoFresh_eq⟩)
        (eq_ok_of_okPtr demoHeap demoFresh_fits)⟩,
    ⟨_, eq_ok_of_okPtr demoHeap demoFresh_fallback,
      mm_realloc_preserves_payload demoFresh _ 10 100 2000 5648 7888 demoPattern (by decide)
        (by decide) (by decide)
        (Or.inl ⟨demoHeap, demoBlocks, demoFree, 10, demoHeap_wf, by decide, demoFresh_eq⟩)
        (eq_ok_of_okPtr demoHeap demoFresh_fallback)⟩,
    ⟨_, eq_ok_of_okPtr demoHeap demoHeap_merge, demoHeap_merge_header,
      mm_realloc_preserves_payload demoHeap _ 10 8 100 4144 4144 demoPattern (by decide)
        (by decide) (by decide)
        (Or.inr ⟨demoBlocks, demoFree, ⟨4140, 16, 1⟩, demoHeap_wf, by decide, rfl, by decide,
          by decide⟩)
        (eq_ok_of_okPtr demoHeap demoHeap_merge)⟩,
    ⟨_, eq_ok_of_okPtr demoHeap demoHeap_fallback,
      mm_realloc_preserves_payload demoHeap _ 10 8 100 5760 5640 demoPattern (by decide)
        (by decide) (by decide)
        (Or.inr ⟨demoBlocks, demoFree, ⟨5756, 16, 1⟩, demoHeap_wf, by decide, rfl, by decide,
          by decide⟩)
        (eq_ok_of_okPtr demoHeap demoHeap_fallback)⟩⟩

/-- C9: on a well-formed free list `find_fit` returns the first entry in scan
order (head to tail for sizes above 1024, tail to head otherwise) whose block
size is at least the requested size; the entry it returns is never smaller
than the request, and it returns null exactly when no entry is large enough. -/
theorem find_fit_first_fit (s : Heap) (fl : List Int) (size : Int) (fuel : Nat)
    (hwf : FreeList s fl) (hfuel : fl.length < fuel) :
    find_fit s fuel size = .ok (firstFit s fl size) ∧
    (firstFit s fl size ≠ 0 → firstFit s fl size ∈ fl ∧ blockSize s (firstFit s fl size) ≥ size) ∧
    (firstFit s fl size = 0 ↔ ∀ b ∈ fl, blockSize s b < size) :=
  find_fit_spec s fl size fuel hwf hfuel

/-- Witness for C9: `find_fit` on the three-entry free list of `demoHeap`,
asked for 112 bytes. -/
theorem find_fit_first_fit_witness :
    find_fit demoHeap 10 112 = .ok (firstFit demoHeap [4108, 4156, 5772] 112) ∧
    (firstFit demoHeap [4108, 4156, 5772] 112 ≠ 0 →
      firstFit demoHeap [4108, 4156, 5772] 112 ∈ [4108, 4156, 5772] ∧
      blockSize demoHeap (firstFit demoHeap [4108, 4156, 5772] 112) ≥ 112) ∧
    (firstFit demoHeap [4108, 4156, 5772] 112 = 0 ↔
      ∀ b ∈ [4108, 4156, 5772], blockSize demoHeap b < 112) :=
  find_fit_first_fit demoHeap [4108, 4156, 5772] 112 10 demoHeap_freeList (by decide)

/-- C10: `mm_realloc(ptr, size)` with a non-null `ptr`, a non-zero `size` and a
current block at least as large as `required_block_size(size)` returns `ptr`
and leaves the whole state (all memory bytes, the break, the list head and
tail) as it was. -/
theorem mm_realloc_fits_unchanged (s : Heap) (fuel : Nat) (ptr size : Int)
    (hptr : ptr ≠ 0) (hsize : size ≠ 0)
    (hhdr : s.valid (ptr - 4))
    (hnext : s.valid (ptr - 4 + blockSize s (ptr - 4)))
    (hfit : required_block_size (wrap32 size) ≤ blockSize s (ptr - 4)) :
    mm_realloc s fuel ptr size = .ok (ptr, s) :=
  mm_realloc_fits_eq s fuel ptr size hptr hsize hhdr hnext hfit

/-- Witness for C10: the allocated block at 4140 of `demoHeap` (16 bytes,
payload at 4144) already holds a request of 8 bytes. -/
theorem mm_realloc_fits_unchanged_witness :
    mm_realloc demoHeap 10 4144 8 = .ok (4144, demoHeap) :=
  mm_realloc_fits_unchanged demoHeap 10 4144 8 (by decide) (by decide) (by decide) (by decide)
    (by decide)

/-! ## The properties C11 to C20 -/

/-- C11: the specification has the merge path of `mm_realloc` return `ptr`
with the free next block absorbed whenever the current block is too small and
both together are large enough.  The code does not when that next block is the
first or the last entry of the free list: `mm_list_remove` reads through the
null link of that entry and the call faults. -/
theorem mm_realloc_merge_faults_on_list_end (s : Heap) (pre post : List Block) (b n : Block)
    (fl : List Int) (fuel : Nat) (size : Int) (hwf : WF s (pre ++ b :: n :: post) fl)
    (hn0 : n.alloc = 0) (hs0 : 0 < size)
    (hsmall : b.size < required_block_size (wrap32 size))
    (hbig : required_block_size (wrap32 size) ≤ b.size + n.size)
    (hend : s.mm_list_headp = n.addr ∨ s.mm_list_tailp = n.addr) :
    mm_realloc s fuel (b.addr + 4) size = .error .segv :=
  mm_realloc_merge_end_faults fuel hwf hn0 hs0 hsmall hbig hend

/-- Witness for C11: on `demoHeap` the allocated block at 5756 (16 bytes) is
followed by the free block at 5772 (32 bytes), the tail of the free list;
`mm_realloc(5760, 30)` needs 40 bytes. -/
theorem mm_realloc_merge_faults_on_list_end_witness :
    mm_realloc demoHeap 10 5760 30 = .error .segv :=
  mm_realloc_merge_faults_on_list_end demoHeap
    [{ addr := 4108, size := 32, alloc := 0 }, { addr := 4140, size := 16, alloc := 1 },
      { addr := 4156, size := 1600, alloc := 0 }]
    [] { addr := 5756, size := 16, alloc := 1 } { addr := 5772, size := 32, alloc := 0 }
    demoFree 10 30 demoHeap_wf rfl (by decide) (by decide) (by decide) (Or.inr rfl)

/-- C13: the specification has the fallback path of `mm_realloc` obtain the
fresh block as `mm_malloc(size)` would, for a block of
`required_block_size(size)` bytes.  The code passes the block size to
`mm_malloc` instead of the payload size: whenever the call takes the fallback
path it runs `mm_malloc(required_size)`, which adds the overhead a second time
and asks for a block of `required_size + 8` bytes. -/
theorem mm_realloc_fallback_allocates_for_block_size (s : Heap) (fuel : Nat) (ptr size : Int)
    (hptr : ptr ≠ 0) (hsize : size ≠ 0)
    (hhdr : s.valid (ptr - 4))
    (hnext : s.valid (ptr - 4 + blockSize s (ptr - 4)))
    (hsmall : ¬ blockSize s (ptr - 4) ≥ required_block_size (wrap32 size))
    (hnomerge : ¬ (wrap32 (blockSize s (ptr - 4) + blockSize s (ptr - 4 + blockSize s (ptr - 4)))
        ≥ required_block_size (wrap32 size)
      ∧ blockAlloc s (ptr - 4 + blockSize s (ptr - 4)) = 0))
    (hreq0 : 0 ≤ required_block_size (wrap32 size))
    (hreq1 : required_block_size (wrap32 size) + 15 < 2147483648) :
    mm_realloc s fuel ptr size =
      (do
        let (q, t) ← mm_malloc s fuel (toU32 (required_block_size (wrap32 size)))
        let t ← memcpy t q ptr (toU32 (num_bytes (required_block_size (wrap32 size))))
        let t ← mm_free t ptr
        pure (q, t)) ∧
    spec_realloc_fallback s fuel ptr size =
      (do
        let (q, t) ← mm_malloc s fuel size
        let t ← memcpy t q ptr (toU32 (num_bytes (required_block_size (wrap32 size))))
        let t ← mm_free t ptr
        pure (q, t)) ∧
    required_block_size (wrap32 (toU32 (required_block_size (wrap32 size)))) =
      required_block_size (wrap32 size) + 8 := by
  refine ⟨mm_realloc_fallback_eq s fuel ptr size hptr hsize hhdr hnext hsmall hnomerge, rfl, ?_⟩
  have h8 := required_block_size_mod8 (wrap32 size)
  have e : toU32 (required_block_size (wrap32 size)) = required_block_size (wrap32 size) := by
    simp only [toU32]; omega
  rw [e, required_block_size_exact _ hreq0 hreq1]
  omega

/-- Witness for C13: `mm_realloc(5760, 48)` on `demoHeap` runs `mm_malloc(56)`,
which returns 5696 (a block of 64 bytes at 5692), where `mm_malloc(48)`
returns 5704 (a block of 56 bytes at 5700). -/
theorem mm_realloc_fallback_allocates_for_block_size_witness :
    (mm_realloc demoHeap 10 5760 48 =
      (do
        let (q, t) ← mm_malloc demoHeap 10 56
        let t ← memcpy t q 5760 48
        let t ← mm_free t 5760
        pure (q, t)) ∧
    spec_realloc_fallback demoHeap 10 5760 48 =
      (do
        let (q, t) ← mm_malloc demoHeap 10 48
        let t ← memcpy t q 5760 48
        let t ← mm_free t 5760
        pure (q, t)) ∧
    required_block_size (wrap32 56) = 56 + 8) ∧
    okPtr (mm_malloc demoHeap 10 56) = some 5696 ∧
    okWord (mm_malloc demoHeap 10 56) 5692 = some (64 + 1) ∧
    okPtr (mm_malloc demoHeap 10 48) = some 5704 ∧
    okWord (mm_malloc demoHeap 10 48) 5700 = some (56 + 1) :=
  ⟨mm_realloc_fallback_allocates_for_block_size demoHeap 10 5760 48 (by decide) (by decide)
    (by decide) (by decide) (by decide) (by decide) (by decide) (by decide), rfl, rfl, rfl, rfl⟩

/-- C14: `mm_malloc(0)` returns null and leaves the whole state (every memory
byte, the break, the list head and tail) as it was, in every state. -/
theorem mm_malloc_zero_returns_null (s : Heap) (fuel : Nat) :
    mm_malloc s fuel 0 = .ok (0, s) := by
  simp [mm_malloc]

/-- Counterexample to C15 as stated: `place` on the free block at 4156 of
`demoHeap` (1600 bytes, on the free list) for 1200 bytes leaves a remainder of
400, does not split, and returns the block with its whole size 1600, not the
requested 1200. -/
theorem place_no_split_size_counterexample :
    ∃ t, place demoHeap 4156 1200 = .ok (4156, t) ∧ (4156 : Int) ∈ demoFree ∧
      (1200 : Int) % 8 = 0 ∧ blockSize demoHeap 4156 ≥ 1200 ∧
      blockAlloc t 4156 = 1 ∧ blockSize t 4156 = 1600 ∧ blockSize t 4156 ≠ 1200 := by
  obtain ⟨t, ht⟩ := ok_of_okPtr (show okPtr (place demoHeap 4156 1200) = some 4156 by rfl)
  have hwf : WF demoHeap ([{ addr := 4108, size := 32, alloc := 0 },
      { addr := 4140, size := 16, alloc := 1 }] ++ { addr := 4156, size := 1600, alloc := 0 } ::
      [{ addr := 5756, size := 16, alloc := 1 }, { addr := 5772, size := 32, alloc := 0 }])
      demoFree := demoHeap_wf
  obtain ⟨-, e2, e3, -, -⟩ := place_block hwf rfl (by decide) (by decide) (by decide) ht
  have e : blockSize t 4156 = 1600 := e2
  exact ⟨t, ht, by decide, by decide, by decide, e3, e, by rw [e]; decide⟩

/-- C15 (amended): on a well-formed heap, for a free block `b` on the free
list and a size `s` (a multiple of 8, at least 16) with `block_size(b) ≥ s`,
whenever `place(b, s)` returns, header and footer of the returned block both
report allocated, and both report the size `s` in the two split branches
(remainder above 512) and the whole size `block_size(b)` in the branch that
does not split (remainder at most 512). -/
theorem place_returned_block_marked (s t : Heap) (pre post : List Block) (b : Block)
    (fl : List Int) (size r : Int) (hwf : WF s (pre ++ b :: post) fl) (hb0 : b.alloc = 0)
    (hs16 : 16 ≤ size) (hs8 : size % 8 = 0) (hle : size ≤ b.size)
    (h : place s b.addr size = .ok (r, t)) :
    blockAlloc t r = 1 ∧
    blockSize t r = (if b.size - size > 512 then size else b.size) ∧
    allocOfWord (wordAt t.mem (r + blockSize t r - 4)) = 1 ∧
    sizeOfWord (wordAt t.mem (r + blockSize t r - 4)) =
      (if b.size - size > 512 then size else b.size) := by
  obtain ⟨-, e2, e3, e4, e5⟩ := place_block hwf hb0 hs16 hs8 hle h
  exact ⟨e3, e2, e5, e4⟩

/-- Witness for C15: `place` on the free block at 4156 of `demoHeap` for 64
bytes splits and returns the upper 64 bytes, at 5692. -/
theorem place_returned_block_marked_witness :
    ∃ t, place demoHeap 4156 64 = .ok (5692, t) ∧
      blockAlloc t 5692 = 1 ∧
      blockSize t 5692 = (if (1600 : Int) - 64 > 512 then 64 else 1600) ∧
      allocOfWord (wordAt t.mem (5692 + blockSize t 5692 - 4)) = 1 ∧
      sizeOfWord (wordAt t.mem (5692 + blockSize t 5692 - 4)) =
        (if (1600 : Int) - 64 > 512 then 64 else 1600) := by
  obtain ⟨t, ht⟩ := ok_of_okPtr (show okPtr (place demoHeap 4156 64) = some 5692 by rfl)
  exact ⟨t, ht, place_returned_block_marked demoHeap t
    [{ addr := 4108, size := 32, alloc := 0 }, { addr := 4140, size := 16, alloc := 1 }]
    [{ addr := 5756, size := 16, alloc := 1 }, { addr := 5772, size := 32, alloc := 0 }]
    { addr := 4156, size := 1600, alloc := 0 } demoFree 64 5692 demoHeap_wf rfl (by decide)
    (by decide) (by decide) ht⟩

/-- C16: the specification has `place(b, s)` remove `b` from the free list and
split by the size of the remainder, for every free block on the list.  The code
does so only for a block that is neither the first nor the last entry of the
list: on the first and on the last entry `mm_list_remove` reads through the
null link and `place` faults before any split. -/
theorem place_faults_on_list_end (s : Heap) (bs : List Block) (fl : List Int) (b : Block)
    (size : Int) (hwf : WF s bs fl) (hb : b ∈ bs) (hb0 : b.alloc = 0)
    (hend : s.mm_list_headp = b.addr ∨ s.mm_list_tailp = b.addr) :
    place s b.addr size = .error .segv :=
  place_end_faults hwf hb hb0 size hend

/-- Witness for C16: `place` on the head 4108 of the free list of `demoHeap`. -/
theorem place_faults_on_list_end_witness :
    place demoHeap 4108 16 = .error .segv :=
  place_faults_on_list_end demoHeap demoBlocks demoFree { addr := 4108, size := 32, alloc := 0 }
    16 demoHeap_wf (by decide) rfl (Or.inl rfl)

/-- C17: the specification has `free_coalesce` return the merged free block
for every block of a heap satisfying I1 to I3.  The code does not when the next
block is free and is the first or the last entry of the free list: it calls
`mm_list_remove` on that entry, which reads through the null link, and
`free_coalesce` never returns. -/
theorem free_coalesce_faults_on_list_end (s : Heap) (pre post : List Block) (b n : Block)
    (fl : List Int) (hwf : WFx s pre b (n :: post) fl) (hn0 : n.alloc = 0)
    (hend : s.mm_list_headp = n.addr ∨ s.mm_list_tailp = n.addr) :
    ¬ ∃ r t, free_coalesce s b.addr = .ok (r, t) :=
  fun ⟨r, t, h⟩ => free_coalesce_end_faults hwf hn0 hend r t h

/-- Witness for C17: freeing the block at 5756 of `demoHeap`, whose next block
5772 is free and the tail of the free list. -/
theorem free_coalesce_faults_on_list_end_witness :
    (¬ ∃ r t, free_coalesce demoHeap 5756 = .ok (r, t)) ∧
    isSegv (free_coalesce demoHeap 5756) = true :=
  ⟨free_coalesce_faults_on_list_end demoHeap
    [{ addr := 4108, size := 32, alloc := 0 }, { addr := 4140, size := 16, alloc := 1 },
      { addr := 4156, size := 1600, alloc := 0 }]
    [] { addr := 5756, size := 16, alloc := 1 } { addr := 5772, size := 32, alloc := 0 }
    demoFree (WF.toWFx_alloc demoHeap_wf rfl) rfl (Or.inr rfl), rfl⟩

/-- C18: the specification has `mm_list_remove(b)` leave a well-formed list
without `b` for every entry, updating head or tail when `b` was an end.  The
code does so only for an entry that is neither first nor last (its neighbours
are linked to each other, head and tail stay); on the first entry, the last
entry and the only entry it reads through the null link and faults. -/
theorem mm_list_remove_only_inner_entries (s : Heap) (bs : List Block) (fl : List Int)
    (b : Int) (hwf : WF s bs fl) (hb : b ∈ fl) :
    (s.mm_list_headp = b ∨ s.mm_list_tailp = b → mm_list_remove s b = .error .segv) ∧
    (s.mm_list_headp ≠ b → s.mm_list_tailp ≠ b →
      ∃ t l1 p n l2, mm_list_remove s b = .ok t ∧ fl = l1 ++ p :: b :: n :: l2 ∧
        FreeList t (l1 ++ p :: n :: l2) ∧
        t.mm_list_headp = s.mm_list_headp ∧ t.mm_list_tailp = s.mm_list_tailp) := by
  refine ⟨hwf.remove_end_faults hb, fun hh ht => ?_⟩
  obtain ⟨t, l1, p, n, l2, h1, h2, h3, h4⟩ := hwf.remove_inner hb hh ht
  exact ⟨t, l1, p, n, l2, h1, h2, h3, by rw [h4]; rfl, by rw [h4]; rfl⟩

/-- Witness for C18: the head 4108 of the free list of `demoHeap` faults, the
inner entry 4156 is removed. -/
theorem mm_list_remove_only_inner_entries_witness :
    mm_list_remove demoHeap 4108 = .error .segv ∧
    ∃ t l1 p n l2, mm_list_remove demoHeap 4156 = .ok t ∧
      demoFree = l1 ++ p :: 4156 :: n :: l2 ∧ FreeList t (l1 ++ p :: n :: l2) ∧
      t.mm_list_headp = demoHeap.mm_list_headp ∧ t.mm_list_tailp = demoHeap.mm_list_tailp :=
  ⟨(mm_list_remove_only_inner_entries demoHeap demoBlocks demoFree 4108 demoHeap_wf
      (by decide)).1 (Or.inl rfl),
    (mm_list_remove_only_inner_entries demoHeap demoBlocks demoFree 4156 demoHeap_wf
      (by decide)).2 (by decide) (by decide)⟩

/-- C19: the specification has `mm_list_remove` compare the neighbour
references with null and never read through a null one.  The code tests
`*prev` and `*next`: on a well-linked free list the call faults exactly when
the `prev_free` or the `next_free` link of the entry is null, which is the case
for the head, the tail and the only entry; every other read and write of the
call stays inside the managed region. -/
theorem mm_list_remove_reads_through_null (s : Heap) (fl : List Int) (b : Int)
    (hreg : Region s) (hfl : FreeList s fl) (hb : b ∈ fl) :
    (wordAt s.mem (b + 4) = 0 ∨ wordAt s.mem (b + 8) = 0 →
      mm_list_remove s b = .error .segv) ∧
    (wordAt s.mem (b + 4) ≠ 0 → wordAt s.mem (b + 8) ≠ 0 →
      ∃ t, mm_list_remove s b = .ok t) :=
  mm_list_remove_faults_iff hreg hfl hb

/-- Witness for C19: the tail 5772 of the free list of `demoHeap` has a null
`next_free` link. -/
theorem mm_list_remove_reads_through_null_witness :
    wordAt demoHeap.mem (5772 + 8) = 0 ∧ mm_list_remove demoHeap 5772 = .error .segv :=
  ⟨by decide, (mm_list_remove_reads_through_null demoHeap demoFree 5772 demoHeap_wf.1
    demoHeap_freeList (by decide)).1 (Or.inr (by decide))⟩

/-- C20: along every run from a consistent heap (in particular from the heap
a successful `mm_init` leaves), a non-null payload pointer returned by
`mm_malloc` or by `mm_realloc` lies a multiple of 8 after the first byte of
the heap, the alignment word 4 bytes below `heap_blocks`, which is the first
byte `mm_init` obtained from `mem_sbrk`; every block header of the resulting
heap sits at an offset congruent to 4 modulo 8 from that byte. -/
theorem payload_pointers_aligned (s0 s t : Heap) (live0 live : List Int) (fuel : Nat)
    (q n p : Int) (h0 : Consistent s0 live0) (hr : ReachFrom s0 live0 s live)
    (hn0 : 0 ≤ n) (hn1 : n < 4294967296)
    (hcall : mm_malloc s fuel n = .ok (p, t) ∨
      ((q = 0 ∨ q ∈ live) ∧ mm_realloc s fuel q n = .ok (p, t)))
    (hp : p ≠ 0) :
    (p - (s0.heap_blocks - 4)) % 8 = 0 ∧
    ∃ bs fl, WF t bs fl ∧ ∀ b ∈ bs, (b.addr - (s0.heap_blocks - 4)) % 8 = 4 := by
  have hc := ReachFrom.keeps_consistent h0 hr
  have e := ReachFrom.heap_blocks_eq h0 hr
  obtain ⟨g1, -, g3⟩ := hc.result_aligned hn0 hn1 hcall hp
  rw [e] at g1 g3
  exact ⟨g1, g3⟩

/-- Witness for C20, on heaps whose first byte is 4096: `mm_malloc(100)` on
`demoHeap` returns 5648; `mm_realloc(5760, 100)` on `demoHeap`, through the
fallback path, returns 5640; `mm_realloc(4144, 100)` after the first four
calls of the run on `demoHeap`, through the merge path, returns 4144. -/
theorem payload_pointers_aligned_witness :
    (mm_malloc demoHeap 10 100 = .ok (5648, demoFresh) ∧
      ((5648 : Int) - (demoHeap.heap_blocks - 4)) % 8 = 0 ∧
      ∃ bs fl, WF demoFresh bs fl ∧ ∀ b ∈ bs, (b.addr - (demoHeap.heap_blocks - 4)) % 8 = 4) ∧
    (mm_realloc demoHeap 10 5760 100 = .ok (5640, demoStep1) ∧
      ((5640 : Int) - (demoHeap.heap_blocks - 4)) % 8 = 0 ∧
      ∃ bs fl, WF demoStep1 bs fl ∧ ∀ b ∈ bs, (b.addr - (demoHeap.heap_blocks - 4)) % 8 = 4) ∧
    (ReachFrom demoHeap [4144, 5760] demoStep4 [7896, 5640, 4144] ∧
      mm_realloc demoStep4 10 4144 100 = .ok (4144, demoStep5) ∧
      ((4144 : Int) - (demoHeap.heap_blocks - 4)) % 8 = 0 ∧
      ∃ bs fl, WF demoStep5 bs fl ∧ ∀ b ∈ bs, (b.addr - (demoHeap.heap_blocks - 4)) % 8 = 4) :=
  ⟨⟨demoFresh_eq,
      payload_pointers_aligned demoHeap demoHeap demoFresh [4144, 5760] [4144, 5760] 10 0 100
        5648 demoHeap_consistent ReachFrom.start (by decide) (by decide) (Or.inl demoFresh_eq)
        (by decide)⟩,
    ⟨demoStep1_eq,
      payload_pointers_aligned demoHeap demoHeap demoStep1 [4144, 5760] [4144, 5760] 10 5760 100
        5640 demoHeap_consistent ReachFrom.start (by decide) (by decide)
        (Or.inr ⟨Or.inr (by decide), demoStep1_eq⟩) (by decide)⟩,
    ⟨demoStep4_reach, demoStep5_eq,
      payload_pointers_aligned demoHeap demoStep4 demoStep5 [4144, 5760] [7896, 5640, 4144] 10
        4144 100 4144 demoHeap_consistent demoStep4_reach (by decide) (by decide)
        (Or.inr ⟨Or.inr (by decide), demoStep5_eq⟩) (by decide)⟩⟩

end Mm
